import Mathlib

/-!
Verification of the payment-payload normalization and facilitator-fallback
core of `src/index.js`.

JavaScript strings are modelled as `List Char` (ASCII fragment relevant to
the code: hex digits, decimal digits, whitespace).  JavaScript values that
flow through the normalizers are modelled by the inductive `JSVal`
(JSON-derived values plus `undefined`).  External library functions from
viem (`getAddress`, `parseErc6492Signature`, `serializeSignature`) are not
part of this repository; they are modelled at their documented boundary,
either as explicit oracles passed in as parameters or, for `getAddress`,
as a definition following viem's documented behaviour with the keccak hash
abstracted as an oracle.
-/

namespace X402

/-- JavaScript strings, modelled as lists of characters. -/
abbrev Str := List Char

/-- Whitespace characters removed by JS `trim` / matched by `\s`
    (ASCII fragment: tab, newline, vertical tab, form feed, carriage
    return, space). -/
def isWS (c : Char) : Bool :=
  c.toNat == 32 || (9 ≤ c.toNat && c.toNat ≤ 13)

/-- The hex-digit character class `[0-9a-fA-F]`. -/
def hexDigits : Str := "0123456789abcdefABCDEF".toList

def isHexDigit (c : Char) : Bool := hexDigits.contains c

/-- Lowercase hex characters `[0-9a-f]`. -/
def lowerHexDigits : Str := "0123456789abcdef".toList

def isLowerHex (c : Char) : Bool := lowerHexDigits.contains c

/-- The decimal-digit character class `[0-9]`. -/
def decDigits : Str := "0123456789".toList

def isDigitCh (c : Char) : Bool := decDigits.contains c

/-- ASCII action of JS `toLowerCase` (the code only applies it to strings
    of hex digits). -/
def charLower (c : Char) : Char :=
  match c with
  | 'A' => 'a' | 'B' => 'b' | 'C' => 'c' | 'D' => 'd' | 'E' => 'e' | 'F' => 'f'
  | 'G' => 'g' | 'H' => 'h' | 'I' => 'i' | 'J' => 'j' | 'K' => 'k' | 'L' => 'l'
  | 'M' => 'm' | 'N' => 'n' | 'O' => 'o' | 'P' => 'p' | 'Q' => 'q' | 'R' => 'r'
  | 'S' => 's' | 'T' => 't' | 'U' => 'u' | 'V' => 'v' | 'W' => 'w' | 'X' => 'x'
  | 'Y' => 'y' | 'Z' => 'z'
  | c => c

/-- ASCII action of JS `toUpperCase` (used by the EIP-55 checksum model). -/
def charUpper (c : Char) : Char :=
  match c with
  | 'a' => 'A' | 'b' => 'B' | 'c' => 'C' | 'd' => 'D' | 'e' => 'E' | 'f' => 'F'
  | 'g' => 'G' | 'h' => 'H' | 'i' => 'I' | 'j' => 'J' | 'k' => 'K' | 'l' => 'L'
  | 'm' => 'M' | 'n' => 'N' | 'o' => 'O' | 'p' => 'P' | 'q' => 'Q' | 'r' => 'R'
  | 's' => 'S' | 't' => 'T' | 'u' => 'U' | 'v' => 'V' | 'w' => 'W' | 'x' => 'X'
  | 'y' => 'Y' | 'z' => 'Z'
  | c => c

/-- JS `String.prototype.trim`: strip leading and trailing whitespace. -/
def jsTrim (s : Str) : Str :=
  ((s.dropWhile isWS).reverse.dropWhile isWS).reverse

/-- JS `s.replace(/\s+/g, "")`: remove every whitespace character. -/
def stripWS (s : Str) : Str := s.filter (fun c => !isWS c)

/-- JS `String.prototype.padStart(n, c)`. -/
def padStart (s : Str) (n : Nat) (c : Char) : Str :=
  List.replicate (n - s.length) c ++ s

/-- JS `String.prototype.includes(pat)`. -/
def strContains : Str → Str → Bool
  | s, pat =>
    if pat.isPrefixOf s then true
    else
      match s with
      | [] => false
      | _ :: t => strContains t pat

/-! ### Decimal and hexadecimal rendering of arbitrary-precision integers
(JS `BigInt.prototype.toString` in bases 10 and 16).  The auxiliary
functions carry a structural fuel argument so that they reduce by `rfl`;
fuel `n` is always enough for value `n`. -/

/-- Big-endian decimal digits of `n` (empty for `0`); fuel-indexed. -/
def natToDecAux : Nat → Nat → Str
  | 0, _ => []
  | _ + 1, 0 => []
  | fuel + 1, n + 1 =>
    natToDecAux fuel ((n + 1) / 10) ++ [Nat.digitChar ((n + 1) % 10)]

/-- JS `BigInt(n).toString()`: canonical base-10 rendering. -/
def natToDec (n : Nat) : Str :=
  if n = 0 then ['0'] else natToDecAux n n

/-- Big-endian lowercase hex digits of `n` (empty for `0`); fuel-indexed. -/
def natToHexAux : Nat → Nat → Str
  | 0, _ => []
  | _ + 1, 0 => []
  | fuel + 1, n + 1 =>
    natToHexAux fuel ((n + 1) / 16) ++ [Nat.digitChar ((n + 1) % 16)]

/-- JS `BigInt(n).toString(16)`: canonical lowercase base-16 rendering. -/
def natToHex (n : Nat) : Str :=
  if n = 0 then ['0'] else natToHexAux n n

/-- Numeric value of a string of decimal digits (JS `BigInt("…")` on a
    string matched by `/^[0-9]+$/`). -/
def decToNat (s : Str) : Nat :=
  s.foldl (fun a c => 10 * a + (c.toNat - 48)) 0

/-- Value of one hex digit character. -/
def hexCharVal (c : Char) : Nat :=
  if 48 ≤ c.toNat ∧ c.toNat ≤ 57 then c.toNat - 48
  else if 97 ≤ c.toNat ∧ c.toNat ≤ 102 then c.toNat - 87
  else if 65 ≤ c.toNat ∧ c.toNat ≤ 70 then c.toNat - 55
  else 0

/-- Numeric value of a string of hex digits (JS `BigInt("0x…")` without
    the prefix). -/
def hexToNat (s : Str) : Nat :=
  s.foldl (fun a c => 16 * a + hexCharVal c) 0

/-- JS `String(n)` for an integral number value. -/
def intToDec (n : Int) : Str :=
  if n < 0 then '-' :: natToDec n.natAbs else natToDec n.natAbs

/-! ### JavaScript values

The payloads handled by the normalizers come from JSON, so the value
space is strings, (integral) numbers, booleans, `null`, objects and
arrays, plus `undefined` for absent properties.  Objects are association
lists in property order. -/

mutual
inductive JSVal where
  | str (s : Str)
  | num (n : Int)
  | bool (b : Bool)
  | null
  | undefined
  | obj (fields : JSFields)
  | arr (elems : JSElems)
deriving DecidableEq, Repr

/-- The property list of a JS object, in property order. -/
inductive JSFields where
  | nil
  | cons (k : Str) (v : JSVal) (rest : JSFields)
deriving DecidableEq, Repr

/-- The element list of a JS array. -/
inductive JSElems where
  | nil
  | cons (v : JSVal) (rest : JSElems)
deriving DecidableEq, Repr
end

namespace JSVal

/-- JS loose `value == null`: true exactly for `null` and `undefined`. -/
def isNullish : JSVal → Bool
  | null => true
  | undefined => true
  | _ => false

/-- JS truthiness test. -/
def isTruthy : JSVal → Bool
  | str s => !s.isEmpty
  | num n => n ≠ 0
  | bool b => b
  | null => false
  | undefined => false
  | obj _ => true
  | arr _ => true

def isStr : JSVal → Bool
  | str _ => true
  | _ => false

/-- Is this a non-array object (`typeof v === "object"`, not null, and
    `!Array.isArray(v)`)?  This is the guard shared by the record
    normalizers. -/
def isPlainObj : JSVal → Bool
  | obj _ => true
  | _ => false

end JSVal

open JSVal

mutual
/-- JS `String(v)` on JSON-derived values: strings pass through, numbers
    render in decimal, arrays join their members with commas (nullish
    members render empty), plain objects render "[object Object]". -/
def jsToString : JSVal → Str
  | .str s => s
  | .num n => intToDec n
  | .bool b => if b then "true".toList else "false".toList
  | .null => "null".toList
  | .undefined => "undefined".toList
  | .obj _ => "[object Object]".toList
  | .arr xs => jsElemsToString xs
termination_by structural v => v

/-- The comma-joined rendering of array elements used by `jsToString`
    (JS `Array.prototype.join(",")`; nullish members render empty). -/
def jsElemsToString : JSElems → Str
  | .nil => []
  | .cons v .nil =>
    (match v with
     | .null => []
     | .undefined => []
     | v => jsToString v)
  | .cons v rest =>
    (match v with
     | .null => []
     | .undefined => []
     | v => jsToString v) ++ ',' :: jsElemsToString rest
termination_by structural v => v
end

namespace JSFields

/-- Does the object own property `k`? -/
def hasKey : JSFields → Str → Bool
  | .nil, _ => false
  | .cons k' _ rest, k => k' = k || rest.hasKey k

/-- Property read (JS `o[k]`): first binding wins, absent keys read as
    `undefined`. -/
def get : JSFields → Str → JSVal
  | .nil, _ => .undefined
  | .cons k' v rest, k => if k' = k then v else rest.get k

/-- Replace every binding of key `k` in place. -/
def replaceKey : JSFields → Str → JSVal → JSFields
  | .nil, _, _ => .nil
  | .cons k' v' rest, k, v =>
    if k' = k then .cons k v (rest.replaceKey k v)
    else .cons k' v' (rest.replaceKey k v)

/-- Append a binding at the end. -/
def push : JSFields → Str → JSVal → JSFields
  | .nil, k, v => .cons k v .nil
  | .cons k' v' rest, k, v => .cons k' v' (rest.push k v)

/-- Property write (JS `o[k] = v`): an existing key keeps its position,
    a new key is appended at the end. -/
def set (o : JSFields) (k : Str) (v : JSVal) : JSFields :=
  if o.hasKey k then o.replaceKey k v else o.push k v

end JSFields

/-- Property read on an arbitrary value: primitives own none of the
    payload keys used by this code, so they read as `undefined`. -/
def jget (v : JSVal) (k : Str) : JSVal :=
  match v with
  | .obj o => o.get k
  | _ => .undefined

/-! ### Regular-expression tests used by the normalizers -/

/-- `/^0x[0-9a-fA-F]+$/i`: case-insensitive `0x` prefix, then one or more
    hex digits. -/
def reHex0xI (s : Str) : Bool :=
  match s with
  | a :: c :: rest =>
    a = '0' && (c = 'x' || c = 'X') && !rest.isEmpty && rest.all isHexDigit
  | _ => false

/-- `/^0x[0-9a-fA-F]+$/` (case-sensitive prefix, as in the signature
    normalizer). -/
def reHex0x (s : Str) : Bool :=
  match s with
  | a :: c :: rest => a = '0' && c = 'x' && !rest.isEmpty && rest.all isHexDigit
  | _ => false

/-- `/^(0x)?[0-9a-fA-F]+$/`. -/
def reOptHex0x (s : Str) : Bool :=
  (!s.isEmpty && s.all isHexDigit) || reHex0x s

/-- `/^[0-9a-fA-F]{64}$/`. -/
def reHex64 (s : Str) : Bool :=
  s.length = 64 && s.all isHexDigit

/-- `/^[0-9]+$/`. -/
def reDec (s : Str) : Bool :=
  !s.isEmpty && s.all isDigitCh

/-- `/^[0-9a-fA-F]{1,64}$/`. -/
def reHex1to64 (s : Str) : Bool :=
  !s.isEmpty && s.length ≤ 64 && s.all isHexDigit

/-- `/^0x/i.test s`. -/
def re0xTest (s : Str) : Bool :=
  match s with
  | a :: c :: _ => a = '0' && (c = 'x' || c = 'X')
  | _ => false

/-- `s.startsWith("0x") || s.startsWith("0X")`. -/
def startsWith0xOr0X (s : Str) : Bool :=
  match s with
  | a :: c :: _ => a = '0' && (c = 'x' || c = 'X')
  | _ => false

/-! ### Canonicalizer (`src/index.js`)

`normalizeHexNonce` (lines 169-208), `normalizeAddress` (210-224) and
`normalizeIntegerString` (226-249). -/

/-- String branch of `normalizeHexNonce`. -/
def normalizeHexNonceStr (value : Str) : Str :=
  let trimmed := jsTrim value
  if trimmed.isEmpty then trimmed
  else if reHex0xI trimmed then
    let hex := (trimmed.drop 2).map charLower
    if hex.length = 64 then '0' :: 'x' :: hex
    else if hex.length < 64 then '0' :: 'x' :: padStart hex 64 '0'
    else '0' :: 'x' :: hex.drop (hex.length - 64)
  else if reHex64 trimmed then '0' :: 'x' :: trimmed.map charLower
  else if reDec trimmed then
    '0' :: 'x' :: padStart (natToHex (decToNat trimmed)) 64 '0'
  else if reHex1to64 trimmed then
    '0' :: 'x' :: padStart (trimmed.map charLower) 64 '0'
  else trimmed

/-- `normalizeHexNonce`: non-strings are returned as they are.
    (The `BigInt` conversion in the decimal branch cannot throw on a
    string matched by `/^[0-9]+$/`, so the `try` never takes its
    `catch`.) -/
def normalizeHexNonce : JSVal → JSVal
  | .str s => .str (normalizeHexNonceStr s)
  | v => v

/-- `normalizeIntegerString`: `null`/`undefined` pass through; otherwise
    the value is stringified and trimmed, and decimal or `0x`-hex text is
    re-rendered as canonical base-10.  (`BigInt` cannot throw on the
    regex-matched branches.) -/
def normalizeIntegerString (v : JSVal) : JSVal :=
  if v.isNullish then v
  else
    let asString := jsTrim (jsToString v)
    if asString.isEmpty then .str asString
    else if reDec asString then .str (natToDec (decToNat asString))
    else if reHex0xI asString then .str (natToDec (hexToNat (asString.drop 2)))
    else .str asString

/-- `/^0x[0-9a-fA-F]{40}$/`: the shape viem accepts as an address
    (`isAddress` with `strict: false`). -/
def reAddr (s : Str) : Bool :=
  match s with
  | a :: c :: rest => a = '0' && c = 'x' && rest.length = 40 && rest.all isHexDigit
  | _ => false

/-- EIP-55 case mask applied to the lowercase address body: character `i`
    is upper-cased when the `i`-th nibble of the keccak hash is at least
    8 (`nib i` is that nibble). -/
def checksumBody (nib : Nat → Nat) : Nat → Str → Str
  | _, [] => []
  | i, c :: cs => (if 8 ≤ nib i then charUpper c else c) :: checksumBody nib (i + 1) cs

/-- Modelled from the spec: viem's `checksumAddress` (external library,
    not part of this repository).  The keccak256 hash of the lowercase
    address body is abstracted as the oracle `hash`, which returns the
    `i`-th nibble of the digest of a given ascii string. -/
def checksumAddress (hash : Str → Nat → Nat) (s : Str) : Str :=
  let body := (s.drop 2).map charLower
  '0' :: 'x' :: checksumBody (hash body) 0 body

/-- Modelled from the spec: viem's `getAddress` (external library, not
    part of this repository): it throws unless the input matches
    `/^0x[0-9a-fA-F]{40}$/`, and otherwise returns the EIP-55
    checksummed form.  `none` models the throw. -/
def viemGetAddress (hash : Str → Nat → Nat) (s : Str) : Option Str :=
  if reAddr s then some (checksumAddress hash s) else none

/-- String branch of `normalizeAddress` (lines 210-224): trim, force a
    lowercase `0x` prefix when an `/^0x/i` prefix is present, then try
    viem `getAddress`, falling back to the prefix-normalized string. -/
def normalizeAddressStr (hash : Str → Nat → Nat) (value : Str) : Str :=
  let trimmed := jsTrim value
  if trimmed.isEmpty then trimmed
  else
    let np := if re0xTest trimmed then '0' :: 'x' :: trimmed.drop 2 else trimmed
    match viemGetAddress hash np with
    | some a => a
    | none => np

/-- `normalizeAddress`: non-strings are returned as they are. -/
def normalizeAddress (hash : Str → Nat → Nat) : JSVal → JSVal
  | .str s => .str (normalizeAddressStr hash s)
  | v => v

/-! ### ResilientFacilitatorClient (`src/index.js` lines 70-144)

A facilitator call is a single round trip that either returns a result or
throws; a thrown JS value is modelled as `Except.error` carrying the
`JSVal`.  The composed client's methods are instrumented with call
traces: each method returns its outcome together with the list of
`(payload, requirements)` argument pairs passed to the primary client
and to the fallback client. -/

/-- `shouldFallbackForFacilitatorError` (lines 70-82): an error is
    retried against the fallback iff its `invalidReason` is
    `"invalid_payload"` or its message contains `"invalid_payload"`,
    `"Unexpected token"` or `"Failed to parse"`. -/
def shouldFallbackForFacilitatorError (error : JSVal) : Bool :=
  if !error.isTruthy then false
  else
    let reason := match jget error "invalidReason".toList with
      | .str s => s
      | _ => []
    let message := match jget error "message".toList with
      | .str s => s
      | _ => []
    reason = "invalid_payload".toList ||
      strContains message "invalid_payload".toList ||
      strContains message "Unexpected token".toList ||
      strContains message "Failed to parse".toList

/-- `createFallbackFacilitatorClient(...).verify` (lines 86-108): try the
    primary; rethrow unless the error is payload-format-classified;
    otherwise call the fallback once with the same arguments and return
    its outcome (its own error, after being logged, is rethrown
    unchanged). -/
def fallbackClientVerify {P R O : Type} (primary fallback : P → R → Except JSVal O)
    (p : P) (r : R) : Except JSVal O × List (P × R) × List (P × R) :=
  match primary p r with
  | .ok v => (.ok v, [(p, r)], [])
  | .error e =>
    if shouldFallbackForFacilitatorError e then
      (fallback p r, [(p, r)], [(p, r)])
    else
      (.error e, [(p, r)], [])

/-- `createFallbackFacilitatorClient(...).settle` (lines 109-131): same
    structure as `verify`. -/
def fallbackClientSettle {P R O : Type} (primary fallback : P → R → Except JSVal O)
    (p : P) (r : R) : Except JSVal O × List (P × R) × List (P × R) :=
  match primary p r with
  | .ok v => (.ok v, [(p, r)], [])
  | .error e =>
    if shouldFallbackForFacilitatorError e then
      (fallback p r, [(p, r)], [(p, r)])
    else
      (.error e, [(p, r)], [])

/-- `createFallbackFacilitatorClient(...).getSupported` (lines 132-142):
    on any primary failure, unconditionally call the fallback and return
    its result. -/
def fallbackClientGetSupported {O : Type} (primary fallback : Unit → Except JSVal O) :
    Except JSVal O × List Unit × List Unit :=
  match primary () with
  | .ok v => (.ok v, [()], [])
  | .error _ => (fallback (), [()], [()])

/-! ### SignatureNormalizer (`src/index.js` lines 308-429)

viem's `parseErc6492Signature` is an external library function; it is
abstracted as the oracle `parse : Str → Except Unit Str` returning the
`signature` field of the parse result, with `Except.error` modelling a
throw.  viem's `serializeSignature` is likewise abstracted as an
oracle. -/

structure SigResult where
  signature : JSVal
  changed : Bool
  wasErc6492 : Bool
  erc6492Unwrapped : Bool
  erc6492Depth : Nat
deriving DecidableEq, Repr

structure UnwrapState where
  normalized : Str
  changed : Bool
  wasErc6492 : Bool
  erc6492Unwrapped : Bool
  erc6492Depth : Nat
deriving DecidableEq, Repr

/-- The bounded unwrap loop (lines 342-363): `fuel` is the remaining
    iteration budget of `for (let depth = 0; depth < 5; depth += 1)`;
    each `break` returns the current state. -/
def unwrapLoop (parse : Str → Except Unit Str) : Nat → UnwrapState → UnwrapState
  | 0, st => st
  | fuel + 1, st =>
    match parse st.normalized with
    | .error _ => st
    | .ok sig =>
      if sig.isEmpty || !reHex0x sig then st
      else
        let st := { st with wasErc6492 := true }
        if sig = st.normalized then st
        else
          let st := { st with
            normalized := sig
            changed := true
            erc6492Unwrapped := true
            erc6492Depth := st.erc6492Depth + 1 }
          if st.normalized.length ≤ 132 then st
          else unwrapLoop parse fuel st

/-- Lines 335-372 of the string branch: given the prefix-normalized hex
    candidate and the `changed` flag, run the bounded unwrap when the
    value is `0x`-hex and longer than 132 characters. -/
def normalizeSignatureHex (parse : Str → Except Unit Str) (normalizedHex : Str)
    (changed : Bool) : SigResult :=
  if reHex0x normalizedHex && decide (normalizedHex.length > 132) then
    let st := unwrapLoop parse 5
      { normalized := normalizedHex, changed := changed, wasErc6492 := false,
        erc6492Unwrapped := false, erc6492Depth := 0 }
    { signature := .str st.normalized, changed := st.changed,
      wasErc6492 := st.wasErc6492, erc6492Unwrapped := st.erc6492Unwrapped,
      erc6492Depth := st.erc6492Depth }
  else
    { signature := .str normalizedHex, changed := changed, wasErc6492 := false,
      erc6492Unwrapped := false, erc6492Depth := 0 }

/-- String branch of `normalizeSignaturePayload` (lines 319-373). -/
def normalizeSignatureStr (parse : Str → Except Unit Str) (signature : Str) : SigResult :=
  let compact := stripWS (jsTrim signature)
  if compact.isEmpty then
    { signature := .str compact, changed := compact ≠ signature, wasErc6492 := false,
      erc6492Unwrapped := false, erc6492Depth := 0 }
  else
    let normalizedHex :=
      if reOptHex0x compact then
        if startsWith0xOr0X compact then '0' :: 'x' :: compact.drop 2
        else '0' :: 'x' :: compact
      else compact
    normalizeSignatureHex parse normalizedHex (normalizedHex ≠ signature)

/-- JS `Number(v)` restricted to the integral values that occur here;
    `none` models NaN (and, conservatively, composite values). -/
def jsToNumber : JSVal → Option Int
  | .num n => some n
  | .bool b => some (if b then 1 else 0)
  | .null => some 0
  | .undefined => none
  | .str s =>
    let t := jsTrim s
    if t.isEmpty then some 0
    else if reDec t then some (decToNat t)
    else if reHex0xI t then some (hexToNat (t.drop 2))
    else
      match t with
      | '-' :: d => if reDec d then some (-(decToNat d : Int)) else none
      | _ => none
  | .obj _ => none
  | .arr _ => none

/-- `normalizeSignaturePayload` (lines 308-429).  `parse` abstracts viem
    `parseErc6492Signature`; `serialize` abstracts viem
    `serializeSignature` applied to `(r, s, v, yParity)`. -/
def normalizeSignaturePayload (parse : Str → Except Unit Str)
    (serialize : Str → Str → Option Int → Option Int → Except Unit Str) :
    JSVal → SigResult
  | .str s => normalizeSignatureStr parse s
  | .obj o =>
    match o.get "signature".toList with
    | .str inner =>
      let nested := normalizeSignatureStr parse inner
      { signature := nested.signature, changed := true,
        wasErc6492 := nested.wasErc6492, erc6492Unwrapped := nested.erc6492Unwrapped,
        erc6492Depth := nested.erc6492Depth }
    | _ =>
      match o.get "r".toList, o.get "s".toList with
      | .str rv, .str sv =>
        if !(o.get "v".toList).isNullish || !(o.get "yParity".toList).isNullish then
          let parsedV := if !(o.get "v".toList).isNullish
            then jsToNumber (o.get "v".toList) else none
          let parsedYParity := if !(o.get "yParity".toList).isNullish
            then jsToNumber (o.get "yParity".toList) else none
          let normalizedV := parsedV
          let normalizedYParity := if normalizedV.isNone then parsedYParity else none
          match serialize rv sv normalizedV normalizedYParity with
          | .ok out =>
            { signature := .str out, changed := true, wasErc6492 := false,
              erc6492Unwrapped := false, erc6492Depth := 0 }
          | .error _ =>
            { signature := .obj o, changed := false, wasErc6492 := false,
              erc6492Unwrapped := false, erc6492Depth := 0 }
        else
          { signature := .obj o, changed := false, wasErc6492 := false,
            erc6492Unwrapped := false, erc6492Depth := 0 }
      | _, _ =>
        { signature := .obj o, changed := false, wasErc6492 := false,
          erc6492Unwrapped := false, erc6492Depth := 0 }
  | v =>
    { signature := v, changed := false, wasErc6492 := false,
      erc6492Unwrapped := false, erc6492Depth := 0 }

/-! ### AuthorizationNormalizer (`src/index.js` lines 251-306) -/

/-- The `stringFields` list of `normalizeAuthorizationPayload`. -/
def authStringFields : List Str :=
  ["from".toList, "to".toList, "value".toList, "validAfter".toList,
   "validBefore".toList, "nonce".toList]

/-- The `numberFields` list of `normalizeAuthorizationPayload`. -/
def authNumberFields : List Str :=
  ["value".toList, "validAfter".toList, "validBefore".toList]

/-- One iteration of the `stringFields` loop (lines 260-274): skip
    nullish fields, otherwise stringify-and-trim, recording a change when
    the result differs from the stored value.  (The second branch of the
    source, for a non-string equal to its trimmed stringification, is
    unreachable but kept.) -/
def authStringStep (st : JSFields × Bool) (f : Str) : JSFields × Bool :=
  let cur := st.1.get f
  if cur.isNullish then st
  else
    let s := jsTrim (jsToString cur)
    if JSVal.str s ≠ cur then (st.1.set f (.str s), true)
    else if !cur.isStr then (st.1.set f (.str s), true)
    else st

/-- The `normalizeAddress` pass over one field (lines 276-286). -/
def authAddrStep (hash : Str → Nat → Nat) (st : JSFields × Bool) (f : Str) :
    JSFields × Bool :=
  let cur := st.1.get f
  let nf := normalizeAddress hash cur
  if nf ≠ cur then (st.1.set f nf, true) else st

/-- The `normalizeIntegerString` pass over one field (lines 288-295). -/
def authIntStep (st : JSFields × Bool) (f : Str) : JSFields × Bool :=
  let cur := st.1.get f
  let nf := normalizeIntegerString cur
  if nf ≠ cur then (st.1.set f nf, true) else st

/-- The `nonce` pass (lines 297-303). -/
def authNonceStep (st : JSFields × Bool) : JSFields × Bool :=
  let cur := st.1.get "nonce".toList
  if cur.isStr then
    let nn := normalizeHexNonce cur
    if nn ≠ cur then (st.1.set "nonce".toList nn, true) else st
  else st

/-- `normalizeAuthorizationPayload` (lines 251-306): non-objects (and
    arrays) pass through with `changed = false`; otherwise the record is
    copied and canonicalized field by field. -/
def normalizeAuthorizationPayload (hash : Str → Nat → Nat) (auth : JSVal) :
    JSVal × Bool :=
  match auth with
  | .obj o =>
    let st := authStringFields.foldl authStringStep (o, false)
    let st := authAddrStep hash st "from".toList
    let st := authAddrStep hash st "to".toList
    let st := authNumberFields.foldl authIntStep st
    let st := authNonceStep st
    (.obj st.1, st.2)
  | v => (v, false)

/-! ### Heap model

The record normalizers copy their argument (`{...auth}`, with nested
copies of `permitted`/`witness`) and then mutate the copies in place.
To state that the argument itself is never mutated, the two functions
are also embedded against an explicit heap: objects live at numeric
references, `{...o}` is an allocation, and property assignment is a
heap write.  JSON-derived heaps are acyclic; the stringification fuel
`h.objs.length + 1` is sufficient for them. -/

inductive HVal where
  | hstr (s : Str)
  | hnum (n : Int)
  | hbool (b : Bool)
  | hnull
  | hundefined
  | href (r : Nat)
deriving DecidableEq, Repr

namespace HVal

/-- JS loose `value == null`. -/
def isNullish : HVal → Bool
  | hnull => true
  | hundefined => true
  | _ => false

def isStr : HVal → Bool
  | hstr _ => true
  | _ => false

end HVal

/-- A heap object: a property list plus an array marker (`{...arr}`
    spreads an array's index properties into a plain object, so copies
    always carry `isArr := false`). -/
structure HObj where
  isArr : Bool
  fields : List (Str × HVal)
deriving DecidableEq, Repr

/-- Property read on a heap-object property list. -/
def ogetH : List (Str × HVal) → Str → HVal
  | [], _ => .hundefined
  | (k', v') :: rest, k => if k' = k then v' else ogetH rest k

/-- Property write on a heap-object property list: an existing key keeps
    its position, a new key is appended. -/
def osetH (o : List (Str × HVal)) (k : Str) (v : HVal) : List (Str × HVal) :=
  if o.any (fun p => p.1 = k) then
    o.map (fun p => if p.1 = k then (k, v) else p)
  else
    o ++ [(k, v)]

structure Heap where
  objs : List (Nat × HObj)
  next : Nat
deriving DecidableEq, Repr

namespace Heap

def find (h : Heap) (r : Nat) : Option HObj :=
  h.objs.lookup r

/-- Allocate a fresh object (JS object-literal / spread construction). -/
def alloc (h : Heap) (o : HObj) : Heap × Nat :=
  ({ objs := (h.next, o) :: h.objs, next := h.next + 1 }, h.next)

/-- Property assignment `(*r)[k] = v`. -/
def write (h : Heap) (r : Nat) (k : Str) (v : HVal) : Heap :=
  { h with
    objs := h.objs.map (fun p =>
      if p.1 = r then (r, { p.2 with fields := osetH p.2.fields k v }) else p) }

/-- Well-formedness: every allocated reference is below `next`. -/
def wfb (h : Heap) : Bool :=
  h.objs.all (fun p => p.1 < h.next)

end Heap

/-- Read property `k` of the object at reference `r`. -/
def hread (h : Heap) (r : Nat) (k : Str) : HVal :=
  match h.find r with
  | some o => ogetH o.fields k
  | none => .hundefined

/-- Heap extension: the new heap only grew by allocation — every
    reference below the old allocation frontier resolves exactly as
    before, so no pre-existing object (the argument record and anything
    it reaches included) was mutated. -/
def HeapExt (h0 h : Heap) : Prop :=
  h0.next ≤ h.next ∧ ∀ r, r < h0.next → h.find r = h0.find r

/-- A value is write-safe relative to `h0`: if it is a reference, it is
    fresh (at or above `h0.next`) or dangling in `h0`, so writing through
    it can never change an object that existed in `h0`. -/
def SafeV (h0 : Heap) (v : HVal) : Prop :=
  ∀ t, v = .href t → h0.next ≤ t ∨ h0.find t = none

/-- Invariant carried through the normalizer pipelines: the heap only
    grew from `h0`, and the fresh record at `n` still holds `pv`/`wv` in
    its `permitted`/`witness` slots (no pipeline step writes those keys). -/
def StepInv (h0 : Heap) (n : Nat) (pv wv : HVal) (h : Heap) : Prop :=
  HeapExt h0 h ∧ hread h n "permitted".toList = pv ∧
    hread h n "witness".toList = wv

/-- Comma-join used by the array case of `String(...)`. -/
def joinCommaStrs : List Str → Str
  | [] => []
  | [s] => s
  | s :: rest => s ++ ',' :: joinCommaStrs rest

/-- JS `String(v)` over the heap, with structural fuel for the array
    recursion (JSON-derived heaps are acyclic, and fuel
    `h.objs.length + 1` is then always sufficient). -/
def hToString : Nat → Heap → HVal → Str
  | _, _, .hstr s => s
  | _, _, .hnum n => intToDec n
  | _, _, .hbool b => if b then "true".toList else "false".toList
  | _, _, .hnull => "null".toList
  | _, _, .hundefined => "undefined".toList
  | 0, _, .href _ => []
  | fuel + 1, h, .href r =>
    match h.find r with
    | some o =>
      if o.isArr then
        joinCommaStrs (o.fields.map (fun p =>
          match p.2 with
          | .hnull => []
          | .hundefined => []
          | v => hToString fuel h v))
      else "[object Object]".toList
    | none => "[object Object]".toList

/-- `String(v)` at the default fuel. -/
def hToStr (h : Heap) (v : HVal) : Str :=
  hToString (h.objs.length + 1) h v

/-- Heap variant of `normalizeIntegerString`. -/
def normalizeIntegerStringH (h : Heap) (v : HVal) : HVal :=
  if v.isNullish then v
  else
    let asString := jsTrim (hToStr h v)
    if asString.isEmpty then .hstr asString
    else if reDec asString then .hstr (natToDec (decToNat asString))
    else if reHex0xI asString then .hstr (natToDec (hexToNat (asString.drop 2)))
    else .hstr asString

/-- Heap variant of `normalizeAddress`. -/
def normalizeAddressH (hash : Str → Nat → Nat) : HVal → HVal
  | .hstr s => .hstr (normalizeAddressStr hash s)
  | v => v

/-- Heap variant of `normalizeHexNonce`. -/
def normalizeHexNonceH : HVal → HVal
  | .hstr s => .hstr (normalizeHexNonceStr s)
  | v => v

/-- The `normalizeStringField(obj, key)` closure of
    `normalizePermit2AuthorizationPayload` (lines 460-474), also the body
    of the `stringFields` loop of `normalizeAuthorizationPayload`: a
    non-reference target owns no payload key (or is falsy), so only
    reference targets can be read or written. -/
def normalizeStringFieldH (h : Heap) (changed : Bool) (target : HVal) (k : Str) :
    Heap × Bool :=
  match target with
  | .href r =>
    let cur := hread h r k
    if cur.isNullish then (h, changed)
    else
      let s := jsTrim (hToStr h cur)
      if HVal.hstr s ≠ cur then (h.write r k (.hstr s), true)
      else if !cur.isStr then (h.write r k (.hstr s), true)
      else (h, changed)
  | _ => (h, changed)

/-- The address pass over field `k` of the object at `r`. -/
def addrFieldH (hash : Str → Nat → Nat) (h : Heap) (changed : Bool) (r : Nat)
    (k : Str) : Heap × Bool :=
  let cur := hread h r k
  let nf := normalizeAddressH hash cur
  if nf ≠ cur then (h.write r k nf, true) else (h, changed)

/-- The integer pass over field `k` of the object at `r`. -/
def intFieldH (h : Heap) (changed : Bool) (r : Nat) (k : Str) : Heap × Bool :=
  let cur := hread h r k
  let nv := normalizeIntegerStringH h cur
  if nv ≠ cur then (h.write r k nv, true) else (h, changed)

/-- The nonce pass of `normalizeAuthorizationPayload` (lines 292-303):
    only a string-valued `nonce` is rewritten. -/
def nonceFieldH (h : Heap) (changed : Bool) (r : Nat) : Heap × Bool :=
  if (hread h r "nonce".toList).isStr then
    let nn := normalizeHexNonceH (hread h r "nonce".toList)
    if nn ≠ hread h r "nonce".toList then (h.write r "nonce".toList nn, true)
    else (h, changed)
  else (h, changed)

/-- The `permitted.token` address pass (lines 505-512): only runs when
    the normalized record's `permitted` slot is a (truthy) object. -/
def permittedTokenH (hash : Str → Nat → Nat) (h : Heap) (changed : Bool)
    (n : Nat) : Heap × Bool :=
  match hread h n "permitted".toList with
  | .href rp => addrFieldH hash h changed rp "token".toList
  | _ => (h, changed)

/-- The `witness.extra` hex pass (lines 516-519 region): trim a string
    `extra`, then 0x-prefix it when it is bare hex. -/
def witnessExtraH (h : Heap) (changed : Bool) (rw2 : Nat) : Heap × Bool :=
  match hread h rw2 "extra".toList with
  | .hstr ex =>
    let (h2, c2) :=
      if jsTrim ex ≠ ex then (h.write rw2 "extra".toList (.hstr (jsTrim ex)), true)
      else (h, changed)
    match hread h2 rw2 "extra".toList with
    | .hstr ex2 =>
      if !ex2.isEmpty && ex2.all isHexDigit then
        (h2.write rw2 "extra".toList (.hstr ('0' :: 'x' :: ex2)), true)
      else (h2, c2)
    | _ => (h2, c2)
  | _ => (h, changed)

/-- The `witness` block (lines 513-521): when the normalized record's
    `witness` slot is an object, checksum `witness.to` and fix up
    `witness.extra`. -/
def witnessBlockH (hash : Str → Nat → Nat) (h : Heap) (changed : Bool)
    (n : Nat) : Heap × Bool :=
  match hread h n "witness".toList with
  | .href rw2 =>
    let (h2, c2) := addrFieldH hash h changed rw2 "to".toList
    witnessExtraH h2 c2 rw2
  | _ => (h, changed)

/-- A two-step integer path (e.g. `permitted.amount`): only runs when
    the intermediate slot holds an object. -/
def nestedIntH (h : Heap) (changed : Bool) (n : Nat) (p1 key : Str) :
    Heap × Bool :=
  match hread h n p1 with
  | .href r => intFieldH h changed r key
  | _ => (h, changed)

/-- One entry of the `integerPaths` loop (lines 522-546): resolve the
    (at most two-step) path from the normalized record, skipping when an
    intermediate value is not a truthy object. -/
def permit2IntPath (h : Heap) (changed : Bool) (n : Nat) : List Str → Heap × Bool
  | [key] => intFieldH h changed n key
  | [p1, key] => nestedIntH h changed n p1 key
  | _ => (h, changed)

/-- Copy step for the nested `permitted` / `witness` sub-records in the
    spread `{...p, permitted: ..., witness: ...}`: an object value is
    shallow-copied into a fresh plain object, anything else is kept. -/
def copySub (h : Heap) (v : HVal) : Heap × HVal :=
  match v with
  | .href r =>
    match h.find r with
    | some o =>
      let (h2, n) := h.alloc { isArr := false, fields := o.fields }
      (h2, .href n)
    | none => (h, v)
  | _ => (h, v)

/-- The `stringFields` loop of the permit2 normalizer (lines 475-496):
    trim-stringify the four record fields and the nested
    `permitted.token/amount` and `witness.to/validAfter/extra`. -/
def permit2StringsH (hash : Str → Nat → Nat) (st : Heap × Bool) (n : Nat) :
    Heap × Bool :=
  let (h, changed) := st
  let (h, changed) := normalizeStringFieldH h changed (.href n) "from".toList
  let (h, changed) := normalizeStringFieldH h changed (.href n) "spender".toList
  let (h, changed) := normalizeStringFieldH h changed (.href n) "nonce".toList
  let (h, changed) := normalizeStringFieldH h changed (.href n) "deadline".toList
  let (h, changed) :=
    normalizeStringFieldH h changed (hread h n "permitted".toList) "token".toList
  let (h, changed) :=
    normalizeStringFieldH h changed (hread h n "permitted".toList) "amount".toList
  let (h, changed) :=
    normalizeStringFieldH h changed (hread h n "witness".toList) "to".toList
  let (h, changed) :=
    normalizeStringFieldH h changed (hread h n "witness".toList) "validAfter".toList
  normalizeStringFieldH h changed (hread h n "witness".toList) "extra".toList

/-- The address section of the permit2 normalizer (lines 497-521):
    `from`/`spender` on the record, then `permitted.token` and the
    `witness` block. -/
def permit2AddrsH (hash : Str → Nat → Nat) (st : Heap × Bool) (n : Nat) :
    Heap × Bool :=
  let (h, changed) := st
  let (h, changed) := addrFieldH hash h changed n "from".toList
  let (h, changed) := addrFieldH hash h changed n "spender".toList
  let (h, changed) := permittedTokenH hash h changed n
  witnessBlockH hash h changed n

/-- The `integerPaths` loop of the permit2 normalizer (lines 522-546). -/
def permit2IntsH (st : Heap × Bool) (n : Nat) : Heap × Bool :=
  let (h, changed) := st
  let (h, changed) := permit2IntPath h changed n ["nonce".toList]
  let (h, changed) := permit2IntPath h changed n ["deadline".toList]
  let (h, changed) := permit2IntPath h changed n ["permitted".toList, "amount".toList]
  permit2IntPath h changed n ["witness".toList, "validAfter".toList]

/-- Body of the heap embedding of
    `normalizePermit2AuthorizationPayload` (lines 447-548), applied to
    the object `o` found at the argument reference. -/
def permit2BodyH (hash : Str → Nat → Nat) (h : Heap) (o : HObj) :
    Heap × HVal × Bool :=
  let (h, pv) := copySub h (ogetH o.fields "permitted".toList)
  let (h, wv) := copySub h (ogetH o.fields "witness".toList)
  let base := osetH (osetH o.fields "permitted".toList pv) "witness".toList wv
  let (h, n) := h.alloc { isArr := false, fields := base }
  let st := permit2StringsH hash (h, false) n
  let st := permit2AddrsH hash st n
  let st := permit2IntsH st n
  (st.1, .href n, st.2)

/-- Heap embedding of `normalizePermit2AuthorizationPayload`
    (lines 442-549): non-objects and arrays pass through, otherwise the
    body runs on a fresh copy. -/
def normalizePermit2AuthorizationPayloadH (hash : Str → Nat → Nat) (h : Heap)
    (v : HVal) : Heap × HVal × Bool :=
  match v with
  | .href a =>
    match h.find a with
    | some o => if o.isArr then (h, v, false) else permit2BodyH hash h o
    | none => (h, v, false)
  | _ => (h, v, false)

/-- Body of the heap embedding of `normalizeAuthorizationPayload`
    (lines 256-305), applied to the object `o` found at the argument
    reference. -/
def authBodyH (hash : Str → Nat → Nat) (h : Heap) (o : HObj) :
    Heap × HVal × Bool :=
  let (h, n) := h.alloc { isArr := false, fields := o.fields }
  let (h, changed) := normalizeStringFieldH h false (.href n) "from".toList
  let (h, changed) := normalizeStringFieldH h changed (.href n) "to".toList
  let (h, changed) := normalizeStringFieldH h changed (.href n) "value".toList
  let (h, changed) := normalizeStringFieldH h changed (.href n) "validAfter".toList
  let (h, changed) := normalizeStringFieldH h changed (.href n) "validBefore".toList
  let (h, changed) := normalizeStringFieldH h changed (.href n) "nonce".toList
  let (h, changed) := addrFieldH hash h changed n "from".toList
  let (h, changed) := addrFieldH hash h changed n "to".toList
  let (h, changed) := intFieldH h changed n "value".toList
  let (h, changed) := intFieldH h changed n "validAfter".toList
  let (h, changed) := intFieldH h changed n "validBefore".toList
  let (h, changed) := nonceFieldH h changed n
  (h, .href n, changed)

/-- Heap embedding of `normalizeAuthorizationPayload` (lines 251-306). -/
def normalizeAuthorizationPayloadH (hash : Str → Nat → Nat) (h : Heap) (v : HVal) :
    Heap × HVal × Bool :=
  match v with
  | .href a =>
    match h.find a with
    | some o => if o.isArr then (h, v, false) else authBodyH hash h o
    | none => (h, v, false)
  | _ => (h, v, false)

/-- Spec-side predicate for claim statements: a canonical nonce is `0x`
    followed by exactly 64 lowercase hex characters. -/
def isNonce64 (s : Str) : Bool :=
  s.length = 66 && s.take 2 = ['0', 'x'] && (s.drop 2).all isLowerHex

/-! Spec-side helpers for stating the field-wise factoring of
`normalizeAuthorizationPayload`: the stringify-and-trim first pass, the
nonce second pass, and the shape shared by all four per-field passes of
the source (write back and set `changed` exactly when the transform
produces a different value). -/

/-- The first (stringify-and-trim) pass applied to one field value. -/
def stringPassCanon (v : JSVal) : JSVal :=
  if v.isNullish then v else .str (jsTrim (jsToString v))

/-- The nonce second pass applied to one field value. -/
def nonceFieldCanon (v : JSVal) : JSVal :=
  if v.isStr then normalizeHexNonce v else v

/-- The common shape of one per-field pass. -/
def fieldStep (g : JSVal → JSVal) (f : Str) (st : JSFields × Bool) :
    JSFields × Bool :=
  if g (st.1.get f) ≠ st.1.get f then (st.1.set f (g (st.1.get f)), true) else st

/-! ## Lemmas: character classes -/

theorem isHexDigit_mem {c : Char} (h : isHexDigit c = true) : c ∈ hexDigits := by
  simpa [isHexDigit, List.contains] using h

theorem isDigitCh_mem {c : Char} (h : isDigitCh c = true) : c ∈ decDigits := by
  simpa [isDigitCh, List.contains] using h

theorem isLowerHex_mem {c : Char} (h : isLowerHex c = true) : c ∈ lowerHexDigits := by
  simpa [isLowerHex, List.contains] using h

theorem hexDigit_not_ws {c : Char} (h : isHexDigit c = true) : isWS c = false := by
  have hall : hexDigits.all (fun c => !isWS c) = true := by decide
  have := List.all_eq_true.mp hall c (isHexDigit_mem h)
  simpa using this

theorem digit_not_ws {c : Char} (h : isDigitCh c = true) : isWS c = false := by
  have hall : decDigits.all (fun c => !isWS c) = true := by decide
  have := List.all_eq_true.mp hall c (isDigitCh_mem h)
  simpa using this

theorem lowerHex_not_ws {c : Char} (h : isLowerHex c = true) : isWS c = false := by
  have hall : lowerHexDigits.all (fun c => !isWS c) = true := by decide
  have := List.all_eq_true.mp hall c (isLowerHex_mem h)
  simpa using this

theorem digit_isHexDigit {c : Char} (h : isDigitCh c = true) : isHexDigit c = true := by
  have hall : decDigits.all isHexDigit = true := by decide
  exact List.all_eq_true.mp hall c (isDigitCh_mem h)

theorem lowerHex_isHexDigit {c : Char} (h : isLowerHex c = true) : isHexDigit c = true := by
  have hall : lowerHexDigits.all isHexDigit = true := by decide
  exact List.all_eq_true.mp hall c (isLowerHex_mem h)

theorem charLower_lowerHex {c : Char} (h : isHexDigit c = true) :
    isLowerHex (charLower c) = true := by
  have hall : hexDigits.all (fun c => isLowerHex (charLower c)) = true := by decide
  exact List.all_eq_true.mp hall c (isHexDigit_mem h)

theorem charUpper_isHexDigit {c : Char} (h : isHexDigit c = true) :
    isHexDigit (charUpper c) = true := by
  have hall : hexDigits.all (fun c => isHexDigit (charUpper c)) = true := by decide
  exact List.all_eq_true.mp hall c (isHexDigit_mem h)

theorem hexDigit_not_x {c : Char} (h : isHexDigit c = true) : (c = 'x') = False := by
  have hall : hexDigits.all (fun c => c ≠ 'x') = true := by decide
  have := List.all_eq_true.mp hall c (isHexDigit_mem h)
  simp at this
  simp [this]

theorem charLower_charUpper_of_lower {c : Char} (h : isLowerHex c = true) :
    charLower (charUpper c) = c := by
  have hall : lowerHexDigits.all (fun c => charLower (charUpper c) = c) = true := by decide
  have := List.all_eq_true.mp hall c (isLowerHex_mem h)
  simpa using this

theorem charLower_of_lower {c : Char} (h : isLowerHex c = true) : charLower c = c := by
  have hall : lowerHexDigits.all (fun c => charLower c = c) = true := by decide
  have := List.all_eq_true.mp hall c (isLowerHex_mem h)
  simpa using this

theorem hexDigit_not_ws_b {c : Char} (h : isHexDigit c = true) : (!isWS c) = true := by
  simp [hexDigit_not_ws h]

/-! ## Lemmas: trim -/

theorem dropWhile_all_not {p : Char → Bool} {s : Str}
    (h : ∀ c ∈ s, p c = false) : s.dropWhile p = s := by
  cases s with
  | nil => rfl
  | cons a l => simp [List.dropWhile_cons, h a (by simp)]

theorem jsTrim_eq_self {s : Str} (h : ∀ c ∈ s, isWS c = false) : jsTrim s = s := by
  unfold jsTrim
  rw [dropWhile_all_not h, dropWhile_all_not, List.reverse_reverse]
  intro c hc
  exact h c (by simpa using hc)

theorem dropWhile_head_not {p : Char → Bool} {l : Str} {c : Char}
    (h : (l.dropWhile p).head? = some c) : p c = false := by
  induction l with
  | nil => simp at h
  | cons a t ih =>
    by_cases hp : p a
    · rw [List.dropWhile_cons, if_pos hp] at h
      exact ih h
    · rw [List.dropWhile_cons, if_neg hp] at h
      simp at h
      subst h
      simpa using hp

theorem dropWhile_idem (p : Char → Bool) (l : Str) :
    (l.dropWhile p).dropWhile p = l.dropWhile p := by
  cases hh : (l.dropWhile p) with
  | nil => rfl
  | cons a t =>
    have ha : p a = false := dropWhile_head_not (by rw [hh]; rfl)
    rw [List.dropWhile_cons, if_neg (by simp [ha])]

theorem jsTrim_idem (s : Str) : jsTrim (jsTrim s) = jsTrim s := by
  unfold jsTrim
  set A := s.dropWhile isWS with hA
  set B := A.reverse.dropWhile isWS with hB
  have hBsuffix : B <:+ A.reverse := by
    rw [hB]; exact List.dropWhile_suffix isWS
  -- B.reverse is a prefix of A, so its head (if any) is A's head,
  -- which fails isWS.
  have hpre : B.reverse <+: A := by
    have := List.IsSuffix.reverse hBsuffix
    simpa using this
  have h1 : B.reverse.dropWhile isWS = B.reverse := by
    cases hBr : B.reverse with
    | nil => rfl
    | cons a t =>
      have hAhead : A.head? = some a := by
        rcases hpre with ⟨u, hu⟩
        rw [hBr] at hu
        rw [← hu]
        rfl
      have ha : isWS a = false := by
        apply dropWhile_head_not (p := isWS) (l := s)
        rw [← hA, hAhead]
      rw [List.dropWhile_cons, if_neg (by simp [ha])]
  rw [h1, List.reverse_reverse, hB, dropWhile_idem]

/-- `jsTrim` of a string whose first and last characters are non-WS is
    itself (head via `dropWhile`, tail via the reversed side). -/
theorem jsTrim_cons_of_ends {a : Char} {s : Str}
    (hhead : isWS a = false)
    (hlast : ∀ c, (a :: s).getLast? = some c → isWS c = false) :
    jsTrim (a :: s) = a :: s := by
  unfold jsTrim
  have h1 : (a :: s).dropWhile isWS = a :: s := by
    rw [List.dropWhile_cons, if_neg (by simp [hhead])]
  rw [h1]
  have h2 : (a :: s).reverse.dropWhile isWS = (a :: s).reverse := by
    cases hr : (a :: s).reverse with
    | nil => simp at hr
    | cons b t =>
      have hb : (a :: s).getLast? = some b := by
        rw [← List.head?_reverse, hr]; rfl
      rw [List.dropWhile_cons, if_neg (by simp [hlast b hb])]
  rw [h2, List.reverse_reverse]

/-! ## Lemmas: decimal / hexadecimal rendering -/

theorem digitChar_dec {d : Nat} (h : d < 10) : isDigitCh (Nat.digitChar d) = true := by
  interval_cases d <;> decide

theorem digitChar_hex {d : Nat} (h : d < 16) : isLowerHex (Nat.digitChar d) = true := by
  interval_cases d <;> decide

theorem digitChar_val_dec {d : Nat} (h : d < 10) : (Nat.digitChar d).toNat - 48 = d := by
  interval_cases d <;> decide

theorem digitChar_val_hex {d : Nat} (h : d < 16) : hexCharVal (Nat.digitChar d) = d := by
  interval_cases d <;> decide

theorem digitChar_ne_zero {d : Nat} (h1 : 1 ≤ d) (h2 : d < 10) :
    Nat.digitChar d ≠ '0' := by
  interval_cases d <;> decide

theorem decToNat_append (l : Str) (c : Char) :
    decToNat (l ++ [c]) = 10 * decToNat l + (c.toNat - 48) := by
  simp [decToNat, List.foldl_append]

theorem hexToNat_append (l : Str) (c : Char) :
    hexToNat (l ++ [c]) = 16 * hexToNat l + hexCharVal c := by
  simp [hexToNat, List.foldl_append]

theorem natToDecAux_zero (fuel : Nat) : natToDecAux fuel 0 = [] := by
  cases fuel <;> rfl

theorem natToHexAux_zero (fuel : Nat) : natToHexAux fuel 0 = [] := by
  cases fuel <;> rfl

theorem natToDecAux_digits :
    ∀ fuel n, n ≤ fuel → ∀ c ∈ natToDecAux fuel n, isDigitCh c = true := by
  intro fuel
  induction fuel with
  | zero => intro n _ c hc; simp [natToDecAux] at hc
  | succ fuel ih =>
    intro n hn c hc
    match n with
    | 0 => simp [natToDecAux] at hc
    | m + 1 =>
      rw [natToDecAux] at hc
      rcases List.mem_append.mp hc with hc | hc
      · exact ih _ (by
          have : (m + 1) / 10 < m + 1 := Nat.div_lt_self (by omega) (by omega)
          omega) c hc
      · simp at hc
        subst hc
        exact digitChar_dec (Nat.mod_lt _ (by omega))

theorem natToDecAux_val :
    ∀ fuel n, n ≤ fuel → decToNat (natToDecAux fuel n) = n := by
  intro fuel
  induction fuel with
  | zero =>
    intro n hn
    interval_cases n
    simp [natToDecAux, decToNat]
  | succ fuel ih =>
    intro n hn
    match n with
    | 0 => simp [natToDecAux, decToNat]
    | m + 1 =>
      rw [natToDecAux, decToNat_append]
      have hdiv : (m + 1) / 10 < m + 1 := Nat.div_lt_self (by omega) (by omega)
      rw [ih ((m + 1) / 10) (by omega),
        digitChar_val_dec (Nat.mod_lt _ (by omega))]
      omega

theorem natToDecAux_head :
    ∀ fuel n, 1 ≤ n → n ≤ fuel →
      ∃ d t, natToDecAux fuel n = d :: t ∧ d ≠ '0' := by
  intro fuel
  induction fuel with
  | zero => intro n h1 h2; omega
  | succ fuel ih =>
    intro n h1 h2
    match n with
    | m + 1 =>
      rw [natToDecAux]
      by_cases hq : (m + 1) / 10 = 0
      · rw [hq]
        refine ⟨Nat.digitChar ((m + 1) % 10), [], ?_, ?_⟩
        · rw [natToDecAux_zero]; rfl
        · have hlt : m + 1 < 10 := by
            rcases Nat.lt_or_ge (m + 1) 10 with h | h
            · exact h
            · exact absurd hq (by
                have : 1 ≤ (m + 1) / 10 := (Nat.le_div_iff_mul_le (by omega)).mpr (by omega)
                omega)
          have : (m + 1) % 10 = m + 1 := Nat.mod_eq_of_lt hlt
          rw [this]
          exact digitChar_ne_zero (by omega) hlt
      · have hdiv : (m + 1) / 10 < m + 1 := Nat.div_lt_self (by omega) (by omega)
        obtain ⟨d, t, heq, hd⟩ := ih ((m + 1) / 10) (by omega) (by omega)
        exact ⟨d, t ++ [Nat.digitChar ((m + 1) % 10)], by rw [heq]; simp, hd⟩

theorem natToDec_digits (n : Nat) : ∀ c ∈ natToDec n, isDigitCh c = true := by
  unfold natToDec
  split
  · intro c hc; simp at hc; subst hc; decide
  · exact natToDecAux_digits n n le_rfl

theorem decToNat_natToDec (n : Nat) : decToNat (natToDec n) = n := by
  unfold natToDec
  split
  · subst_eqs; decide
  · exact natToDecAux_val n n le_rfl

theorem natToDec_ne_nil (n : Nat) : natToDec n ≠ [] := by
  unfold natToDec
  split
  · simp
  · rename_i h
    obtain ⟨d, t, heq, _⟩ := natToDecAux_head n n (by omega) le_rfl
    rw [heq]; simp

theorem natToDec_head_zero {n : Nat} {t : Str} (h : natToDec n = '0' :: t) : n = 0 := by
  by_contra hn
  rw [natToDec, if_neg hn] at h
  obtain ⟨d, t', heq, hd⟩ := natToDecAux_head n n (by omega) le_rfl
  rw [heq] at h
  simp only [List.cons.injEq] at h
  exact hd h.1

theorem natToHexAux_digits :
    ∀ fuel n, n ≤ fuel → ∀ c ∈ natToHexAux fuel n, isLowerHex c = true := by
  intro fuel
  induction fuel with
  | zero => intro n _ c hc; simp [natToHexAux] at hc
  | succ fuel ih =>
    intro n hn c hc
    match n with
    | 0 => simp [natToHexAux] at hc
    | m + 1 =>
      rw [natToHexAux] at hc
      rcases List.mem_append.mp hc with hc | hc
      · exact ih _ (by
          have : (m + 1) / 16 < m + 1 := Nat.div_lt_self (by omega) (by omega)
          omega) c hc
      · simp at hc
        subst hc
        exact digitChar_hex (Nat.mod_lt _ (by omega))

theorem natToHexAux_len :
    ∀ fuel n k, n ≤ fuel → n < 16 ^ k → (natToHexAux fuel n).length ≤ k := by
  intro fuel
  induction fuel with
  | zero => intro n k _ _; simp [natToHexAux]
  | succ fuel ih =>
    intro n k hn hk
    match n with
    | 0 => simp [natToHexAux]
    | m + 1 =>
      rw [natToHexAux]
      match k with
      | 0 => simp at hk
      | j + 1 =>
        have hdiv : (m + 1) / 16 < m + 1 := Nat.div_lt_self (by omega) (by omega)
        have hq : (m + 1) / 16 < 16 ^ j := by
          rw [Nat.div_lt_iff_lt_mul (by omega)]
          calc m + 1 < 16 ^ (j + 1) := hk
          _ = 16 ^ j * 16 := by ring
        have := ih ((m + 1) / 16) j (by omega) hq
        simp only [List.length_append, List.length_cons, List.length_nil]
        omega

theorem natToHex_digits (n : Nat) : ∀ c ∈ natToHex n, isLowerHex c = true := by
  unfold natToHex
  split
  · intro c hc; simp at hc; subst hc; decide
  · exact natToHexAux_digits n n le_rfl

theorem natToHex_len {n k : Nat} (h1 : 1 ≤ k) (h : n < 16 ^ k) :
    (natToHex n).length ≤ k := by
  unfold natToHex
  split
  · simpa using h1
  · exact natToHexAux_len n n k le_rfl h

theorem natToHexAux_val :
    ∀ fuel n, n ≤ fuel → hexToNat (natToHexAux fuel n) = n := by
  intro fuel
  induction fuel with
  | zero =>
    intro n hn
    interval_cases n
    simp [natToHexAux, hexToNat]
  | succ fuel ih =>
    intro n hn
    match n with
    | 0 => simp [natToHexAux, hexToNat]
    | m + 1 =>
      rw [natToHexAux, hexToNat_append]
      have hdiv : (m + 1) / 16 < m + 1 := Nat.div_lt_self (by omega) (by omega)
      rw [ih ((m + 1) / 16) (by omega),
        digitChar_val_hex (Nat.mod_lt _ (by omega))]
      omega

theorem hexToNat_natToHex (n : Nat) : hexToNat (natToHex n) = n := by
  unfold natToHex
  split
  · subst_eqs; decide
  · exact natToHexAux_val n n le_rfl

/-! ## Lemmas: padStart -/

theorem padStart_length {s : Str} {n : Nat} {c : Char} (h : s.length ≤ n) :
    (padStart s n c).length = n := by
  simp [padStart]
  omega

theorem mem_padStart {s : Str} {n : Nat} {c x : Char} (h : x ∈ padStart s n c) :
    x = c ∨ x ∈ s := by
  rcases List.mem_append.mp h with h | h
  · left; exact List.eq_of_mem_replicate h
  · right; exact h

/-! ## Claim C1 -/

/-- C1: for the composed client's `verify` and `settle`, a primary
    failure whose error is payload-format-classified (reason code
    `invalid_payload` or a JSON-parse-style message, per
    `shouldFallbackForFacilitatorError`) leads to exactly one fallback
    call with the identical payload and requirements, whose outcome
    (success or its own error) is returned; a primary failure that is
    not so classified leads to no fallback call and the primary's error
    propagating unchanged. -/
theorem verify_settle_fallback_policy {P R O : Type}
    (primary fallback : P → R → Except JSVal O) (p : P) (r : R) (e : JSVal)
    (hp : primary p r = .error e) :
    (shouldFallbackForFacilitatorError e = true →
      fallbackClientVerify primary fallback p r = (fallback p r, [(p, r)], [(p, r)]) ∧
      fallbackClientSettle primary fallback p r = (fallback p r, [(p, r)], [(p, r)])) ∧
    (shouldFallbackForFacilitatorError e = false →
      fallbackClientVerify primary fallback p r = (.error e, [(p, r)], []) ∧
      fallbackClientSettle primary fallback p r = (.error e, [(p, r)], [])) := by
  constructor <;> intro hc <;>
    simp [fallbackClientVerify, fallbackClientSettle, hp, hc]

/-- Witness for C1 at concrete clients: a primary rejecting with reason
    `invalid_payload` falls back exactly once and returns the fallback's
    success; a primary rejecting with an `insufficient_funds` message
    never touches the fallback. -/
theorem verify_settle_fallback_policy_witness :
    shouldFallbackForFacilitatorError
      (.obj (.cons "invalidReason".toList (.str "invalid_payload".toList) .nil)) = true ∧
    fallbackClientVerify
      (fun (_ _ : Nat) =>
        (Except.error
          (JSVal.obj (.cons "invalidReason".toList (.str "invalid_payload".toList) .nil)) :
          Except JSVal Nat))
      (fun _ _ => Except.ok 7) 1 2 = (Except.ok 7, [(1, 2)], [(1, 2)]) ∧
    shouldFallbackForFacilitatorError
      (.obj (.cons "message".toList (.str "insufficient_funds".toList) .nil)) = false ∧
    fallbackClientVerify
      (fun (_ _ : Nat) =>
        (Except.error
          (JSVal.obj (.cons "message".toList (.str "insufficient_funds".toList) .nil)) :
          Except JSVal Nat))
      (fun _ _ => Except.ok 7) 1 2 =
      (Except.error
        (JSVal.obj (.cons "message".toList (.str "insufficient_funds".toList) .nil)),
       [(1, 2)], []) := by
  refine ⟨by decide, ?_, by decide, ?_⟩
  · exact ((verify_settle_fallback_policy _ (fun _ _ => Except.ok 7) 1 2 _ rfl).1
      (by decide)).1
  · exact ((verify_settle_fallback_policy _ (fun _ _ => Except.ok 7) 1 2 _ rfl).2
      (by decide)).1

/-! ## Claim C5 -/

/-- C5: the composed client's `getSupported` retries against the
    fallback exactly once on every primary failure, with no error
    classification, and returns the fallback's result; this policy is
    strictly broader than the classified policy of `verify`/`settle`
    (some error — e.g. an `insufficient_funds` message — is retried by
    `getSupported` but not by `verify`). -/
theorem getSupported_fallback_policy {O : Type}
    (primary fallback : Unit → Except JSVal O) :
    (∀ e, primary () = .error e →
      fallbackClientGetSupported primary fallback = (fallback (), [()], [()])) ∧
    (∀ v, primary () = .ok v →
      fallbackClientGetSupported primary fallback = (.ok v, [()], [])) ∧
    (∃ e : JSVal, shouldFallbackForFacilitatorError e = false ∧
      ∀ (p f : Nat → Nat → Except JSVal Nat) (a b : Nat), p a b = .error e →
        fallbackClientVerify p f a b = (.error e, [(a, b)], [])) := by
  refine ⟨?_, ?_, ?_⟩
  · intro e he; simp [fallbackClientGetSupported, he]
  · intro v hv; simp [fallbackClientGetSupported, hv]
  · refine ⟨.obj (.cons "message".toList (.str "insufficient_funds".toList) .nil),
      by decide, ?_⟩
    intro p f a b hp
    exact ((verify_settle_fallback_policy p f a b _ hp).2 (by decide)).1

/-! ## Claim C2 -/

theorem jsTrim_of_all_hex {s : Str} (h : s.all isHexDigit = true) : jsTrim s = s :=
  jsTrim_eq_self (fun c hc => hexDigit_not_ws (List.all_eq_true.mp h c hc))

theorem jsTrim_of_all_digits {s : Str} (h : s.all isDigitCh = true) : jsTrim s = s :=
  jsTrim_eq_self (fun c hc => digit_not_ws (List.all_eq_true.mp h c hc))

theorem reHex0xI_shape {s : Str} (h : reHex0xI s = true) :
    ∃ c rest, s = '0' :: c :: rest ∧ (c = 'x' ∨ c = 'X') ∧ rest ≠ [] ∧
      rest.all isHexDigit = true := by
  match s with
  | [] => simp [reHex0xI] at h
  | [a] => simp [reHex0xI] at h
  | a :: c :: rest =>
    simp only [reHex0xI, Bool.and_eq_true, decide_eq_true_eq, Bool.or_eq_true,
      Bool.not_eq_true'] at h
    obtain ⟨⟨⟨ha, hc⟩, hne⟩, hall⟩ := h
    exact ⟨c, rest, by rw [ha], hc, by simpa using hne, hall⟩

theorem allHex_not_reHex0xI {s : Str} (h : s.all isHexDigit = true) :
    reHex0xI s = false := by
  cases hx : reHex0xI s
  · rfl
  · obtain ⟨c, rest, hs, hc, -, -⟩ := reHex0xI_shape hx
    subst hs
    have hch : isHexDigit c = true := List.all_eq_true.mp h c (by simp)
    rcases hc with rfl | rfl <;> exact absurd hch (by decide)

theorem isNonce64_of_body {body : Str} (hlen : body.length = 64)
    (hall : ∀ x ∈ body, isLowerHex x = true) :
    isNonce64 ('0' :: 'x' :: body) = true := by
  simp [isNonce64, hlen]
  exact hall

/-- C2, amended: the canonical-nonce law actually implemented.
    For `0x`/`0X`-prefixed hex the result is `0x` plus exactly 64
    lowercase hex characters, left-padded with zeros when shorter and
    right-truncated to the last 64 when longer; unprefixed hex of
    exactly 64 characters is lowercased and prefixed; unprefixed
    all-digit text is converted as decimal to hex and left-padded (a
    canonical 64-character nonce results whenever the value is below
    2^256 — larger values are not truncated); other unprefixed hex of at
    most 64 characters is lowercased and left-padded.  (Unprefixed hex
    longer than 64 characters is returned unchanged — see the
    counterexample.) -/
theorem hexNonce_canonical_form (s : Str) :
    (reHex0xI s = true →
      normalizeHexNonceStr s =
        '0' :: 'x' ::
          (if ((s.drop 2).map charLower).length ≤ 64 then
            padStart ((s.drop 2).map charLower) 64 '0'
          else
            ((s.drop 2).map charLower).drop (((s.drop 2).map charLower).length - 64)) ∧
      isNonce64 (normalizeHexNonceStr s) = true) ∧
    (reHex64 s = true →
      normalizeHexNonceStr s = '0' :: 'x' :: s.map charLower ∧
      isNonce64 (normalizeHexNonceStr s) = true) ∧
    (reDec s = true → s.length ≠ 64 →
      normalizeHexNonceStr s = '0' :: 'x' :: padStart (natToHex (decToNat s)) 64 '0' ∧
      (decToNat s < 16 ^ 64 → isNonce64 (normalizeHexNonceStr s) = true)) ∧
    (reHex1to64 s = true → reDec s = false → s.length ≠ 64 →
      normalizeHexNonceStr s = '0' :: 'x' :: padStart (s.map charLower) 64 '0' ∧
      isNonce64 (normalizeHexNonceStr s) = true) := by
  refine ⟨?_, ?_, ?_, ?_⟩
  · -- prefixed hex
    intro h
    obtain ⟨c, rest, hs, hc, hne, hall⟩ := reHex0xI_shape h
    subst hs
    simp only [List.drop_succ_cons, List.drop_zero]
    have htrim : jsTrim ('0' :: c :: rest) = '0' :: c :: rest := by
      apply jsTrim_eq_self
      intro x hx
      simp at hx
      rcases hx with rfl | rfl | hx
      · decide
      · rcases hc with rfl | rfl <;> decide
      · exact hexDigit_not_ws (List.all_eq_true.mp hall x hx)
    have hbody : ∀ x ∈ rest.map charLower, isLowerHex x = true := by
      intro x hx
      obtain ⟨a, ha, rfl⟩ := List.mem_map.mp hx
      exact charLower_lowerHex (List.all_eq_true.mp hall a ha)
    have heq : normalizeHexNonceStr ('0' :: c :: rest) =
        (if (rest.map charLower).length = 64 then '0' :: 'x' :: rest.map charLower
         else if (rest.map charLower).length < 64 then
           '0' :: 'x' :: padStart (rest.map charLower) 64 '0'
         else '0' :: 'x' ::
           (rest.map charLower).drop ((rest.map charLower).length - 64)) := by
      simp only [normalizeHexNonceStr, htrim, h, List.isEmpty_cons, if_neg,
        Bool.false_eq_true, not_false_eq_true, if_false, if_true, List.drop_succ_cons,
        List.drop_zero]
    rw [heq]
    constructor
    · by_cases h64 : (rest.map charLower).length = 64
      · rw [if_pos h64, if_pos (by omega)]
        simp [padStart, h64, List.drop_succ_cons]
      · rw [if_neg h64]
        by_cases hlt : (rest.map charLower).length < 64
        · rw [if_pos hlt, if_pos (by omega)]
        · rw [if_neg hlt, if_neg (by omega)]
    · by_cases h64 : (rest.map charLower).length = 64
      · rw [if_pos h64]
        exact isNonce64_of_body h64 hbody
      · rw [if_neg h64]
        by_cases hlt : (rest.map charLower).length < 64
        · rw [if_pos hlt]
          refine isNonce64_of_body (padStart_length (by omega)) ?_
          intro x hx
          rcases mem_padStart hx with rfl | hx
          · decide
          · exact hbody x hx
        · rw [if_neg hlt]
          refine isNonce64_of_body (by rw [List.length_drop]; omega) ?_
          intro x hx
          exact hbody x (List.mem_of_mem_drop hx)
  · -- unprefixed, exactly 64 hex chars
    intro h
    have hall : s.all isHexDigit = true := by
      simp only [reHex64, Bool.and_eq_true] at h
      exact h.2
    have hlen : s.length = 64 := by
      simp only [reHex64, Bool.and_eq_true, decide_eq_true_eq] at h
      exact h.1
    have h0 : reHex0xI s = false := allHex_not_reHex0xI hall
    have htrim := jsTrim_of_all_hex hall
    have hbody : ∀ x ∈ s.map charLower, isLowerHex x = true := by
      intro x hx
      obtain ⟨a, ha, rfl⟩ := List.mem_map.mp hx
      exact charLower_lowerHex (List.all_eq_true.mp hall a ha)
    have heq : normalizeHexNonceStr s = '0' :: 'x' :: s.map charLower := by
      simp only [normalizeHexNonceStr, htrim, h0, h]
      rw [if_neg (by simp [List.isEmpty_iff]; intro hs; rw [hs] at hlen; simp at hlen)]
      simp
    rw [heq]
    exact ⟨rfl, isNonce64_of_body (by simp [hlen]) hbody⟩
  · -- decimal text
    intro h hlen
    have hall : s.all isDigitCh = true := by
      simp only [reDec, Bool.and_eq_true] at h
      exact h.2
    have hne : s ≠ [] := by
      simp only [reDec, Bool.and_eq_true, Bool.not_eq_true'] at h
      simpa [List.isEmpty_iff] using h.1
    have hallhex : s.all isHexDigit = true :=
      List.all_eq_true.mpr fun c hc => digit_isHexDigit (List.all_eq_true.mp hall c hc)
    have h0 : reHex0xI s = false := allHex_not_reHex0xI hallhex
    have h64 : reHex64 s = false := by simp [reHex64, hlen]
    have htrim := jsTrim_of_all_digits hall
    have heq : normalizeHexNonceStr s =
        '0' :: 'x' :: padStart (natToHex (decToNat s)) 64 '0' := by
      simp only [normalizeHexNonceStr, htrim, h0, h64, h]
      rw [if_neg (by simpa [List.isEmpty_iff] using hne)]
      simp
    rw [heq]
    refine ⟨rfl, ?_⟩
    intro hbound
    refine isNonce64_of_body (padStart_length (natToHex_len (by omega) hbound)) ?_
    intro x hx
    rcases mem_padStart hx with rfl | hx
    · decide
    · exact List.all_eq_true.mp (List.all_eq_true.mpr (natToHex_digits (decToNat s))) x hx
  · -- unprefixed hex, at most 64 chars, not all digits
    intro h hdec hlen
    have hall : s.all isHexDigit = true := by
      simp only [reHex1to64, Bool.and_eq_true] at h
      exact h.2
    have hle : s.length ≤ 64 := by
      simp only [reHex1to64, Bool.and_eq_true, decide_eq_true_eq] at h
      exact h.1.2
    have hne : s ≠ [] := by
      simp only [reHex1to64, Bool.and_eq_true, Bool.not_eq_true'] at h
      simpa [List.isEmpty_iff] using h.1.1
    have h0 : reHex0xI s = false := allHex_not_reHex0xI hall
    have h64 : reHex64 s = false := by simp [reHex64, hlen]
    have htrim := jsTrim_of_all_hex hall
    have hbody : ∀ x ∈ s.map charLower, isLowerHex x = true := by
      intro x hx
      obtain ⟨a, ha, rfl⟩ := List.mem_map.mp hx
      exact charLower_lowerHex (List.all_eq_true.mp hall a ha)
    have heq : normalizeHexNonceStr s =
        '0' :: 'x' :: padStart (s.map charLower) 64 '0' := by
      simp only [normalizeHexNonceStr, htrim, h0, h64, hdec, h]
      rw [if_neg (by simpa [List.isEmpty_iff] using hne)]
      simp
    rw [heq]
    refine ⟨rfl, isNonce64_of_body (padStart_length (by simpa using hle)) ?_⟩
    intro x hx
    rcases mem_padStart hx with rfl | hx
    · decide
    · exact hbody x hx

/-- Counterexample for C2 as stated: an input denoting hex without the
    `0x` prefix and longer than 64 characters (65 `a`s) is returned
    unchanged, not right-truncated to a canonical `0x` + 64-hex-char
    nonce. -/
theorem hexNonce_claim_counterexample :
    normalizeHexNonceStr (List.replicate 65 'a') = List.replicate 65 'a' ∧
    isNonce64 (normalizeHexNonceStr (List.replicate 65 'a')) = false := by
  decide

/-- Witness for C2 (amended): `normalizeHexNonce("123")` is the
    zero-padded 64-hex-char form of `0x7b`, and a `0X`-prefixed
    66-hex-char input truncates to its trailing 64 characters,
    lowercased. -/
theorem hexNonce_canonical_form_witness :
    normalizeHexNonceStr "123".toList =
      '0' :: 'x' :: padStart (natToHex (decToNat "123".toList)) 64 '0' ∧
    normalizeHexNonceStr "123".toList =
      "0x000000000000000000000000000000000000000000000000000000000000007b".toList ∧
    isNonce64 (normalizeHexNonceStr ("0X".toList ++ List.replicate 66 'A')) = true := by
  refine ⟨?_, by decide, ?_⟩
  · exact ((hexNonce_canonical_form "123".toList).2.2.1 (by decide) (by decide)).1
  · exact ((hexNonce_canonical_form ("0X".toList ++ List.replicate 66 'A')).1
      (by decide)).2

/-! ## Claim C7 -/

theorem reHex0xI_not_reDec {s : Str} (h : reHex0xI s = true) : reDec s = false := by
  obtain ⟨c, rest, hs, hc, -, -⟩ := reHex0xI_shape h
  subst hs
  cases hd : reDec ('0' :: c :: rest)
  · rfl
  · simp only [reDec, Bool.and_eq_true] at hd
    have := List.all_eq_true.mp hd.2 c (by simp)
    rcases hc with rfl | rfl <;> exact absurd this (by decide)

/-- C7, amended: decimal digit strings (with or without leading zeros),
    `0x`-hex strings (case-insensitive prefix and digits) and
    non-negative integral numbers all map to the canonical base-10
    string of their value, with no leading zeros, for arbitrary
    magnitudes (in particular beyond 64 and 256 bits); any other input
    is passed through as its trimmed string conversion (so already
    trimmed non-numeric strings are returned unchanged). -/
theorem integerString_canonical :
    (∀ s : Str, reDec s = true →
      normalizeIntegerString (.str s) = .str (natToDec (decToNat s))) ∧
    (∀ s : Str, reHex0xI s = true →
      normalizeIntegerString (.str s) = .str (natToDec (hexToNat (s.drop 2)))) ∧
    (∀ n : Nat, n < 10 ^ 21 →
      normalizeIntegerString (.num (n : Int)) = .str (natToDec n)) ∧
    (∀ n : Nat, decToNat (natToDec n) = n ∧
      (∀ c ∈ natToDec n, isDigitCh c = true) ∧
      (∀ t, natToDec n = '0' :: t → n = 0)) ∧
    (∀ s : Str, reDec (jsTrim s) = false → reHex0xI (jsTrim s) = false →
      normalizeIntegerString (.str s) = .str (jsTrim s)) := by
  refine ⟨?_, ?_, ?_, ?_, ?_⟩
  · intro s h
    have hall : s.all isDigitCh = true := by
      simp only [reDec, Bool.and_eq_true] at h
      exact h.2
    have hne : ¬s.isEmpty = true := by
      simp only [reDec, Bool.and_eq_true, Bool.not_eq_true'] at h
      simp [h.1]
    simp only [normalizeIntegerString, JSVal.isNullish, Bool.false_eq_true,
      if_false, jsToString, jsTrim_of_all_digits hall, h]
    rw [if_neg hne]
    simp
  · intro s h
    obtain ⟨c, rest, hs, hc, hne, hall⟩ := reHex0xI_shape h
    have htrim : jsTrim s = s := by
      subst hs
      apply jsTrim_eq_self
      intro x hx
      simp at hx
      rcases hx with rfl | rfl | hx
      · decide
      · rcases hc with rfl | rfl <;> decide
      · exact hexDigit_not_ws (List.all_eq_true.mp hall x hx)
    have hdec : reDec s = false := reHex0xI_not_reDec h
    have hnemp : ¬s.isEmpty = true := by subst hs; simp
    simp only [normalizeIntegerString, JSVal.isNullish, Bool.false_eq_true,
      if_false, jsToString, htrim, hdec, h]
    rw [if_neg hnemp]
    simp
  · intro n _
    have hstr : jsToString (.num (n : Int)) = natToDec n := by
      simp [jsToString, intToDec]
    have hall : (natToDec n).all isDigitCh = true :=
      List.all_eq_true.mpr (natToDec_digits n)
    have hne : ¬(natToDec n).isEmpty = true := by
      simp [List.isEmpty_iff, natToDec_ne_nil n]
    have hdec : reDec (natToDec n) = true := by
      simp only [reDec, Bool.and_eq_true]
      exact ⟨by simpa using hne, hall⟩
    simp only [normalizeIntegerString, JSVal.isNullish, Bool.false_eq_true,
      if_false, hstr, jsTrim_of_all_digits hall, hdec]
    rw [if_neg hne]
    simp [decToNat_natToDec]
  · intro n
    exact ⟨decToNat_natToDec n, natToDec_digits n, fun t ht => natToDec_head_zero ht⟩
  · intro s hdec hhex
    by_cases hemp : (jsTrim s).isEmpty = true
    · simp only [normalizeIntegerString, JSVal.isNullish, Bool.false_eq_true,
        if_false, jsToString]
      rw [if_pos hemp]
    · simp only [normalizeIntegerString, JSVal.isNullish, Bool.false_eq_true,
        if_false, jsToString, hdec, hhex, ite_self]

/-- Counterexample for C7 as stated: the non-numeric input `" abc "` is
    not passed through unchanged — it is trimmed to `"abc"`. -/
theorem integerString_claim_counterexample :
    normalizeIntegerString (.str " abc ".toList) = .str "abc".toList ∧
    JSVal.str "abc".toList ≠ JSVal.str " abc ".toList := by
  decide

/-- Witness for C7 (amended): `"123"`, `"0x7b"`, `"0123"` and the
    number `123` all map to `"123"`; `"0"` maps to `"0"`; a 257-bit
    magnitude round-trips exactly. -/
theorem integerString_canonical_witness :
    normalizeIntegerString (.str "123".toList) = .str "123".toList ∧
    normalizeIntegerString (.str "0123".toList) = .str "123".toList ∧
    normalizeIntegerString (.str "0x7b".toList) = .str "123".toList ∧
    normalizeIntegerString (.num 123) = .str "123".toList ∧
    normalizeIntegerString (.str "0".toList) = .str "0".toList ∧
    decToNat (natToDec (2 ^ 256)) = 2 ^ 256 := by
  refine ⟨?_, ?_, ?_, ?_, ?_, ?_⟩
  · rw [integerString_canonical.1 "123".toList (by decide)]; decide
  · rw [integerString_canonical.1 "0123".toList (by decide)]; decide
  · rw [integerString_canonical.2.1 "0x7b".toList (by decide)]; decide
  · have := integerString_canonical.2.2.1 123 (by norm_num)
    rw [show ((123 : Nat) : Int) = (123 : Int) by norm_num] at this
    rw [this]; decide
  · rw [integerString_canonical.1 "0".toList (by decide)]; decide
  · exact (integerString_canonical.2.2.2.1 (2 ^ 256)).1

/-! ## Claim C3 -/

theorem unwrapLoop_depth_le (parse : Str → Except Unit Str) :
    ∀ fuel st, (unwrapLoop parse fuel st).erc6492Depth ≤ st.erc6492Depth + fuel := by
  intro fuel
  induction fuel with
  | zero => intro st; simp [unwrapLoop]
  | succ fuel ih =>
    intro st
    rw [unwrapLoop]
    cases hp : parse st.normalized with
    | error e => dsimp only; omega
    | ok sig =>
      dsimp only
      by_cases hguard : (sig.isEmpty || !reHex0x sig) = true
      · rw [if_pos hguard]; omega
      · rw [if_neg hguard]
        by_cases heq : sig = st.normalized
        · rw [if_pos heq]; dsimp only; omega
        · rw [if_neg heq]
          by_cases hlen : sig.length ≤ 132
          · rw [if_pos (by simpa using hlen)]; dsimp only; omega
          · rw [if_neg (by simpa using hlen)]
            refine le_trans (ih _) ?_
            dsimp only
            omega

theorem normalizeSignatureHex_depth_le (parse : Str → Except Unit Str)
    (nh : Str) (c : Bool) : (normalizeSignatureHex parse nh c).erc6492Depth ≤ 5 := by
  unfold normalizeSignatureHex
  split
  · refine le_trans (unwrapLoop_depth_le parse 5 _) ?_
    simp
  · simp

theorem normalizeSignatureStr_depth_le (parse : Str → Except Unit Str) (s : Str) :
    (normalizeSignatureStr parse s).erc6492Depth ≤ 5 := by
  simp only [normalizeSignatureStr]
  split
  · simp
  · exact normalizeSignatureHex_depth_le parse _ _

theorem reHex0x_not_empty {s : Str} (h : reHex0x s = true) : s.isEmpty = false := by
  match s with
  | [] => simp [reHex0x] at h
  | a :: t => simp

/-- C3: the ERC-6492 unwrap loop is bounded by the hard counter 5: for
    any parse-oracle behaviour and any input value, the returned
    `erc6492Depth` is at most 5.  The loop stops exactly under the
    stated conditions: exhausted fuel; a parse throw; an inner signature
    that no longer parses as `0x`-hex; an inner signature equal to the
    current value (after recording `wasErc6492`); and an inner signature
    of at most 65 bytes (132 characters beyond the prefix counts the
    `0x`), which is taken as the new value at depth + 1. -/
theorem signature_unwrap_depth_bounded (parse : Str → Except Unit Str)
    (serialize : Str → Str → Option Int → Option Int → Except Unit Str) :
    (∀ v : JSVal, (normalizeSignaturePayload parse serialize v).erc6492Depth ≤ 5) ∧
    (∀ st, unwrapLoop parse 0 st = st) ∧
    (∀ fuel st, parse st.normalized = .error () →
      unwrapLoop parse (fuel + 1) st = st) ∧
    (∀ fuel st sig, parse st.normalized = .ok sig → reHex0x sig = false →
      unwrapLoop parse (fuel + 1) st = st) ∧
    (∀ fuel st, parse st.normalized = .ok st.normalized →
      reHex0x st.normalized = true →
      unwrapLoop parse (fuel + 1) st = { st with wasErc6492 := true }) ∧
    (∀ fuel st sig, parse st.normalized = .ok sig → reHex0x sig = true →
      sig ≠ st.normalized → sig.length ≤ 132 →
      unwrapLoop parse (fuel + 1) st =
        { st with normalized := sig, changed := true, wasErc6492 := true,
                  erc6492Unwrapped := true, erc6492Depth := st.erc6492Depth + 1 }) := by
  refine ⟨?_, ?_, ?_, ?_, ?_, ?_⟩
  · intro v
    match v with
    | .str s => exact normalizeSignatureStr_depth_le parse s
    | .num _ => simp [normalizeSignaturePayload]
    | .bool _ => simp [normalizeSignaturePayload]
    | .null => simp [normalizeSignaturePayload]
    | .undefined => simp [normalizeSignaturePayload]
    | .arr _ => simp [normalizeSignaturePayload]
    | .obj o =>
      rw [normalizeSignaturePayload]
      cases hsig : o.get "signature".toList with
      | str inner => exact normalizeSignatureStr_depth_le parse inner
      | _ =>
        cases hr : o.get "r".toList <;> cases hs : o.get "s".toList <;> try simp
        all_goals exact (by
          split <;> first
          | (split <;> simp)
          | simp)
  · intro st; rfl
  · intro fuel st hp
    rw [unwrapLoop, hp]
  · intro fuel st sig hp hhex
    rw [unwrapLoop, hp]
    dsimp only
    rw [if_pos (by simp [hhex])]
  · intro fuel st hp hhex
    rw [unwrapLoop, hp]
    dsimp only
    rw [if_neg (by simp [hhex, reHex0x_not_empty hhex]), if_pos rfl]
  · intro fuel st sig hp hhex hne hlen
    rw [unwrapLoop, hp]
    dsimp only
    rw [if_neg (by simp [hhex, reHex0x_not_empty hhex]), if_neg hne,
      if_pos (by simpa using hlen)]

set_option maxRecDepth 20000 in
/-- Witness for C3: a parse oracle that peels one hex character per
    unwrap, applied to a 142-character hex signature, reaches exactly
    the depth limit 5 (and the loop stops, per the theorem, when the
    inner signature is no longer `0x`-hex). -/
theorem signature_unwrap_depth_bounded_witness :
    (normalizeSignaturePayload
      (fun s => (Except.ok ('0' :: 'x' :: s.drop 3) : Except Unit Str))
      (fun _ _ _ _ => Except.error ())
      (.str ('0' :: 'x' :: List.replicate 140 'a'))).erc6492Depth = 5 ∧
    (normalizeSignaturePayload
      (fun s => (Except.ok ('0' :: 'x' :: s.drop 3) : Except Unit Str))
      (fun _ _ _ _ => Except.error ())
      (.str ('0' :: 'x' :: List.replicate 140 'a'))).erc6492Depth ≤ 5 ∧
    unwrapLoop (fun s => (Except.ok ('0' :: 'x' :: s.drop 3) : Except Unit Str)) 4
      { normalized := ['0', 'x', 'a'], changed := false, wasErc6492 := false,
        erc6492Unwrapped := false, erc6492Depth := 0 } =
      { normalized := ['0', 'x', 'a'], changed := false, wasErc6492 := false,
        erc6492Unwrapped := false, erc6492Depth := 0 } := by
  refine ⟨by decide, ?_, ?_⟩
  · exact (signature_unwrap_depth_bounded
      (fun s => (Except.ok ('0' :: 'x' :: s.drop 3) : Except Unit Str))
      (fun _ _ _ _ => Except.error ())).1 _
  · exact (signature_unwrap_depth_bounded
      (fun s => (Except.ok ('0' :: 'x' :: s.drop 3) : Except Unit Str))
      (fun _ _ _ _ => Except.error ())).2.2.2.1 3 _ ['0', 'x'] rfl (by decide)

/-! ## Claim C4 -/

set_option maxHeartbeats 2000000 in
/-- C4: the normalizers are total over arbitrarily-shaped inputs (they
    are plain functions of the full value space — nothing throws), and
    unparsable fragments pass through with `changed = false`:
    non-strings through `normalizeAddress`/`normalizeHexNonce`, nullish
    values through `normalizeIntegerString`, trimmed strings matching no
    recognized class through `normalizeHexNonce`, non-objects through
    both record normalizers, nullish and shapeless values through
    `normalizeSignaturePayload`, a structured `{r, s, v}` signature whose
    serialization fails, and — mid-way through the unwrap loop — a parse
    failure, which returns the best value obtained so far. -/
theorem normalizers_total_passthrough :
    (∀ (hash : Str → Nat → Nat) (v : JSVal), v.isStr = false →
      normalizeAddress hash v = v) ∧
    (∀ v : JSVal, v.isNullish = true → normalizeIntegerString v = v) ∧
    (∀ v : JSVal, v.isStr = false → normalizeHexNonce v = v) ∧
    (∀ s : Str, jsTrim s = s → s.isEmpty = false → reHex0xI s = false →
      reHex64 s = false → reDec s = false → reHex1to64 s = false →
      normalizeHexNonceStr s = s) ∧
    (∀ (hash : Str → Nat → Nat) (v : JSVal), v.isPlainObj = false →
      normalizeAuthorizationPayload hash v = (v, false)) ∧
    (∀ (hash : Str → Nat → Nat) (h : Heap) (v : HVal), (∀ a, v ≠ .href a) →
      normalizePermit2AuthorizationPayloadH hash h v = (h, v, false)) ∧
    (∀ (hash : Str → Nat → Nat) (h : Heap) (a : Nat) (o : HObj),
      h.find a = some o → o.isArr = true →
      normalizePermit2AuthorizationPayloadH hash h (.href a) = (h, .href a, false)) ∧
    (∀ (parse : Str → Except Unit Str)
      (serialize : Str → Str → Option Int → Option Int → Except Unit Str)
      (v : JSVal), v.isNullish = true →
      normalizeSignaturePayload parse serialize v =
        { signature := v, changed := false, wasErc6492 := false,
          erc6492Unwrapped := false, erc6492Depth := 0 }) ∧
    (∀ (parse : Str → Except Unit Str)
      (serialize : Str → Str → Option Int → Option Int → Except Unit Str)
      (o : JSFields),
      (∀ a b c d, serialize a b c d = .error ()) →
      (o.get "signature".toList).isStr = false →
      normalizeSignaturePayload parse serialize (.obj o) =
        { signature := .obj o, changed := false, wasErc6492 := false,
          erc6492Unwrapped := false, erc6492Depth := 0 }) ∧
    (∀ (parse : Str → Except Unit Str) (fuel : Nat) (st : UnwrapState),
      parse st.normalized = .error () → unwrapLoop parse (fuel + 1) st = st) := by
  refine ⟨?_, ?_, ?_, ?_, ?_, ?_, ?_, ?_, ?_, ?_⟩
  · intro hash v hv
    cases v <;> first | rfl | simp [JSVal.isStr] at hv
  · intro v hv
    cases v <;> first | rfl | simp [JSVal.isNullish] at hv
  · intro v hv
    cases v <;> first | rfl | simp [JSVal.isStr] at hv
  · intro s htrim hne h1 h2 h3 h4
    simp only [normalizeHexNonceStr, htrim, h1, h2, h3, h4, Bool.false_eq_true,
      if_false]
    rw [if_neg (by simp [hne])]
  · intro hash v hv
    cases v with
    | obj o => simp [JSVal.isPlainObj] at hv
    | str s => rfl
    | num n => rfl
    | bool b => rfl
    | null => rfl
    | undefined => rfl
    | arr xs => rfl
  · intro hash h v hv
    cases v <;> first | exact absurd rfl (hv _) | rfl
  · intro hash h a o hfind harr
    simp only [normalizePermit2AuthorizationPayloadH, hfind, harr, if_true]
  · intro parse serialize v hv
    cases v <;> first | rfl | simp [JSVal.isNullish] at hv
  · intro parse serialize o hser hsig
    rw [normalizeSignaturePayload]
    cases hs : o.get "signature".toList
    case str inner => rw [hs] at hsig; simp [JSVal.isStr] at hsig
    all_goals
      cases hr : o.get "r".toList <;> cases hs2 : o.get "s".toList <;> try rfl
    all_goals
      dsimp only
      split
      · rw [hser]
      · rfl
  · intro parse fuel st hp
    rw [unwrapLoop, hp]

/-- Witness for C4 at concrete inputs of each unparsable shape. -/
theorem normalizers_total_passthrough_witness :
    normalizeAddress (fun _ _ => 0) (.num 5) = .num 5 ∧
    normalizeIntegerString .null = .null ∧
    normalizeHexNonce (.bool true) = .bool true ∧
    normalizeHexNonceStr "@@".toList = "@@".toList ∧
    normalizeAuthorizationPayload (fun _ _ => 0) (.str "x".toList) =
      (.str "x".toList, false) ∧
    normalizePermit2AuthorizationPayloadH (fun _ _ => 0) ⟨[], 0⟩ (.hstr "x".toList) =
      (⟨[], 0⟩, .hstr "x".toList, false) ∧
    normalizePermit2AuthorizationPayloadH (fun _ _ => 0)
      ⟨[(0, ⟨true, []⟩)], 1⟩ (.href 0) = (⟨[(0, ⟨true, []⟩)], 1⟩, .href 0, false) ∧
    normalizeSignaturePayload (fun _ => .error ()) (fun _ _ _ _ => .error ()) .null =
      { signature := .null, changed := false, wasErc6492 := false,
        erc6492Unwrapped := false, erc6492Depth := 0 } ∧
    normalizeSignaturePayload (fun _ => .error ()) (fun _ _ _ _ => .error ())
      (.obj (.cons "r".toList (.str "1".toList)
        (.cons "s".toList (.str "2".toList) (.cons "v".toList (.num 27) .nil)))) =
      { signature := .obj (.cons "r".toList (.str "1".toList)
          (.cons "s".toList (.str "2".toList) (.cons "v".toList (.num 27) .nil))),
        changed := false, wasErc6492 := false, erc6492Unwrapped := false,
        erc6492Depth := 0 } ∧
    unwrapLoop (fun _ => .error ()) 5
      { normalized := "0xabc".toList, changed := true, wasErc6492 := false,
        erc6492Unwrapped := false, erc6492Depth := 0 } =
      { normalized := "0xabc".toList, changed := true, wasErc6492 := false,
        erc6492Unwrapped := false, erc6492Depth := 0 } := by
  refine ⟨?_, ?_, ?_, ?_, ?_, ?_, ?_, ?_, ?_, ?_⟩
  · exact normalizers_total_passthrough.1 _ _ rfl
  · exact normalizers_total_passthrough.2.1 _ rfl
  · exact normalizers_total_passthrough.2.2.1 _ rfl
  · exact normalizers_total_passthrough.2.2.2.1 _ (by decide) (by decide)
      (by decide) (by decide) (by decide) (by decide)
  · exact normalizers_total_passthrough.2.2.2.2.1 _ _ rfl
  · exact normalizers_total_passthrough.2.2.2.2.2.1 _ _ _
      (fun a => by simp)
  · exact normalizers_total_passthrough.2.2.2.2.2.2.1 _ _ 0 ⟨true, []⟩ rfl rfl
  · exact normalizers_total_passthrough.2.2.2.2.2.2.2.1 _ _ _ rfl
  · exact normalizers_total_passthrough.2.2.2.2.2.2.2.2.1 _ _ _
      (fun _ _ _ _ => rfl) rfl
  · exact normalizers_total_passthrough.2.2.2.2.2.2.2.2.2 _ 4 _ rfl

/-! ## Claims C6 and C8: address canonicalization -/

theorem reAddr_shape {s : Str} (h : reAddr s = true) :
    ∃ rest, s = '0' :: 'x' :: rest ∧ rest.length = 40 ∧ rest.all isHexDigit = true := by
  match s with
  | [] => simp [reAddr] at h
  | [a] => simp [reAddr] at h
  | a :: c :: rest =>
    simp only [reAddr, Bool.and_eq_true, decide_eq_true_eq] at h
    obtain ⟨⟨⟨ha, hc⟩, hlen⟩, hall⟩ := h
    exact ⟨rest, by rw [ha, hc], hlen, hall⟩

theorem re0xTest_shape {s : Str} (h : re0xTest s = true) :
    ∃ c u, s = '0' :: c :: u ∧ (c = 'x' ∨ c = 'X') := by
  match s with
  | [] => simp [re0xTest] at h
  | [a] => simp [re0xTest] at h
  | a :: c :: u =>
    simp only [re0xTest, Bool.and_eq_true, decide_eq_true_eq, Bool.or_eq_true] at h
    exact ⟨c, u, by rw [h.1], h.2⟩

theorem length_checksumBody (nib : Nat → Nat) :
    ∀ i b, (checksumBody nib i b).length = b.length := by
  intro i b
  induction b generalizing i with
  | nil => rfl
  | cons c cs ih => simp [checksumBody, ih]

theorem mem_checksumBody {nib : Nat → Nat} {x : Char} :
    ∀ {i b}, x ∈ checksumBody nib i b → ∃ c ∈ b, x = charUpper c ∨ x = c := by
  intro i b
  induction b generalizing i with
  | nil => intro h; simp [checksumBody] at h
  | cons c cs ih =>
    intro h
    rw [checksumBody] at h
    rcases List.mem_cons.mp h with h | h
    · refine ⟨c, by simp, ?_⟩
      by_cases hn : 8 ≤ nib i
      · left; rw [h, if_pos hn]
      · right; rw [h, if_neg hn]
    · obtain ⟨c', hc', hx⟩ := ih h
      exact ⟨c', by simp [hc'], hx⟩

theorem checksumBody_hex {nib : Nat → Nat} {i : Nat} {b : Str}
    (hb : ∀ c ∈ b, isHexDigit c = true) :
    ∀ x ∈ checksumBody nib i b, isHexDigit x = true := by
  intro x hx
  obtain ⟨c, hc, hcase⟩ := mem_checksumBody hx
  cases hcase with
  | inl h1 => rw [h1]; exact charUpper_isHexDigit (hb c hc)
  | inr h1 => rw [h1]; exact hb c hc

theorem map_charLower_checksumBody {nib : Nat → Nat} :
    ∀ {i} {b : Str}, (∀ c ∈ b, isLowerHex c = true) →
      (checksumBody nib i b).map charLower = b := by
  intro i b
  induction b generalizing i with
  | nil => intro _; rfl
  | cons c cs ih =>
    intro hb
    rw [checksumBody]
    simp only [List.map_cons]
    rw [ih (fun c' hc' => hb c' (by simp [hc']))]
    congr 1
    by_cases hn : 8 ≤ nib i
    · rw [if_pos hn, charLower_charUpper_of_lower (hb c (by simp))]
    · rw [if_neg hn, charLower_of_lower (hb c (by simp))]

theorem checksumAddress_shape {hash : Str → Nat → Nat} {s : Str}
    (h : reAddr s = true) :
    ∃ body, checksumAddress hash s = '0' :: 'x' :: body ∧ body.length = 40 ∧
      (∀ c ∈ body, isHexDigit c = true) := by
  obtain ⟨rest, rfl, hlen, hall⟩ := reAddr_shape h
  refine ⟨checksumBody (hash ((('0' :: 'x' :: rest).drop 2).map charLower)) 0
      ((('0' :: 'x' :: rest).drop 2).map charLower), rfl, ?_, ?_⟩
  · rw [length_checksumBody]
    simpa using hlen
  · apply checksumBody_hex
    intro c hc
    simp only [List.drop_succ_cons, List.drop_zero] at hc
    obtain ⟨c', hc', rfl⟩ := List.mem_map.mp hc
    exact lowerHex_isHexDigit (charLower_lowerHex (List.all_eq_true.mp hall c' hc'))

theorem reAddr_checksumAddress {hash : Str → Nat → Nat} {s : Str}
    (h : reAddr s = true) : reAddr (checksumAddress hash s) = true := by
  obtain ⟨body, heq, hlen, hall⟩ := @checksumAddress_shape hash _ h
  rw [heq]
  simp [reAddr, hlen]
  exact hall

theorem checksumAddress_idem (hash : Str → Nat → Nat) {s : Str}
    (h : reAddr s = true) :
    checksumAddress hash (checksumAddress hash s) = checksumAddress hash s := by
  obtain ⟨rest, rfl, hlen, hall⟩ := reAddr_shape h
  have hlower : ∀ c ∈ rest.map charLower, isLowerHex c = true := by
    intro c hc
    obtain ⟨c', hc', rfl⟩ := List.mem_map.mp hc
    exact charLower_lowerHex (List.all_eq_true.mp hall c' hc')
  simp only [checksumAddress, List.drop_succ_cons, List.drop_zero]
  rw [map_charLower_checksumBody hlower]

theorem trimInv_head {t : Str} (h : jsTrim t = t) {c : Char} {cs : Str}
    (ht : t = c :: cs) : isWS c = false := by
  have hdrop : t.dropWhile isWS = t := by
    have hsuf1 : t.dropWhile isWS <:+ t := List.dropWhile_suffix isWS
    have hsuf2 : (t.dropWhile isWS).reverse.dropWhile isWS <:+
        (t.dropWhile isWS).reverse := List.dropWhile_suffix isWS
    have hlen : t.length = (jsTrim t).length := by rw [h]
    unfold jsTrim at hlen
    simp only [List.length_reverse] at hlen
    have h1 : ((t.dropWhile isWS).reverse.dropWhile isWS).length ≤
        (t.dropWhile isWS).length := by
      have := List.IsSuffix.length_le hsuf2
      simpa using this
    have h2 : (t.dropWhile isWS).length ≤ t.length :=
      List.IsSuffix.length_le hsuf1
    exact List.IsSuffix.eq_of_length hsuf1 (by omega)
  subst ht
  by_cases hc : isWS c
  · rw [List.dropWhile_cons, if_pos (by simp [hc])] at hdrop
    have := List.IsSuffix.length_le (List.dropWhile_suffix (l := cs) isWS)
    have hlen2 : (cs.dropWhile isWS).length = cs.length + 1 := by
      rw [hdrop]; simp
    omega
  · simpa using hc

theorem trimInv_last {t : Str} (h : jsTrim t = t) {c : Char}
    (hc : t.getLast? = some c) : isWS c = false := by
  have hX : (t.dropWhile isWS).reverse.dropWhile isWS = t.reverse := by
    have := congrArg List.reverse h
    unfold jsTrim at this
    simpa using this
  apply dropWhile_head_not (p := isWS) (l := (t.dropWhile isWS).reverse)
  rw [hX, List.head?_reverse, hc]

/-- The prefix-normalization step of `normalizeAddress` applied to the
    trimmed input (`normalizedPrefix` in the source). -/
theorem normalizeAddressStr_eq (hash : Str → Nat → Nat) (s : Str) :
    normalizeAddressStr hash s =
      (if (jsTrim s).isEmpty then jsTrim s
       else
        let np := if re0xTest (jsTrim s) then '0' :: 'x' :: (jsTrim s).drop 2
          else jsTrim s
        match viemGetAddress hash np with
        | some a => a
        | none => np) := rfl

theorem np_trimInv {t : Str} (h : jsTrim t = t) :
    jsTrim (if re0xTest t then '0' :: 'x' :: t.drop 2 else t) =
      (if re0xTest t then '0' :: 'x' :: t.drop 2 else t) := by
  by_cases hp : re0xTest t = true
  · rw [if_pos hp]
    obtain ⟨c, u, ht, hc⟩ := re0xTest_shape hp
    subst ht
    simp only [List.drop_succ_cons, List.drop_zero]
    apply jsTrim_cons_of_ends
    · decide
    · intro c' hc'
      cases u with
      | nil => simp at hc'; rw [← hc']; decide
      | cons b bs =>
        rw [List.getLast?_cons_cons] at hc'
        apply trimInv_last h
        rw [List.getLast?_cons_cons, List.getLast?_cons_cons]
        exact hc'
  · rw [if_neg hp, h]

/-- C6, amended: after trimming, a string accepted by viem `getAddress`
    once its `0x`/`0X` prefix is lowercased (`0x` + 40 hex digits, any
    letter case) maps to the EIP-55 checksummed canonical address;
    every other string — including a syntactically plausible 40-hex-digit
    address *without* the `0x` prefix — is returned as the trimmed,
    prefix-lowercased input, which differs from the original exactly by
    whitespace trimming and prefix case. -/
theorem address_canonical (hash : Str → Nat → Nat) (s : Str) :
    (reAddr (if re0xTest (jsTrim s) then '0' :: 'x' :: (jsTrim s).drop 2
        else jsTrim s) = true →
      normalizeAddressStr hash s =
        checksumAddress hash
          (if re0xTest (jsTrim s) then '0' :: 'x' :: (jsTrim s).drop 2
           else jsTrim s) ∧
      reAddr (normalizeAddressStr hash s) = true) ∧
    (reAddr (if re0xTest (jsTrim s) then '0' :: 'x' :: (jsTrim s).drop 2
        else jsTrim s) = false →
      normalizeAddressStr hash s =
        (if re0xTest (jsTrim s) then '0' :: 'x' :: (jsTrim s).drop 2
         else jsTrim s)) := by
  constructor
  · intro h
    have hne : (jsTrim s).isEmpty = false := by
      by_contra hemp
      have hnil : jsTrim s = [] := by
        simp only [Bool.not_eq_false] at hemp
        simpa [List.isEmpty_iff] using hemp
      rw [hnil] at h
      simp [re0xTest, reAddr] at h
    have heq : normalizeAddressStr hash s =
        checksumAddress hash
          (if re0xTest (jsTrim s) then '0' :: 'x' :: (jsTrim s).drop 2
           else jsTrim s) := by
      rw [normalizeAddressStr_eq, if_neg (by simp [hne])]
      simp only [viemGetAddress, h, if_true]
    exact ⟨heq, by rw [heq]; exact reAddr_checksumAddress h⟩
  · intro h
    by_cases hemp : (jsTrim s).isEmpty = true
    · have hnil : jsTrim s = [] := by simpa [List.isEmpty_iff] using hemp
      rw [normalizeAddressStr_eq, if_pos hemp, hnil]
      simp [re0xTest]
    · rw [normalizeAddressStr_eq, if_neg hemp]
      simp only [viemGetAddress, h, Bool.false_eq_true, if_false]

/-- Counterexample for C6 as stated: the invalid input `" zz "` is not
    returned unchanged (it is trimmed), and a syntactically valid
    40-hex-digit address without the `0x` prefix is returned unchanged
    rather than checksummed (viem `getAddress` requires the prefix). -/
theorem address_claim_counterexample :
    normalizeAddressStr (fun _ _ => 0) " zz ".toList = "zz".toList ∧
    "zz".toList ≠ " zz ".toList ∧
    normalizeAddressStr (fun _ _ => 0) (List.replicate 40 'a') =
      List.replicate 40 'a' := by
  refine ⟨by decide, by decide, by decide⟩

/-- Witness for C6 (amended): an upper-prefixed, whitespace-wrapped
    address canonicalizes through the checksum model (with `hash ≡ 0`
    the checksum keeps everything lowercase), and `" zz "` maps to the
    trimmed `"zz"`. -/
theorem address_canonical_witness :
    normalizeAddressStr (fun _ _ => 0)
      ("  0X".toList ++ List.replicate 40 'A' ++ "  ".toList) =
      '0' :: 'x' :: List.replicate 40 'a' ∧
    normalizeAddressStr (fun _ _ => 0) " zz ".toList = "zz".toList := by
  constructor
  · have := (address_canonical (fun _ _ => 0)
      ("  0X".toList ++ List.replicate 40 'A' ++ "  ".toList)).1 (by decide)
    rw [this.1]
    decide
  · have := (address_canonical (fun _ _ => 0) " zz ".toList).2 (by decide)
    rw [this]
    decide

/-- C8: `normalizeAddress` is idempotent on every input value, for any
    behaviour of the keccak-nibble oracle. -/
theorem normalizeAddress_idem (hash : Str → Nat → Nat) (v : JSVal) :
    normalizeAddress hash (normalizeAddress hash v) = normalizeAddress hash v := by
  cases v with
  | str s =>
    show JSVal.str (normalizeAddressStr hash (normalizeAddressStr hash s)) =
      JSVal.str (normalizeAddressStr hash s)
    congr 1
    by_cases hemp : (jsTrim s).isEmpty = true
    · have hnil : jsTrim s = [] := by simpa [List.isEmpty_iff] using hemp
      have h1 : normalizeAddressStr hash s = [] := by
        rw [normalizeAddressStr_eq, if_pos hemp]
        exact hnil
      rw [h1]
      rfl
    · have htt : jsTrim (jsTrim s) = jsTrim s := jsTrim_idem s
      set t := jsTrim s with hts
      set np := if re0xTest t then '0' :: 'x' :: t.drop 2 else t with hnp
      have hnptrim : jsTrim np = np := np_trimInv htt
      have hnpne : np.isEmpty = false := by
        rw [hnp]
        by_cases hp : re0xTest t = true
        · rw [if_pos hp]; rfl
        · rw [if_neg hp]; simpa using hemp
      cases hva : viemGetAddress hash np with
      | some a =>
        have haddr : reAddr np = true := by
          by_contra hra
          rw [viemGetAddress, if_neg hra] at hva
          exact Option.noConfusion hva
        have ha : a = checksumAddress hash np := by
          rw [viemGetAddress, if_pos haddr] at hva
          exact (Option.some.inj hva).symm
        have hfirst : normalizeAddressStr hash s = a := by
          rw [normalizeAddressStr_eq, if_neg hemp]
          simp only [← hts, ← hnp, hva]
        rw [hfirst]
        obtain ⟨body, hshape, hblen, hbhex⟩ :=
          @checksumAddress_shape hash _ haddr
        have hashape : a = '0' :: 'x' :: body := by rw [ha, hshape]
        have hatrim : jsTrim a = a := by
          apply jsTrim_eq_self
          intro c hc
          rw [hashape] at hc
          simp at hc
          rcases hc with rfl | rfl | hc
          · decide
          · decide
          · exact hexDigit_not_ws (hbhex c hc)
        have hane : a.isEmpty = false := by rw [hashape]; rfl
        have hatest : re0xTest a = true := by rw [hashape]; rfl
        have hanp : (if re0xTest a then '0' :: 'x' :: a.drop 2 else a) = a := by
          rw [if_pos hatest, hashape]
          simp
        have haaddr : reAddr a = true := by
          rw [ha]; exact reAddr_checksumAddress haddr
        rw [normalizeAddressStr_eq, hatrim, hane]
        simp only [Bool.false_eq_true, if_false, hanp, viemGetAddress, haaddr,
          if_true]
        rw [ha, checksumAddress_idem hash haddr]
      | none =>
        have hfirst : normalizeAddressStr hash s = np := by
          rw [normalizeAddressStr_eq, if_neg hemp]
          simp only [← hts, ← hnp, hva]
        rw [hfirst]
        have hnpnp : (if re0xTest np then '0' :: 'x' :: np.drop 2 else np) = np := by
          rw [hnp]
          by_cases hpt : re0xTest t = true
          · rw [if_pos hpt, if_pos (by
              obtain ⟨c, u, hteq, hc⟩ := re0xTest_shape hpt
              rw [hteq]
              simp [re0xTest])]
            obtain ⟨c, u, hteq, hc⟩ := re0xTest_shape hpt
            rw [hteq]
            simp
          · rw [if_neg hpt, if_neg hpt]
        rw [normalizeAddressStr_eq, hnptrim, if_neg (by simp [hnpne])]
        simp only [hnpnp, hva]
  | num n => rfl
  | bool b => rfl
  | null => rfl
  | undefined => rfl
  | obj o => rfl
  | arr xs => rfl

/-! ## Claim C9: field-wise behaviour of `normalizeAuthorizationPayload` -/

namespace JSFields

/-- Structural induction for `JSFields` alone (the `induction` tactic
    cannot use the mutual recursor directly). -/
theorem ind {P : JSFields → Prop} (nil : P .nil)
    (cons : ∀ k v rest, P rest → P (.cons k v rest)) : ∀ o, P o
  | .nil => nil
  | .cons k v rest => cons k v rest (ind nil cons rest)

theorem get_of_hasKey_false {o : JSFields} {k : Str} (h : o.hasKey k = false) :
    o.get k = .undefined := by
  induction o using JSFields.ind with
  | nil => rfl
  | cons k' v' rest ih =>
    simp only [hasKey, Bool.or_eq_false_iff, decide_eq_false_iff_not] at h
    simp only [get]
    rw [if_neg h.1]
    exact ih h.2

theorem get_replaceKey_self {o : JSFields} {k : Str} {v : JSVal}
    (h : o.hasKey k = true) : (o.replaceKey k v).get k = v := by
  induction o using JSFields.ind with
  | nil => simp [hasKey] at h
  | cons k' v' rest ih =>
    by_cases hk : k' = k
    · simp only [replaceKey]
      rw [if_pos hk]
      simp [get]
    · simp only [replaceKey]
      rw [if_neg hk]
      simp only [get]
      rw [if_neg hk]
      simp only [hasKey, Bool.or_eq_true, decide_eq_true_eq] at h
      exact ih (h.resolve_left hk)

theorem get_push_self {o : JSFields} {k : Str} {v : JSVal}
    (h : o.hasKey k = false) : (o.push k v).get k = v := by
  induction o using JSFields.ind with
  | nil => simp [push, get]
  | cons k' v' rest ih =>
    simp only [hasKey, Bool.or_eq_false_iff, decide_eq_false_iff_not] at h
    simp only [push, get]
    rw [if_neg h.1]
    exact ih h.2

theorem get_set_self (o : JSFields) (k : Str) (v : JSVal) :
    (o.set k v).get k = v := by
  rw [set]
  by_cases h : o.hasKey k = true
  · rw [if_pos h]; exact get_replaceKey_self h
  · rw [if_neg h]; exact get_push_self (by simpa using h)

theorem get_replaceKey_ne {o : JSFields} {k k' : Str} {v : JSVal} (h : k' ≠ k) :
    (o.replaceKey k v).get k' = o.get k' := by
  induction o using JSFields.ind with
  | nil => rfl
  | cons k'' v'' rest ih =>
    by_cases hk : k'' = k
    · have h1 : ¬(k = k') := fun hh => h hh.symm
      have h2 : ¬(k'' = k') := by
        intro hh
        rw [hk] at hh
        exact h hh.symm
      simp only [replaceKey]
      rw [if_pos hk]
      simp only [get]
      rw [if_neg h1, if_neg h2]
      exact ih
    · simp only [replaceKey]
      rw [if_neg hk]
      simp only [get]
      by_cases hk2 : k'' = k'
      · rw [if_pos hk2, if_pos hk2]
      · rw [if_neg hk2, if_neg hk2]
        exact ih

theorem get_push_ne {o : JSFields} {k k' : Str} {v : JSVal} (h : k' ≠ k) :
    (o.push k v).get k' = o.get k' := by
  induction o using JSFields.ind with
  | nil =>
    simp only [push, get]
    rw [if_neg (fun hh => h hh.symm)]
  | cons k'' v'' rest ih =>
    simp only [push, get]
    by_cases hk2 : k'' = k'
    · rw [if_pos hk2, if_pos hk2]
    · rw [if_neg hk2, if_neg hk2]
      exact ih

theorem get_set_ne {o : JSFields} {k k' : Str} {v : JSVal} (h : k' ≠ k) :
    (o.set k v).get k' = o.get k' := by
  rw [set]
  by_cases hk : o.hasKey k = true
  · rw [if_pos hk]; exact get_replaceKey_ne h
  · rw [if_neg hk]; exact get_push_ne h

theorem hasKey_replaceKey {o : JSFields} {k k' : Str} {v : JSVal} :
    (o.replaceKey k v).hasKey k' = o.hasKey k' := by
  induction o using JSFields.ind with
  | nil => rfl
  | cons k'' v'' rest ih =>
    by_cases hk : k'' = k
    · simp only [replaceKey]
      rw [if_pos hk]
      simp only [hasKey]
      rw [ih, hk]
    · simp only [replaceKey]
      rw [if_neg hk]
      simp only [hasKey]
      rw [ih]

end JSFields

/-- Unfolding of one per-field pass: the written value, frame on other
    keys, key preservation (given that the transform fixes `undefined`),
    and the change flag. -/
theorem fieldStep_spec (g : JSVal → JSVal) (hg : g .undefined = .undefined)
    (f : Str) (st : JSFields × Bool) :
    (fieldStep g f st).1.get f = g (st.1.get f) ∧
    (∀ k, k ≠ f → (fieldStep g f st).1.get k = st.1.get k) ∧
    (∀ k, (fieldStep g f st).1.hasKey k = st.1.hasKey k) ∧
    (fieldStep g f st).2 = (st.2 || decide (g (st.1.get f) ≠ st.1.get f)) := by
  by_cases hfire : g (st.1.get f) ≠ st.1.get f
  · have hkey : st.1.hasKey f = true := by
      by_contra hk
      have : st.1.get f = .undefined :=
        JSFields.get_of_hasKey_false (by simpa using hk)
      rw [this, hg] at hfire
      exact hfire rfl
    rw [fieldStep, if_pos hfire]
    refine ⟨JSFields.get_set_self _ _ _, fun k hk => JSFields.get_set_ne hk, ?_, ?_⟩
    · intro k
      show ((st.1.set f (g (st.1.get f))).hasKey k) = st.1.hasKey k
      rw [JSFields.set, if_pos hkey]
      exact JSFields.hasKey_replaceKey
    · simp [hfire]
  · rw [fieldStep, if_neg hfire]
    simp only [not_not] at hfire
    exact ⟨hfire.symm ▸ rfl, fun _ _ => rfl, fun _ => rfl, by simp [hfire]⟩

theorem list_any_congr {α : Type} {p q : α → Bool} :
    ∀ {L : List α}, (∀ x ∈ L, p x = q x) → L.any p = L.any q := by
  intro L
  induction L with
  | nil => intro _; rfl
  | cons a t ih =>
    intro h
    simp only [List.any_cons]
    rw [h a (by simp), ih (fun x hx => h x (by simp [hx]))]

/-- Behaviour of a fold of per-field passes over a duplicate-free field
    list. -/
theorem foldl_fieldStep_spec (g : JSVal → JSVal) (hg : g .undefined = .undefined) :
    ∀ (L : List Str), L.Nodup → ∀ (o : JSFields) (c : Bool),
      (∀ k ∈ L,
        (L.foldl (fun st f => fieldStep g f st) (o, c)).1.get k = g (o.get k)) ∧
      (∀ k, k ∉ L →
        (L.foldl (fun st f => fieldStep g f st) (o, c)).1.get k = o.get k) ∧
      (∀ k,
        (L.foldl (fun st f => fieldStep g f st) (o, c)).1.hasKey k = o.hasKey k) ∧
      ((L.foldl (fun st f => fieldStep g f st) (o, c)).2 =
        (c || L.any (fun k => decide (g (o.get k) ≠ o.get k)))) := by
  intro L
  induction L with
  | nil =>
    intro _ o c
    exact ⟨fun k hk => absurd hk (List.not_mem_nil k), fun _ _ => rfl, fun _ => rfl,
      by simp⟩
  | cons f L' ih =>
    intro hnodup o c
    have hfL' : f ∉ L' := (List.nodup_cons.mp hnodup).1
    obtain ⟨hself, hframe, hkeys, hflag⟩ := fieldStep_spec g hg f (o, c)
    obtain ⟨ih1, ih2, ih3, ih4⟩ :=
      ih (List.nodup_cons.mp hnodup).2 (fieldStep g f (o, c)).1 (fieldStep g f (o, c)).2
    have hfold : (f :: L').foldl (fun st f => fieldStep g f st) (o, c) =
        L'.foldl (fun st f => fieldStep g f st)
          ((fieldStep g f (o, c)).1, (fieldStep g f (o, c)).2) := by
      simp [List.foldl_cons]
    refine ⟨?_, ?_, ?_, ?_⟩
    · intro k hk
      rw [hfold]
      rcases List.mem_cons.mp hk with rfl | hk'
      · rw [ih2 k hfL', hself]
      · have hkf : k ≠ f := fun hh => hfL' (hh ▸ hk')
        rw [ih1 k hk', hframe k hkf]
    · intro k hk
      have hk1 : k ≠ f := fun hh => hk (hh ▸ List.mem_cons_self f L')
      have hk2 : k ∉ L' := fun hh => hk (List.mem_cons_of_mem f hh)
      rw [hfold, ih2 k hk2, hframe k hk1]
    · intro k
      rw [hfold, ih3 k, hkeys k]
    · rw [hfold, ih4, hflag]
      have hcong : L'.any (fun k =>
          decide (g ((fieldStep g f (o, c)).1.get k) ≠ (fieldStep g f (o, c)).1.get k)) =
          L'.any (fun k => decide (g (o.get k) ≠ o.get k)) := by
        apply list_any_congr
        intro k hk
        have hkf : k ≠ f := fun hh => hfL' (hh ▸ hk)
        rw [hframe k hkf]
      rw [hcong, List.any_cons]
      cases c <;> cases hd : decide (g (o.get f) ≠ o.get f) <;> simp

/-! Trim-invariance of the canonical outputs of the second-stage
passes, needed to show that a flagged change always leaves the final
field value different from the original. -/

theorem checksumAddress_trimInv (hash : Str → Nat → Nat) {s : Str}
    (h : reAddr s = true) :
    jsTrim (checksumAddress hash s) = checksumAddress hash s := by
  obtain ⟨body, heq, -, hbhex⟩ := @checksumAddress_shape hash _ h
  rw [heq]
  apply jsTrim_eq_self
  intro c hc
  simp at hc
  rcases hc with rfl | rfl | hc
  · decide
  · decide
  · exact hexDigit_not_ws (hbhex c hc)

theorem normalizeAddressStr_trimInv (hash : Str → Nat → Nat) {t : Str}
    (h : jsTrim t = t) :
    jsTrim (normalizeAddressStr hash t) = normalizeAddressStr hash t := by
  rw [normalizeAddressStr_eq, h]
  by_cases hemp : t.isEmpty = true
  · rw [if_pos hemp]
    have : t = [] := by simpa [List.isEmpty_iff] using hemp
    rw [this]
    rfl
  · rw [if_neg hemp]
    have hnp := np_trimInv h
    by_cases haddr : reAddr (if re0xTest t then '0' :: 'x' :: t.drop 2 else t) = true
    · simp only [viemGetAddress, haddr, if_true]
      exact checksumAddress_trimInv hash haddr
    · simp only [viemGetAddress, haddr, Bool.false_eq_true, if_false]
      exact hnp

theorem normalizeIntegerString_str_trimInv {t : Str} (h : jsTrim t = t) :
    ∃ w, normalizeIntegerString (.str t) = .str w ∧ jsTrim w = w := by
  simp only [normalizeIntegerString, JSVal.isNullish, Bool.false_eq_true, if_false,
    jsToString, h]
  by_cases hemp : t.isEmpty = true
  · rw [if_pos hemp]
    exact ⟨t, rfl, h⟩
  · rw [if_neg hemp]
    by_cases hdec : reDec t = true
    · rw [if_pos hdec]
      exact ⟨_, rfl, jsTrim_of_all_digits
        (List.all_eq_true.mpr (natToDec_digits _))⟩
    · rw [if_neg hdec]
      by_cases hhex : reHex0xI t = true
      · rw [if_pos hhex]
        exact ⟨_, rfl, jsTrim_of_all_digits
          (List.all_eq_true.mpr (natToDec_digits _))⟩
      · rw [if_neg hhex]
        exact ⟨t, rfl, h⟩

theorem normalizeHexNonceStr_cases (s : Str) :
    normalizeHexNonceStr s = jsTrim s ∨
    ∃ body, normalizeHexNonceStr s = '0' :: 'x' :: body ∧
      ∀ c ∈ body, isLowerHex c = true := by
  rw [normalizeHexNonceStr]
  by_cases hemp : (jsTrim s).isEmpty = true
  · rw [if_pos hemp]; left; rfl
  · rw [if_neg hemp]
    by_cases h1 : reHex0xI (jsTrim s) = true
    · rw [if_pos h1]
      right
      obtain ⟨c, rest, hs, hc, -, hall⟩ := reHex0xI_shape h1
      have hlower : ∀ x ∈ ((jsTrim s).drop 2).map charLower, isLowerHex x = true := by
        intro x hx
        obtain ⟨a, ha, rfl⟩ := List.mem_map.mp hx
        rw [hs] at ha
        simp only [List.drop_succ_cons, List.drop_zero] at ha
        exact charLower_lowerHex (List.all_eq_true.mp hall a ha)
      by_cases h64 : (((jsTrim s).drop 2).map charLower).length = 64
      · rw [if_pos h64]
        exact ⟨_, rfl, hlower⟩
      · rw [if_neg h64]
        by_cases hlt : (((jsTrim s).drop 2).map charLower).length < 64
        · rw [if_pos hlt]
          refine ⟨_, rfl, ?_⟩
          intro x hx
          rcases mem_padStart hx with rfl | hx
          · decide
          · exact hlower x hx
        · rw [if_neg hlt]
          refine ⟨_, rfl, ?_⟩
          intro x hx
          exact hlower x (List.mem_of_mem_drop hx)
    · rw [if_neg h1]
      by_cases h2 : reHex64 (jsTrim s) = true
      · rw [if_pos h2]
        right
        refine ⟨_, rfl, ?_⟩
        intro x hx
        obtain ⟨a, ha, rfl⟩ := List.mem_map.mp hx
        have hall : (jsTrim s).all isHexDigit = true := by
          simp only [reHex64, Bool.and_eq_true] at h2
          exact h2.2
        exact charLower_lowerHex (List.all_eq_true.mp hall a ha)
      · rw [if_neg h2]
        by_cases h3 : reDec (jsTrim s) = true
        · rw [if_pos h3]
          right
          refine ⟨_, rfl, ?_⟩
          intro x hx
          rcases mem_padStart hx with rfl | hx
          · decide
          · exact natToHex_digits _ x hx
        · rw [if_neg h3]
          by_cases h4 : reHex1to64 (jsTrim s) = true
          · rw [if_pos h4]
            right
            refine ⟨_, rfl, ?_⟩
            intro x hx
            rcases mem_padStart hx with rfl | hx
            · decide
            · obtain ⟨a, ha, rfl⟩ := List.mem_map.mp hx
              have hall : (jsTrim s).all isHexDigit = true := by
                simp only [reHex1to64, Bool.and_eq_true] at h4
                exact h4.2
              exact charLower_lowerHex (List.all_eq_true.mp hall a ha)
          · rw [if_neg h4]; left; rfl

theorem normalizeHexNonceStr_trimInv {t : Str} (h : jsTrim t = t) :
    jsTrim (normalizeHexNonceStr t) = normalizeHexNonceStr t := by
  rcases normalizeHexNonceStr_cases t with heq | ⟨body, heq, hb⟩
  · rw [heq, h, h]
  · rw [heq]
    apply jsTrim_eq_self
    intro c hc
    simp at hc
    rcases hc with rfl | rfl | hc
    · decide
    · decide
    · exact lowerHex_not_ws (hb c hc)

/-- One field's two-pass composite differs from the original value
    exactly when one of the two passes reports a change. -/
theorem two_stage_change_iff (g2 : JSVal → JSVal)
    (hstr : ∀ t, jsTrim t = t → ∃ w, g2 (.str t) = .str w ∧ jsTrim w = w)
    (v : JSVal) :
    (stringPassCanon v ≠ v ∨ g2 (stringPassCanon v) ≠ stringPassCanon v) ↔
      g2 (stringPassCanon v) ≠ v := by
  constructor
  · intro hAB
    by_cases hA : stringPassCanon v = v
    · rcases hAB with h | h
      · exact absurd hA h
      · rw [hA] at h ⊢; exact h
    · have hnn : v.isNullish = false := by
        by_contra hn
        exact hA (by simp [stringPassCanon, (by simpa using hn : v.isNullish = true)])
      have hspc : stringPassCanon v = .str (jsTrim (jsToString v)) := by
        simp [stringPassCanon, hnn]
      have htinv : jsTrim (jsTrim (jsToString v)) = jsTrim (jsToString v) :=
        jsTrim_idem _
      obtain ⟨w, hw, hwinv⟩ := hstr (jsTrim (jsToString v)) htinv
      rw [hspc, hw]
      intro hcontra
      cases v with
      | str u =>
        have hwu : w = u := by injection hcontra
        rw [hspc] at hA
        apply hA
        have : jsTrim u = u := by rw [← hwu]; exact hwinv
        simp [jsToString, this]
      | num n => exact JSVal.noConfusion hcontra
      | bool b => exact JSVal.noConfusion hcontra
      | null => exact JSVal.noConfusion hcontra
      | undefined => exact JSVal.noConfusion hcontra
      | obj oo => exact JSVal.noConfusion hcontra
      | arr xs => exact JSVal.noConfusion hcontra
  · intro hC
    by_cases hA : stringPassCanon v = v
    · right
      rw [hA] at hC ⊢
      exact hC
    · left
      exact hA

theorem authStringStep_eq (st : JSFields × Bool) (f : Str) :
    authStringStep st f = fieldStep stringPassCanon f st := by
  by_cases hn : (st.1.get f).isNullish = true
  · simp [authStringStep, fieldStep, stringPassCanon, hn]
  · have hnf : (st.1.get f).isNullish = false := by simpa using hn
    have hspc : stringPassCanon (st.1.get f) =
        .str (jsTrim (jsToString (st.1.get f))) := by
      simp [stringPassCanon, hnf]
    by_cases hne : JSVal.str (jsTrim (jsToString (st.1.get f))) = st.1.get f
    · have hstr : (st.1.get f).isStr = true := by rw [← hne]; rfl
      simp only [authStringStep, fieldStep, hspc, hnf, Bool.false_eq_true, if_false,
        hne, hstr]
      simp
    · simp only [authStringStep, fieldStep, hspc, hnf, Bool.false_eq_true, if_false]
      rw [if_pos hne, if_pos hne]

theorem or_interleave (a1 a2 a3 a4 a5 a6 b1 b2 b3 b4 b5 b6 : Prop) :
    ((((a1 ∨ a2 ∨ a3 ∨ a4 ∨ a5 ∨ a6 ∨ False) ∨ b1) ∨ b2) ∨
        (b3 ∨ b4 ∨ b5 ∨ False)) ∨ b6 ↔
      (a1 ∨ b1) ∨ (a2 ∨ b2) ∨ (a3 ∨ b3) ∨ (a4 ∨ b4) ∨ (a5 ∨ b5) ∨
        (a6 ∨ b6) := by
  tauto

theorem authNonceStep_eq (st : JSFields × Bool) :
    authNonceStep st = fieldStep nonceFieldCanon "nonce".toList st := by
  simp only [authNonceStep, fieldStep, nonceFieldCanon]
  by_cases hs : (st.1.get "nonce".toList).isStr = true
  · simp only [hs, if_true]
  · simp only [hs, Bool.false_eq_true, if_false]
    simp

set_option maxHeartbeats 4000000 in
/-- C9: `normalizeAuthorizationPayload` on an object record factors into
    independent per-field canonicalizations — `from`/`to` through the
    stringify-trim pass then `normalizeAddress`, the three integer
    fields through `normalizeIntegerString`, and `nonce` through
    `normalizeHexNonce` — while fields outside the six and the key set
    itself (in particular an absent `to`) are untouched, and the
    `changed` flag is true exactly when some field's final canonical
    value differs from its input value. -/
theorem authorization_fieldwise (hash : Str → Nat → Nat) (o : JSFields) :
    ∃ o' : JSFields,
      normalizeAuthorizationPayload hash (.obj o) =
        (.obj o', (normalizeAuthorizationPayload hash (.obj o)).2) ∧
      o'.get "from".toList =
        normalizeAddress hash (stringPassCanon (o.get "from".toList)) ∧
      o'.get "to".toList =
        normalizeAddress hash (stringPassCanon (o.get "to".toList)) ∧
      o'.get "value".toList =
        normalizeIntegerString (stringPassCanon (o.get "value".toList)) ∧
      o'.get "validAfter".toList =
        normalizeIntegerString (stringPassCanon (o.get "validAfter".toList)) ∧
      o'.get "validBefore".toList =
        normalizeIntegerString (stringPassCanon (o.get "validBefore".toList)) ∧
      o'.get "nonce".toList =
        nonceFieldCanon (stringPassCanon (o.get "nonce".toList)) ∧
      (∀ f, f ∉ authStringFields → o'.get f = o.get f) ∧
      (∀ f, o'.hasKey f = o.hasKey f) ∧
      ((normalizeAuthorizationPayload hash (.obj o)).2 = true ↔
        ∃ f ∈ authStringFields, o'.get f ≠ o.get f) := by
  have hstrfun : authStringStep = fun st f => fieldStep stringPassCanon f st :=
    funext fun st => funext fun f => authStringStep_eq st f
  have hintfun : authIntStep = fun st f => fieldStep normalizeIntegerString f st :=
    funext fun st => funext fun f => rfl
  set A := authStringFields.foldl authStringStep (o, false) with hAdef
  set B := authAddrStep hash A "from".toList with hBdef
  set C := authAddrStep hash B "to".toList with hCdef
  set D := authNumberFields.foldl authIntStep C with hDdef
  set E := authNonceStep D with hEdef
  have hmain : normalizeAuthorizationPayload hash (.obj o) = (.obj E.1, E.2) := by
    rw [hEdef, hDdef, hCdef, hBdef, hAdef]
    rfl
  clear_value E D C B A
  obtain ⟨A1, A2, A3, A4⟩ :=
    foldl_fieldStep_spec stringPassCanon rfl authStringFields (by decide) o false
  rw [show authStringFields.foldl (fun st f => fieldStep stringPassCanon f st)
      (o, false) = A by rw [hAdef, hstrfun]] at A1 A2 A3 A4
  obtain ⟨B1, B2, B3, B4⟩ := fieldStep_spec (normalizeAddress hash) rfl "from".toList A
  rw [show fieldStep (normalizeAddress hash) "from".toList A = B from hBdef.symm]
    at B1 B2 B3 B4
  obtain ⟨C1, C2, C3, C4⟩ := fieldStep_spec (normalizeAddress hash) rfl "to".toList B
  rw [show fieldStep (normalizeAddress hash) "to".toList B = C from hCdef.symm]
    at C1 C2 C3 C4
  obtain ⟨D1, D2, D3, D4⟩ :=
    foldl_fieldStep_spec normalizeIntegerString rfl authNumberFields (by decide)
      C.1 C.2
  rw [show authNumberFields.foldl (fun st f => fieldStep normalizeIntegerString f st)
      (C.1, C.2) = D by rw [hDdef, hintfun]] at D1 D2 D3 D4
  obtain ⟨E1, E2, E3, E4⟩ := fieldStep_spec nonceFieldCanon rfl "nonce".toList D
  rw [show fieldStep nonceFieldCanon "nonce".toList D = E by
      rw [hEdef, authNonceStep_eq]] at E1 E2 E3 E4
  have hfrom : E.1.get "from".toList =
      normalizeAddress hash (stringPassCanon (o.get "from".toList)) := by
    rw [E2 _ (by decide), D2 _ (by decide), C2 _ (by decide), B1,
      A1 _ (by decide)]
  have hto : E.1.get "to".toList =
      normalizeAddress hash (stringPassCanon (o.get "to".toList)) := by
    rw [E2 _ (by decide), D2 _ (by decide), C1, B2 _ (by decide),
      A1 _ (by decide)]
  have hvalue : E.1.get "value".toList =
      normalizeIntegerString (stringPassCanon (o.get "value".toList)) := by
    rw [E2 _ (by decide), D1 _ (by decide), C2 _ (by decide), B2 _ (by decide),
      A1 _ (by decide)]
  have hvalidAfter : E.1.get "validAfter".toList =
      normalizeIntegerString (stringPassCanon (o.get "validAfter".toList)) := by
    rw [E2 _ (by decide), D1 _ (by decide), C2 _ (by decide), B2 _ (by decide),
      A1 _ (by decide)]
  have hvalidBefore : E.1.get "validBefore".toList =
      normalizeIntegerString (stringPassCanon (o.get "validBefore".toList)) := by
    rw [E2 _ (by decide), D1 _ (by decide), C2 _ (by decide), B2 _ (by decide),
      A1 _ (by decide)]
  have hnonce : E.1.get "nonce".toList =
      nonceFieldCanon (stringPassCanon (o.get "nonce".toList)) := by
    rw [E1, D2 _ (by decide), C2 _ (by decide), B2 _ (by decide),
      A1 _ (by decide)]
  have hsub : ∀ x ∈ authNumberFields, x ∈ authStringFields := by decide
  have hother : ∀ f, f ∉ authStringFields → E.1.get f = o.get f := by
    intro f hf
    have h1 : f ≠ "nonce".toList := fun he =>
      hf (he ▸ (by decide : "nonce".toList ∈ authStringFields))
    have h2 : f ∉ authNumberFields := fun hm => hf (hsub f hm)
    have h3 : f ≠ "to".toList := fun he =>
      hf (he ▸ (by decide : "to".toList ∈ authStringFields))
    have h4 : f ≠ "from".toList := fun he =>
      hf (he ▸ (by decide : "from".toList ∈ authStringFields))
    rw [E2 _ h1, D2 _ h2, C2 _ h3, B2 _ h4, A2 _ hf]
  have hkeys : ∀ f, E.1.hasKey f = o.hasKey f := by
    intro f
    rw [E3, D3, C3, B3, A3]
  refine ⟨E.1, by rw [hmain], hfrom, hto, hvalue, hvalidAfter, hvalidBefore,
    hnonce, hother, hkeys, ?_⟩
  -- the change flag
  rw [hmain]
  have haddrstr : ∀ t : Str, jsTrim t = t →
      ∃ w, normalizeAddress hash (.str t) = .str w ∧ jsTrim w = w := by
    intro t ht
    exact ⟨normalizeAddressStr hash t, rfl, normalizeAddressStr_trimInv hash ht⟩
  have hintstr : ∀ t : Str, jsTrim t = t →
      ∃ w, normalizeIntegerString (.str t) = .str w ∧ jsTrim w = w := by
    intro t ht
    exact normalizeIntegerString_str_trimInv ht
  have hnoncestr : ∀ t : Str, jsTrim t = t →
      ∃ w, nonceFieldCanon (.str t) = .str w ∧ jsTrim w = w := by
    intro t ht
    exact ⟨normalizeHexNonceStr t, rfl, normalizeHexNonceStr_trimInv ht⟩
  have iffFrom := two_stage_change_iff (normalizeAddress hash) haddrstr
    (o.get "from".toList)
  have iffTo := two_stage_change_iff (normalizeAddress hash) haddrstr
    (o.get "to".toList)
  have iffValue := two_stage_change_iff normalizeIntegerString hintstr
    (o.get "value".toList)
  have iffVA := two_stage_change_iff normalizeIntegerString hintstr
    (o.get "validAfter".toList)
  have iffVB := two_stage_change_iff normalizeIntegerString hintstr
    (o.get "validBefore".toList)
  have iffNonce := two_stage_change_iff nonceFieldCanon hnoncestr
    (o.get "nonce".toList)
  have hBget : B.1.get "to".toList = stringPassCanon (o.get "to".toList) := by
    rw [B2 _ (by decide), A1 _ (by decide)]
  have hCget : ∀ k ∈ authNumberFields,
      C.1.get k = stringPassCanon (o.get k) := by
    intro k hk
    have h3 : k ≠ "to".toList := fun he => by
      subst he; revert hk; decide
    have h4 : k ≠ "from".toList := fun he => by
      subst he; revert hk; decide
    rw [C2 _ h3, B2 _ h4, A1 _ (hsub k hk)]
  have hDget : D.1.get "nonce".toList =
      stringPassCanon (o.get "nonce".toList) := by
    rw [D2 _ (by decide), C2 _ (by decide), B2 _ (by decide), A1 _ (by decide)]
  have hAget : A.1.get "from".toList = stringPassCanon (o.get "from".toList) :=
    A1 _ (by decide)
  rw [E4, D4, C4, B4, A4, hAget, hBget, hDget]
  rw [list_any_congr (p := fun k =>
      decide (normalizeIntegerString (C.1.get k) ≠ C.1.get k))
    (q := fun k =>
      decide (normalizeIntegerString (stringPassCanon (o.get k)) ≠
        stringPassCanon (o.get k)))
    (fun k hk => by simp only [hCget k hk])]
  simp only [authStringFields, authNumberFields, List.any_cons, List.any_nil,
    Bool.or_eq_true, Bool.false_or, decide_eq_true_eq, List.mem_cons,
    List.not_mem_nil, or_false, exists_eq_or_imp, exists_eq_left]
  rw [hfrom, hto, hvalue, hvalidAfter, hvalidBefore, hnonce]
  simp only [Bool.false_eq_true]
  rw [or_interleave, iffFrom, iffTo, iffValue, iffVA, iffVB, iffNonce]

/-- Concrete end-to-end run: an authorization record missing `to`
    normalizes without a crash, the other fields are canonicalized,
    `to` stays absent (no synthetic value), and the changed flag is
    true from the other fields. -/
theorem authorization_missing_to_example :
    normalizeAuthorizationPayload (fun _ _ => 0)
        (.obj (.cons "from".toList (.str " 0xab ".toList)
          (.cons "value".toList (.str "0123".toList) .nil))) =
      (.obj (.cons "from".toList (.str "0xab".toList)
        (.cons "value".toList (.str "123".toList) .nil)), true) ∧
    (JSFields.cons "from".toList (.str "0xab".toList)
      (.cons "value".toList (.str "123".toList) .nil)).hasKey "to".toList
      = false := by
  constructor <;> decide

/-- Witness for C5 at concrete clients: a primary whose `getSupported`
    rejects with an unclassified error still falls back exactly once. -/
theorem getSupported_fallback_policy_witness :
    fallbackClientGetSupported
      (fun _ => (Except.error (JSVal.str "boom".toList) : Except JSVal Nat))
      (fun _ => Except.ok 3) = (Except.ok 3, [()], [()]) ∧
    shouldFallbackForFacilitatorError (JSVal.str "boom".toList) = false := by
  constructor
  · exact (getSupported_fallback_policy
      (fun _ => (Except.error (JSVal.str "boom".toList) : Except JSVal Nat))
      (fun _ => Except.ok 3)).1 _ rfl
  · decide

/-! ### Heap frame lemmas (claim C10) -/

theorem lookup_map_if (f : HObj → HObj) (t : Nat) (l : List (Nat × HObj))
    (r : Nat) (hr : r ≠ t) :
    (l.map (fun p => if p.1 = t then (t, f p.2) else p)).lookup r =
      l.lookup r := by
  induction l with
  | nil => rfl
  | cons p rest ih =>
    rcases p with ⟨pk, po⟩
    by_cases hpk : pk = t
    · subst hpk
      have hb : (r == pk) = false := by simp [hr]
      rw [List.map_cons, if_pos (show ((pk, po) : Nat × HObj).1 = pk from rfl)]
      simp [List.lookup, hb, ih]
    · rw [List.map_cons,
        if_neg (show ¬ ((pk, po) : Nat × HObj).1 = t from hpk)]
      cases hb : r == pk <;> simp [List.lookup, hb, ih]

theorem find_write_ne (h : Heap) (t : Nat) (k : Str) (v : HVal) (r : Nat)
    (hr : r ≠ t) : (h.write t k v).find r = h.find r := by
  exact lookup_map_if (fun o => { o with fields := osetH o.fields k v })
    t h.objs r hr

theorem write_of_find_none (h : Heap) (t : Nat) (k : Str) (v : HVal)
    (hn : h.find t = none) : h.write t k v = h := by
  have hkeys : ∀ l : List (Nat × HObj), l.lookup t = none → ∀ p ∈ l, p.1 ≠ t := by
    intro l
    induction l with
    | nil => intro _ p hp; cases hp
    | cons q rest ih =>
      rcases q with ⟨qk, qo⟩
      intro hn2 p hp
      cases hb : t == qk with
      | true =>
        exfalso
        rw [List.lookup_cons, hb] at hn2
        exact Option.noConfusion hn2
      | false =>
        rw [List.lookup_cons, hb] at hn2
        rcases List.mem_cons.mp hp with hp | hp
        · subst hp
          have hb2 : t ≠ qk := by simpa using hb
          exact fun hx => hb2 hx.symm
        · exact ih hn2 p hp
  have hmap : ∀ l : List (Nat × HObj), (∀ p ∈ l, p.1 ≠ t) →
      l.map (fun p =>
        if p.1 = t then (t, { p.2 with fields := osetH p.2.fields k v })
        else p) = l := by
    intro l
    induction l with
    | nil => intro _; rfl
    | cons p rest ih =>
      intro hk
      rw [List.map_cons, if_neg (hk p (by simp)),
        ih (fun q hq => hk q (by simp [hq]))]
  unfold Heap.write
  rw [hmap h.objs (hkeys h.objs hn)]

theorem find_write_self (h : Heap) (t : Nat) (k : Str) (v : HVal) :
    (h.write t k v).find t =
      (h.find t).map (fun o => { o with fields := osetH o.fields k v }) := by
  show (h.objs.map _).lookup t = (h.objs.lookup t).map _
  induction h.objs with
  | nil => rfl
  | cons p rest ih =>
    rcases p with ⟨pk, po⟩
    by_cases hpk : pk = t
    · subst hpk
      rw [List.map_cons, if_pos (show ((pk, po) : Nat × HObj).1 = pk from rfl)]
      simp [List.lookup]
    · rw [List.map_cons,
        if_neg (show ¬ ((pk, po) : Nat × HObj).1 = t from hpk)]
      have hb : (t == pk) = false := by simp [Ne.symm hpk]
      simp [List.lookup, hb, ih]

theorem find_alloc_ne (h : Heap) (o : HObj) (r : Nat) (hr : r ≠ h.next) :
    ((h.alloc o).1).find r = h.find r := by
  show List.lookup r ((h.next, o) :: h.objs) = _
  have hb : (r == h.next) = false := by simp [hr]
  rw [List.lookup_cons, hb]
  rfl

theorem find_alloc_self (h : Heap) (o : HObj) :
    ((h.alloc o).1).find h.next = some o := by
  show List.lookup h.next ((h.next, o) :: h.objs) = _
  simp [List.lookup]

theorem wfb_find_none (h : Heap) (hwf : h.wfb = true) (r : Nat)
    (hr : h.next ≤ r) : h.find r = none := by
  have hall : ∀ p ∈ h.objs, p.1 < h.next := by
    intro p hp
    exact of_decide_eq_true (List.all_eq_true.mp hwf p hp)
  show h.objs.lookup r = none
  suffices haux : ∀ l : List (Nat × HObj), (∀ p ∈ l, p.1 < h.next) →
      l.lookup r = none from haux h.objs hall
  intro l hl
  induction l with
  | nil => rfl
  | cons p rest ih =>
    rcases p with ⟨pk, po⟩
    have h1 : pk < h.next := by simpa using hl ⟨pk, po⟩ (by simp)
    have hb : (r == pk) = false := by
      simp only [beq_eq_false_iff_ne]
      omega
    simp [List.lookup, hb, ih (fun q hq => hl q (by simp [hq]))]

theorem ogetH_map_set_ne (flds : List (Str × HVal)) (k : Str) (v : HVal)
    (q : Str) (hq : q ≠ k) :
    ogetH (flds.map fun p => if p.1 = k then (k, v) else p) q =
      ogetH flds q := by
  induction flds with
  | nil => rfl
  | cons p rest ih =>
    rcases p with ⟨pk, pw⟩
    by_cases hpk : pk = k
    · subst hpk
      rw [List.map_cons, if_pos (show ((pk, pw) : Str × HVal).1 = pk from rfl)]
      simp [ogetH, Ne.symm hq, ih]
    · rw [List.map_cons,
        if_neg (show ¬ ((pk, pw) : Str × HVal).1 = k from hpk)]
      simp [ogetH, ih]

theorem ogetH_osetH_ne (flds : List (Str × HVal)) (k : Str) (v : HVal)
    (q : Str) (hq : q ≠ k) :
    ogetH (osetH flds k v) q = ogetH flds q := by
  unfold osetH
  by_cases hany : flds.any (fun p => p.1 = k)
  · rw [if_pos hany]
    exact ogetH_map_set_ne flds k v q hq
  · rw [if_neg hany]
    clear hany
    induction flds with
    | nil => simp [ogetH, Ne.symm hq]
    | cons p rest ih =>
      rcases p with ⟨pk, pw⟩
      by_cases hpq : pk = q
      · simp [ogetH, hpq]
      · simp [ogetH, hpq, ih]

theorem ogetH_osetH_self (flds : List (Str × HVal)) (k : Str) (v : HVal) :
    ogetH (osetH flds k v) k = v := by
  unfold osetH
  by_cases hany : flds.any (fun p => p.1 = k)
  · rw [if_pos hany]
    induction flds with
    | nil => cases hany
    | cons p rest ih =>
      rcases p with ⟨pk, pw⟩
      by_cases hpk : pk = k
      · subst hpk
        rw [List.map_cons,
          if_pos (show ((pk, pw) : Str × HVal).1 = pk from rfl)]
        simp [ogetH]
      · rw [List.map_cons,
          if_neg (show ¬ ((pk, pw) : Str × HVal).1 = k from hpk)]
        have hany2 : rest.any (fun p => p.1 = k) = true := by
          rw [List.any_cons, Bool.or_eq_true] at hany
          rcases hany with hx | hx
          · exact absurd (of_decide_eq_true hx) hpk
          · exact hx
        simp [ogetH, hpk, ih hany2]
  · rw [if_neg hany]
    induction flds with
    | nil => simp [ogetH]
    | cons p rest ih =>
      rcases p with ⟨pk, pw⟩
      have hpk : pk ≠ k := by
        intro hx
        exact hany (by simp [List.any_cons, hx])
      have hany2 : ¬ rest.any (fun p => p.1 = k) = true := by
        intro hx
        exact hany (by simp [List.any_cons, hx])
      simp [ogetH, hpk, ih hany2]

theorem hread_write_ne_key (h : Heap) (t : Nat) (k : Str) (v : HVal)
    (m : Nat) (q : Str) (hq : q ≠ k) :
    hread (h.write t k v) m q = hread h m q := by
  by_cases hm : m = t
  · subst hm
    unfold hread
    rw [find_write_self]
    cases h.find m with
    | none => rfl
    | some o => exact ogetH_osetH_ne o.fields k v q hq
  · unfold hread
    rw [find_write_ne h t k v m hm]

theorem hread_alloc_ne (h : Heap) (o : HObj) (m : Nat) (q : Str)
    (hm : m ≠ h.next) : hread ((h.alloc o).1) m q = hread h m q := by
  unfold hread
  rw [find_alloc_ne h o m hm]

theorem HeapExt_refl (h : Heap) : HeapExt h h :=
  ⟨Nat.le_refl _, fun _ _ => rfl⟩

theorem HeapExt_trans (h0 h1 h2 : Heap) (a : HeapExt h0 h1)
    (b : HeapExt h1 h2) : HeapExt h0 h2 := by
  refine ⟨Nat.le_trans a.1 b.1, fun r hr => ?_⟩
  rw [b.2 r (Nat.lt_of_lt_of_le hr a.1), a.2 r hr]

theorem HeapExt_write (h0 h : Heap) (t : Nat) (k : Str) (v : HVal)
    (hE : HeapExt h0 h) (hs : h0.next ≤ t ∨ h0.find t = none) :
    HeapExt h0 (h.write t k v) := by
  rcases hs with hs | hs
  · refine ⟨hE.1, fun r hr => ?_⟩
    rw [find_write_ne h t k v r (by omega)]
    exact hE.2 r hr
  · by_cases ht : t < h0.next
    · rw [write_of_find_none h t k v (by rw [hE.2 t ht]; exact hs)]
      exact hE
    · refine ⟨hE.1, fun r hr => ?_⟩
      rw [find_write_ne h t k v r (by omega)]
      exact hE.2 r hr

theorem HeapExt_alloc (h0 h : Heap) (o : HObj) (hE : HeapExt h0 h) :
    HeapExt h0 (h.alloc o).1 := by
  refine ⟨?_, fun r hr => ?_⟩
  · show h0.next ≤ h.next + 1
    have := hE.1
    omega
  · rw [find_alloc_ne h o r (by have := hE.1; omega)]
    exact hE.2 r hr

theorem SafeV_mono (h0 h : Heap) (v : HVal) (hE : HeapExt h0 h)
    (hs : SafeV h v) : SafeV h0 v := by
  intro t ht
  rcases hs t ht with h1 | h1
  · exact Or.inl (Nat.le_trans hE.1 h1)
  · by_cases h2 : t < h0.next
    · exact Or.inr (by rw [← hE.2 t h2]; exact h1)
    · exact Or.inl (by omega)

theorem SafeV_current (h0 h : Heap) (v : HVal) (hE : HeapExt h0 h)
    (hs : SafeV h0 v) : ∀ t, v = .href t → h0.next ≤ t ∨ h.find t = none := by
  intro t ht
  rcases hs t ht with h1 | h1
  · exact Or.inl h1
  · by_cases h2 : t < h0.next
    · exact Or.inr (by rw [hE.2 t h2]; exact h1)
    · exact Or.inl (by omega)

theorem normalizeStringFieldH_ext (h0 h : Heap) (c : Bool) (target : HVal)
    (k : Str) (hE : HeapExt h0 h) (hs : SafeV h0 target) :
    HeapExt h0 (normalizeStringFieldH h c target k).1 := by
  cases target with
  | href r =>
    simp only [normalizeStringFieldH]
    split_ifs with h1 h2 h3
    · exact hE
    · exact HeapExt_write h0 h r k _ hE (hs r rfl)
    · exact HeapExt_write h0 h r k _ hE (hs r rfl)
    · exact hE
  | hstr s => exact hE
  | hnum m => exact hE
  | hbool b => exact hE
  | hnull => exact hE
  | hundefined => exact hE

theorem normalizeStringFieldH_hread (h : Heap) (c : Bool) (target : HVal)
    (k : Str) (m : Nat) (q : Str) (hq : q ≠ k) :
    hread (normalizeStringFieldH h c target k).1 m q = hread h m q := by
  cases target with
  | href r =>
    simp only [normalizeStringFieldH]
    split_ifs with h1 h2 h3
    · rfl
    · exact hread_write_ne_key h r k _ m q hq
    · exact hread_write_ne_key h r k _ m q hq
    · rfl
  | hstr s => rfl
  | hnum n2 => rfl
  | hbool b => rfl
  | hnull => rfl
  | hundefined => rfl

theorem addrFieldH_ext (hash : Str → Nat → Nat) (h0 h : Heap) (c : Bool)
    (r : Nat) (k : Str) (hE : HeapExt h0 h)
    (hs : h0.next ≤ r ∨ h0.find r = none) :
    HeapExt h0 (addrFieldH hash h c r k).1 := by
  simp only [addrFieldH]
  split_ifs with h1
  · exact HeapExt_write h0 h r k _ hE hs
  · exact hE

theorem addrFieldH_hread (hash : Str → Nat → Nat) (h : Heap) (c : Bool)
    (r : Nat) (k : Str) (m : Nat) (q : Str) (hq : q ≠ k) :
    hread (addrFieldH hash h c r k).1 m q = hread h m q := by
  simp only [addrFieldH]
  split_ifs with h1
  · exact hread_write_ne_key h r k _ m q hq
  · rfl

theorem intFieldH_ext (h0 h : Heap) (c : Bool) (r : Nat) (k : Str)
    (hE : HeapExt h0 h) (hs : h0.next ≤ r ∨ h0.find r = none) :
    HeapExt h0 (intFieldH h c r k).1 := by
  simp only [intFieldH]
  split_ifs with h1
  · exact HeapExt_write h0 h r k _ hE hs
  · exact hE

theorem intFieldH_hread (h : Heap) (c : Bool) (r : Nat) (k : Str)
    (m : Nat) (q : Str) (hq : q ≠ k) :
    hread (intFieldH h c r k).1 m q = hread h m q := by
  simp only [intFieldH]
  split_ifs with h1
  · exact hread_write_ne_key h r k _ m q hq
  · rfl

theorem copySub_ext (h : Heap) (w : HVal) : HeapExt h (copySub h w).1 := by
  cases w with
  | href r =>
    simp only [copySub]
    cases hf : h.find r with
    | some o2 => exact HeapExt_alloc h h _ (HeapExt_refl h)
    | none => exact HeapExt_refl h
  | hstr s => exact HeapExt_refl h
  | hnum n2 => exact HeapExt_refl h
  | hbool b => exact HeapExt_refl h
  | hnull => exact HeapExt_refl h
  | hundefined => exact HeapExt_refl h

theorem copySub_safe (h : Heap) (w : HVal) : SafeV h (copySub h w).2 := by
  cases w with
  | href r =>
    simp only [copySub]
    cases hf : h.find r with
    | some o2 =>
      intro t ht
      cases ht
      exact Or.inl (Nat.le_refl _)
    | none =>
      intro t ht
      cases ht
      exact Or.inr hf
  | hstr s => intro t ht; cases ht
  | hnum n2 => intro t ht; cases ht
  | hbool b => intro t ht; cases ht
  | hnull => intro t ht; cases ht
  | hundefined => intro t ht; cases ht

theorem copySub_found (h : Heap) (w : HVal) (r : Nat) (o2 : HObj)
    (hw : w = .href r) (hf : h.find r = some o2) :
    copySub h w = ((h.alloc { isArr := false, fields := o2.fields }).1,
      .href h.next) := by
  subst hw
  simp only [copySub, hf]
  rfl

theorem nonceFieldH_ext (h0 h : Heap) (c : Bool) (r : Nat)
    (hE : HeapExt h0 h) (hs : h0.next ≤ r ∨ h0.find r = none) :
    HeapExt h0 (nonceFieldH h c r).1 := by
  simp only [nonceFieldH]
  split_ifs with h1 h2
  · exact HeapExt_write h0 h r _ _ hE hs
  · exact hE
  · exact hE

theorem nonceFieldH_hread (h : Heap) (c : Bool) (r : Nat) (m : Nat) (q : Str)
    (hq : q ≠ "nonce".toList) :
    hread (nonceFieldH h c r).1 m q = hread h m q := by
  simp only [nonceFieldH]
  split_ifs with h1 h2
  · exact hread_write_ne_key h r _ _ m q hq
  · rfl
  · rfl

theorem permittedTokenH_ext (hash : Str → Nat → Nat) (h0 h : Heap) (c : Bool)
    (n : Nat) (hE : HeapExt h0 h)
    (hs : ∀ t, hread h n "permitted".toList = .href t →
      h0.next ≤ t ∨ h0.find t = none) :
    HeapExt h0 (permittedTokenH hash h c n).1 := by
  simp only [permittedTokenH]
  cases hp : hread h n "permitted".toList with
  | href rp => exact addrFieldH_ext hash h0 h c rp _ hE (hs rp hp)
  | hstr s => exact hE
  | hnum m => exact hE
  | hbool b => exact hE
  | hnull => exact hE
  | hundefined => exact hE

theorem permittedTokenH_hread (hash : Str → Nat → Nat) (h : Heap) (c : Bool)
    (n : Nat) (m : Nat) (q : Str) (hq : q ≠ "token".toList) :
    hread (permittedTokenH hash h c n).1 m q = hread h m q := by
  simp only [permittedTokenH]
  cases hp : hread h n "permitted".toList with
  | href rp => exact addrFieldH_hread hash h c rp _ m q hq
  | hstr s => rfl
  | hnum m2 => rfl
  | hbool b => rfl
  | hnull => rfl
  | hundefined => rfl

theorem witnessExtraH_ext (h0 h : Heap) (c : Bool) (rw2 : Nat)
    (hE : HeapExt h0 h) (hs : h0.next ≤ rw2 ∨ h0.find rw2 = none) :
    HeapExt h0 (witnessExtraH h c rw2).1 := by
  simp only [witnessExtraH]
  cases he1 : hread h rw2 "extra".toList with
  | hstr ex =>
    dsimp only
    by_cases ht : jsTrim ex ≠ ex
    · rw [if_pos ht]
      dsimp only
      have hE2 : HeapExt h0 (h.write rw2 "extra".toList (.hstr (jsTrim ex))) :=
        HeapExt_write h0 h rw2 _ _ hE hs
      cases he2 : hread (h.write rw2 "extra".toList (.hstr (jsTrim ex)))
          rw2 "extra".toList with
      | hstr ex2 =>
        dsimp only
        split_ifs with h3
        · exact HeapExt_write h0 _ rw2 _ _ hE2 hs
        · exact hE2
      | hnum m2 => exact hE2
      | hbool b => exact hE2
      | hnull => exact hE2
      | hundefined => exact hE2
      | href r2 => exact hE2
    · rw [if_neg ht]
      dsimp only
      rw [he1]
      dsimp only
      split_ifs with h3
      · exact HeapExt_write h0 h rw2 _ _ hE hs
      · exact hE
  | hnum m2 => exact hE
  | hbool b => exact hE
  | hnull => exact hE
  | hundefined => exact hE
  | href r2 => exact hE

theorem witnessExtraH_hread (h : Heap) (c : Bool) (rw2 : Nat) (m : Nat)
    (q : Str) (hq : q ≠ "extra".toList) :
    hread (witnessExtraH h c rw2).1 m q = hread h m q := by
  simp only [witnessExtraH]
  cases he1 : hread h rw2 "extra".toList with
  | hstr ex =>
    dsimp only
    by_cases ht : jsTrim ex ≠ ex
    · rw [if_pos ht]
      dsimp only
      cases he2 : hread (h.write rw2 "extra".toList (.hstr (jsTrim ex)))
          rw2 "extra".toList with
      | hstr ex2 =>
        dsimp only
        split_ifs with h3
        · rw [hread_write_ne_key _ rw2 _ _ m q hq,
            hread_write_ne_key h rw2 _ _ m q hq]
        · rw [hread_write_ne_key h rw2 _ _ m q hq]
      | hnum m2 => rw [hread_write_ne_key h rw2 _ _ m q hq]
      | hbool b => rw [hread_write_ne_key h rw2 _ _ m q hq]
      | hnull => rw [hread_write_ne_key h rw2 _ _ m q hq]
      | hundefined => rw [hread_write_ne_key h rw2 _ _ m q hq]
      | href r2 => rw [hread_write_ne_key h rw2 _ _ m q hq]
    · rw [if_neg ht]
      dsimp only
      rw [he1]
      dsimp only
      split_ifs with h3
      · rw [hread_write_ne_key h rw2 _ _ m q hq]
      · rfl
  | hnum m2 => rfl
  | hbool b => rfl
  | hnull => rfl
  | hundefined => rfl
  | href r2 => rfl

theorem witnessBlockH_ext (hash : Str → Nat → Nat) (h0 h : Heap) (c : Bool)
    (n : Nat) (hE : HeapExt h0 h)
    (hs : ∀ t, hread h n "witness".toList = .href t →
      h0.next ≤ t ∨ h0.find t = none) :
    HeapExt h0 (witnessBlockH hash h c n).1 := by
  simp only [witnessBlockH]
  cases hw : hread h n "witness".toList with
  | href rw2 =>
    dsimp only
    exact witnessExtraH_ext h0 (addrFieldH hash h c rw2 "to".toList).1
      (addrFieldH hash h c rw2 "to".toList).2 rw2
      (addrFieldH_ext hash h0 h c rw2 "to".toList hE (hs rw2 hw)) (hs rw2 hw)
  | hstr s => exact hE
  | hnum m2 => exact hE
  | hbool b => exact hE
  | hnull => exact hE
  | hundefined => exact hE

theorem witnessBlockH_hread (hash : Str → Nat → Nat) (h : Heap) (c : Bool)
    (n : Nat) (m : Nat) (q : Str) (hq1 : q ≠ "to".toList)
    (hq2 : q ≠ "extra".toList) :
    hread (witnessBlockH hash h c n).1 m q = hread h m q := by
  simp only [witnessBlockH]
  cases hw : hread h n "witness".toList with
  | href rw2 =>
    dsimp only
    rw [witnessExtraH_hread (addrFieldH hash h c rw2 "to".toList).1
      (addrFieldH hash h c rw2 "to".toList).2 rw2 m q hq2]
    exact addrFieldH_hread hash h c rw2 "to".toList m q hq1
  | hstr s => rfl
  | hnum m2 => rfl
  | hbool b => rfl
  | hnull => rfl
  | hundefined => rfl

theorem nestedIntH_ext (h0 h : Heap) (c : Bool) (n : Nat) (p1 key : Str)
    (hE : HeapExt h0 h)
    (hs : ∀ t, hread h n p1 = .href t → h0.next ≤ t ∨ h0.find t = none) :
    HeapExt h0 (nestedIntH h c n p1 key).1 := by
  simp only [nestedIntH]
  cases hp : hread h n p1 with
  | href r2 => exact intFieldH_ext h0 h c r2 key hE (hs r2 hp)
  | hstr s => exact hE
  | hnum m2 => exact hE
  | hbool b => exact hE
  | hnull => exact hE
  | hundefined => exact hE

theorem nestedIntH_hread (h : Heap) (c : Bool) (n : Nat) (p1 key : Str)
    (m : Nat) (q : Str) (hq : q ≠ key) :
    hread (nestedIntH h c n p1 key).1 m q = hread h m q := by
  simp only [nestedIntH]
  cases hp : hread h n p1 with
  | href r2 => exact intFieldH_hread h c r2 key m q hq
  | hstr s => rfl
  | hnum m2 => rfl
  | hbool b => rfl
  | hnull => rfl
  | hundefined => rfl


/-- The body of the heap `normalizeAuthorizationPayload` only allocates
    and writes the fresh copy: the heap extends, and the returned value
    is the fresh reference `h.next`. -/
theorem authBodyH_spec (hash : Str → Nat → Nat) (h : Heap) (o : HObj) :
    HeapExt h (authBodyH hash h o).1 ∧
    (authBodyH hash h o).2.1 = .href h.next := by
  have hsafe : SafeV h (.href h.next) := by
    intro t ht
    cases ht
    exact Or.inl (Nat.le_refl _)
  unfold authBodyH
  dsimp only
  rw [show (h.alloc { isArr := false, fields := o.fields }).2 = h.next from rfl]
  generalize hg0 : (h.alloc { isArr := false, fields := o.fields }).1 = g0
  have E0 : HeapExt h g0 := by
    rw [← hg0]
    exact HeapExt_alloc h h _ (HeapExt_refl h)
  have E1' := normalizeStringFieldH_ext h g0 false (.href h.next) "from".toList E0 hsafe
  generalize hg1 : (normalizeStringFieldH g0 false (.href h.next) "from".toList).1 = g1, hc1 : (normalizeStringFieldH g0 false (.href h.next) "from".toList).2 = c1
  have E1 : HeapExt h g1 := hg1 ▸ E1'
  have E2' := normalizeStringFieldH_ext h g1 c1 (.href h.next) "to".toList E1 hsafe
  generalize hg2 : (normalizeStringFieldH g1 c1 (.href h.next) "to".toList).1 = g2, hc2 : (normalizeStringFieldH g1 c1 (.href h.next) "to".toList).2 = c2
  have E2 : HeapExt h g2 := hg2 ▸ E2'
  have E3' := normalizeStringFieldH_ext h g2 c2 (.href h.next) "value".toList E2 hsafe
  generalize hg3 : (normalizeStringFieldH g2 c2 (.href h.next) "value".toList).1 = g3, hc3 : (normalizeStringFieldH g2 c2 (.href h.next) "value".toList).2 = c3
  have E3 : HeapExt h g3 := hg3 ▸ E3'
  have E4' := normalizeStringFieldH_ext h g3 c3 (.href h.next) "validAfter".toList E3 hsafe
  generalize hg4 : (normalizeStringFieldH g3 c3 (.href h.next) "validAfter".toList).1 = g4, hc4 : (normalizeStringFieldH g3 c3 (.href h.next) "validAfter".toList).2 = c4
  have E4 : HeapExt h g4 := hg4 ▸ E4'
  have E5' := normalizeStringFieldH_ext h g4 c4 (.href h.next) "validBefore".toList E4 hsafe
  generalize hg5 : (normalizeStringFieldH g4 c4 (.href h.next) "validBefore".toList).1 = g5, hc5 : (normalizeStringFieldH g4 c4 (.href h.next) "validBefore".toList).2 = c5
  have E5 : HeapExt h g5 := hg5 ▸ E5'
  have E6' := normalizeStringFieldH_ext h g5 c5 (.href h.next) "nonce".toList E5 hsafe
  generalize hg6 : (normalizeStringFieldH g5 c5 (.href h.next) "nonce".toList).1 = g6, hc6 : (normalizeStringFieldH g5 c5 (.href h.next) "nonce".toList).2 = c6
  have E6 : HeapExt h g6 := hg6 ▸ E6'
  have E7' := addrFieldH_ext hash h g6 c6 h.next "from".toList E6 (Or.inl (Nat.le_refl _))
  generalize hg7 : (addrFieldH hash g6 c6 h.next "from".toList).1 = g7, hc7 : (addrFieldH hash g6 c6 h.next "from".toList).2 = c7
  have E7 : HeapExt h g7 := hg7 ▸ E7'
  have E8' := addrFieldH_ext hash h g7 c7 h.next "to".toList E7 (Or.inl (Nat.le_refl _))
  generalize hg8 : (addrFieldH hash g7 c7 h.next "to".toList).1 = g8, hc8 : (addrFieldH hash g7 c7 h.next "to".toList).2 = c8
  have E8 : HeapExt h g8 := hg8 ▸ E8'
  have E9' := intFieldH_ext h g8 c8 h.next "value".toList E8 (Or.inl (Nat.le_refl _))
  generalize hg9 : (intFieldH g8 c8 h.next "value".toList).1 = g9, hc9 : (intFieldH g8 c8 h.next "value".toList).2 = c9
  have E9 : HeapExt h g9 := hg9 ▸ E9'
  have E10' := intFieldH_ext h g9 c9 h.next "validAfter".toList E9 (Or.inl (Nat.le_refl _))
  generalize hg10 : (intFieldH g9 c9 h.next "validAfter".toList).1 = g10, hc10 : (intFieldH g9 c9 h.next "validAfter".toList).2 = c10
  have E10 : HeapExt h g10 := hg10 ▸ E10'
  have E11' := intFieldH_ext h g10 c10 h.next "validBefore".toList E10 (Or.inl (Nat.le_refl _))
  generalize hg11 : (intFieldH g10 c10 h.next "validBefore".toList).1 = g11, hc11 : (intFieldH g10 c10 h.next "validBefore".toList).2 = c11
  have E11 : HeapExt h g11 := hg11 ▸ E11'
  have E12' := nonceFieldH_ext h g11 c11 h.next E11 (Or.inl (Nat.le_refl _))
  generalize hg12 : (nonceFieldH g11 c11 h.next).1 = g12, hc12 : (nonceFieldH g11 c11 h.next).2 = c12
  have E12 : HeapExt h g12 := hg12 ▸ E12'
  exact ⟨E12, rfl⟩

theorem find_some_lt (h : Heap) (hwf : h.wfb = true) (r : Nat) (o2 : HObj)
    (hf : h.find r = some o2) : r < h.next := by
  by_cases hlt : r < h.next
  · exact hlt
  · rw [wfb_find_none h hwf r (by omega)] at hf
    cases hf

theorem permit2StringsH_spec (hash : Str → Nat → Nat) (h0 g0 : Heap)
    (c0 : Bool) (n : Nat) (pv wv : HVal) (E0 : HeapExt h0 g0)
    (P0 : hread g0 n "permitted".toList = pv)
    (W0 : hread g0 n "witness".toList = wv)
    (hsN : SafeV h0 (.href n)) (hsP : SafeV h0 pv) (hsW : SafeV h0 wv) :
    HeapExt h0 (permit2StringsH hash (g0, c0) n).1 ∧
    hread (permit2StringsH hash (g0, c0) n).1 n "permitted".toList = pv ∧
    hread (permit2StringsH hash (g0, c0) n).1 n "witness".toList = wv := by
  unfold permit2StringsH
  dsimp only
  have E1' := normalizeStringFieldH_ext h0 g0 c0 (.href n) "from".toList E0 hsN
  have P1' : hread (normalizeStringFieldH g0 c0 (.href n) "from".toList).1
      n "permitted".toList = pv := by
    rw [normalizeStringFieldH_hread g0 c0 (.href n) "from".toList n _ (by decide)]
    exact P0
  have W1' : hread (normalizeStringFieldH g0 c0 (.href n) "from".toList).1
      n "witness".toList = wv := by
    rw [normalizeStringFieldH_hread g0 c0 (.href n) "from".toList n _ (by decide)]
    exact W0
  generalize hg1 : (normalizeStringFieldH g0 c0 (.href n) "from".toList).1 = g1,
    hc1 : (normalizeStringFieldH g0 c0 (.href n) "from".toList).2 = c1
  have E1 : HeapExt h0 g1 := hg1 ▸ E1'
  have P1 : hread g1 n "permitted".toList = pv := hg1 ▸ P1'
  have W1 : hread g1 n "witness".toList = wv := hg1 ▸ W1'
  have E2' := normalizeStringFieldH_ext h0 g1 c1 (.href n) "spender".toList E1 hsN
  have P2' : hread (normalizeStringFieldH g1 c1 (.href n) "spender".toList).1
      n "permitted".toList = pv := by
    rw [normalizeStringFieldH_hread g1 c1 (.href n) "spender".toList n _ (by decide)]
    exact P1
  have W2' : hread (normalizeStringFieldH g1 c1 (.href n) "spender".toList).1
      n "witness".toList = wv := by
    rw [normalizeStringFieldH_hread g1 c1 (.href n) "spender".toList n _ (by decide)]
    exact W1
  generalize hg2 : (normalizeStringFieldH g1 c1 (.href n) "spender".toList).1 = g2,
    hc2 : (normalizeStringFieldH g1 c1 (.href n) "spender".toList).2 = c2
  have E2 : HeapExt h0 g2 := hg2 ▸ E2'
  have P2 : hread g2 n "permitted".toList = pv := hg2 ▸ P2'
  have W2 : hread g2 n "witness".toList = wv := hg2 ▸ W2'
  have E3' := normalizeStringFieldH_ext h0 g2 c2 (.href n) "nonce".toList E2 hsN
  have P3' : hread (normalizeStringFieldH g2 c2 (.href n) "nonce".toList).1
      n "permitted".toList = pv := by
    rw [normalizeStringFieldH_hread g2 c2 (.href n) "nonce".toList n _ (by decide)]
    exact P2
  have W3' : hread (normalizeStringFieldH g2 c2 (.href n) "nonce".toList).1
      n "witness".toList = wv := by
    rw [normalizeStringFieldH_hread g2 c2 (.href n) "nonce".toList n _ (by decide)]
    exact W2
  generalize hg3 : (normalizeStringFieldH g2 c2 (.href n) "nonce".toList).1 = g3,
    hc3 : (normalizeStringFieldH g2 c2 (.href n) "nonce".toList).2 = c3
  have E3 : HeapExt h0 g3 := hg3 ▸ E3'
  have P3 : hread g3 n "permitted".toList = pv := hg3 ▸ P3'
  have W3 : hread g3 n "witness".toList = wv := hg3 ▸ W3'
  have E4' := normalizeStringFieldH_ext h0 g3 c3 (.href n) "deadline".toList E3 hsN
  have P4' : hread (normalizeStringFieldH g3 c3 (.href n) "deadline".toList).1
      n "permitted".toList = pv := by
    rw [normalizeStringFieldH_hread g3 c3 (.href n) "deadline".toList n _ (by decide)]
    exact P3
  have W4' : hread (normalizeStringFieldH g3 c3 (.href n) "deadline".toList).1
      n "witness".toList = wv := by
    rw [normalizeStringFieldH_hread g3 c3 (.href n) "deadline".toList n _ (by decide)]
    exact W3
  generalize hg4 : (normalizeStringFieldH g3 c3 (.href n) "deadline".toList).1 = g4,
    hc4 : (normalizeStringFieldH g3 c3 (.href n) "deadline".toList).2 = c4
  have E4 : HeapExt h0 g4 := hg4 ▸ E4'
  have P4 : hread g4 n "permitted".toList = pv := hg4 ▸ P4'
  have W4 : hread g4 n "witness".toList = wv := hg4 ▸ W4'
  rw [P4]
  have E5' := normalizeStringFieldH_ext h0 g4 c4 pv "token".toList E4 hsP
  have P5' : hread (normalizeStringFieldH g4 c4 pv "token".toList).1
      n "permitted".toList = pv := by
    rw [normalizeStringFieldH_hread g4 c4 pv "token".toList n _ (by decide)]
    exact P4
  have W5' : hread (normalizeStringFieldH g4 c4 pv "token".toList).1
      n "witness".toList = wv := by
    rw [normalizeStringFieldH_hread g4 c4 pv "token".toList n _ (by decide)]
    exact W4
  generalize hg5 : (normalizeStringFieldH g4 c4 pv "token".toList).1 = g5,
    hc5 : (normalizeStringFieldH g4 c4 pv "token".toList).2 = c5
  have E5 : HeapExt h0 g5 := hg5 ▸ E5'
  have P5 : hread g5 n "permitted".toList = pv := hg5 ▸ P5'
  have W5 : hread g5 n "witness".toList = wv := hg5 ▸ W5'
  rw [P5]
  have E6' := normalizeStringFieldH_ext h0 g5 c5 pv "amount".toList E5 hsP
  have P6' : hread (normalizeStringFieldH g5 c5 pv "amount".toList).1
      n "permitted".toList = pv := by
    rw [normalizeStringFieldH_hread g5 c5 pv "amount".toList n _ (by decide)]
    exact P5
  have W6' : hread (normalizeStringFieldH g5 c5 pv "amount".toList).1
      n "witness".toList = wv := by
    rw [normalizeStringFieldH_hread g5 c5 pv "amount".toList n _ (by decide)]
    exact W5
  generalize hg6 : (normalizeStringFieldH g5 c5 pv "amount".toList).1 = g6,
    hc6 : (normalizeStringFieldH g5 c5 pv "amount".toList).2 = c6
  have E6 : HeapExt h0 g6 := hg6 ▸ E6'
  have P6 : hread g6 n "permitted".toList = pv := hg6 ▸ P6'
  have W6 : hread g6 n "witness".toList = wv := hg6 ▸ W6'
  rw [W6]
  have E7' := normalizeStringFieldH_ext h0 g6 c6 wv "to".toList E6 hsW
  have P7' : hread (normalizeStringFieldH g6 c6 wv "to".toList).1
      n "permitted".toList = pv := by
    rw [normalizeStringFieldH_hread g6 c6 wv "to".toList n _ (by decide)]
    exact P6
  have W7' : hread (normalizeStringFieldH g6 c6 wv "to".toList).1
      n "witness".toList = wv := by
    rw [normalizeStringFieldH_hread g6 c6 wv "to".toList n _ (by decide)]
    exact W6
  generalize hg7 : (normalizeStringFieldH g6 c6 wv "to".toList).1 = g7,
    hc7 : (normalizeStringFieldH g6 c6 wv "to".toList).2 = c7
  have E7 : HeapExt h0 g7 := hg7 ▸ E7'
  have P7 : hread g7 n "permitted".toList = pv := hg7 ▸ P7'
  have W7 : hread g7 n "witness".toList = wv := hg7 ▸ W7'
  rw [W7]
  have E8' := normalizeStringFieldH_ext h0 g7 c7 wv "validAfter".toList E7 hsW
  have P8' : hread (normalizeStringFieldH g7 c7 wv "validAfter".toList).1
      n "permitted".toList = pv := by
    rw [normalizeStringFieldH_hread g7 c7 wv "validAfter".toList n _ (by decide)]
    exact P7
  have W8' : hread (normalizeStringFieldH g7 c7 wv "validAfter".toList).1
      n "witness".toList = wv := by
    rw [normalizeStringFieldH_hread g7 c7 wv "validAfter".toList n _ (by decide)]
    exact W7
  generalize hg8 : (normalizeStringFieldH g7 c7 wv "validAfter".toList).1 = g8,
    hc8 : (normalizeStringFieldH g7 c7 wv "validAfter".toList).2 = c8
  have E8 : HeapExt h0 g8 := hg8 ▸ E8'
  have P8 : hread g8 n "permitted".toList = pv := hg8 ▸ P8'
  have W8 : hread g8 n "witness".toList = wv := hg8 ▸ W8'
  rw [W8]
  have E9' := normalizeStringFieldH_ext h0 g8 c8 wv "extra".toList E8 hsW
  have P9' : hread (normalizeStringFieldH g8 c8 wv "extra".toList).1
      n "permitted".toList = pv := by
    rw [normalizeStringFieldH_hread g8 c8 wv "extra".toList n _ (by decide)]
    exact P8
  have W9' : hread (normalizeStringFieldH g8 c8 wv "extra".toList).1
      n "witness".toList = wv := by
    rw [normalizeStringFieldH_hread g8 c8 wv "extra".toList n _ (by decide)]
    exact W8
  generalize hg9 : (normalizeStringFieldH g8 c8 wv "extra".toList).1 = g9,
    hc9 : (normalizeStringFieldH g8 c8 wv "extra".toList).2 = c9
  have E9 : HeapExt h0 g9 := hg9 ▸ E9'
  have P9 : hread g9 n "permitted".toList = pv := hg9 ▸ P9'
  have W9 : hread g9 n "witness".toList = wv := hg9 ▸ W9'
  exact ⟨E9, P9, W9⟩

theorem permit2AddrsH_spec (hash : Str → Nat → Nat) (h0 g0 : Heap)
    (c0 : Bool) (n : Nat) (pv wv : HVal) (E0 : HeapExt h0 g0)
    (P0 : hread g0 n "permitted".toList = pv)
    (W0 : hread g0 n "witness".toList = wv)
    (hsN : SafeV h0 (.href n)) (hsP : SafeV h0 pv) (hsW : SafeV h0 wv) :
    HeapExt h0 (permit2AddrsH hash (g0, c0) n).1 ∧
    hread (permit2AddrsH hash (g0, c0) n).1 n "permitted".toList = pv ∧
    hread (permit2AddrsH hash (g0, c0) n).1 n "witness".toList = wv := by
  unfold permit2AddrsH
  dsimp only
  have E1' := addrFieldH_ext hash h0 g0 c0 n "from".toList E0 (hsN n rfl)
  have P1' : hread (addrFieldH hash g0 c0 n "from".toList).1 n "permitted".toList = pv := by
    rw [addrFieldH_hread hash g0 c0 n "from".toList n _ (by decide)]
    exact P0
  have W1' : hread (addrFieldH hash g0 c0 n "from".toList).1 n "witness".toList = wv := by
    rw [addrFieldH_hread hash g0 c0 n "from".toList n _ (by decide)]
    exact W0
  generalize hg1 : (addrFieldH hash g0 c0 n "from".toList).1 = g1, hc1 : (addrFieldH hash g0 c0 n "from".toList).2 = c1
  have E1 : HeapExt h0 g1 := hg1 ▸ E1'
  have P1 : hread g1 n "permitted".toList = pv := hg1 ▸ P1'
  have W1 : hread g1 n "witness".toList = wv := hg1 ▸ W1'
  have E2' := addrFieldH_ext hash h0 g1 c1 n "spender".toList E1 (hsN n rfl)
  have P2' : hread (addrFieldH hash g1 c1 n "spender".toList).1 n "permitted".toList = pv := by
    rw [addrFieldH_hread hash g1 c1 n "spender".toList n _ (by decide)]
    exact P1
  have W2' : hread (addrFieldH hash g1 c1 n "spender".toList).1 n "witness".toList = wv := by
    rw [addrFieldH_hread hash g1 c1 n "spender".toList n _ (by decide)]
    exact W1
  generalize hg2 : (addrFieldH hash g1 c1 n "spender".toList).1 = g2, hc2 : (addrFieldH hash g1 c1 n "spender".toList).2 = c2
  have E2 : HeapExt h0 g2 := hg2 ▸ E2'
  have P2 : hread g2 n "permitted".toList = pv := hg2 ▸ P2'
  have W2 : hread g2 n "witness".toList = wv := hg2 ▸ W2'
  have E3' := permittedTokenH_ext hash h0 g2 c2 n E2 (fun t ht => hsP t (P2 ▸ ht))
  have P3' : hread (permittedTokenH hash g2 c2 n).1 n "permitted".toList = pv := by
    rw [permittedTokenH_hread hash g2 c2 n n _ (by decide)]
    exact P2
  have W3' : hread (permittedTokenH hash g2 c2 n).1 n "witness".toList = wv := by
    rw [permittedTokenH_hread hash g2 c2 n n _ (by decide)]
    exact W2
  generalize hg3 : (permittedTokenH hash g2 c2 n).1 = g3, hc3 : (permittedTokenH hash g2 c2 n).2 = c3
  have E3 : HeapExt h0 g3 := hg3 ▸ E3'
  have P3 : hread g3 n "permitted".toList = pv := hg3 ▸ P3'
  have W3 : hread g3 n "witness".toList = wv := hg3 ▸ W3'
  refine ⟨?_, ?_, ?_⟩
  · exact witnessBlockH_ext hash h0 g3 c3 n E3 (fun t ht => hsW t (W3 ▸ ht))
  · rw [witnessBlockH_hread hash g3 c3 n n _ (by decide) (by decide)]
    exact P3
  · rw [witnessBlockH_hread hash g3 c3 n n _ (by decide) (by decide)]
    exact W3

theorem permit2IntsH_spec (h0 g0 : Heap) (c0 : Bool) (n : Nat) (pv wv : HVal)
    (E0 : HeapExt h0 g0)
    (P0 : hread g0 n "permitted".toList = pv)
    (W0 : hread g0 n "witness".toList = wv)
    (hsN : SafeV h0 (.href n)) (hsP : SafeV h0 pv) (hsW : SafeV h0 wv) :
    HeapExt h0 (permit2IntsH (g0, c0) n).1 ∧
    hread (permit2IntsH (g0, c0) n).1 n "permitted".toList = pv ∧
    hread (permit2IntsH (g0, c0) n).1 n "witness".toList = wv := by
  unfold permit2IntsH
  dsimp only
  rw [show permit2IntPath g0 c0 n ["nonce".toList] =
      intFieldH g0 c0 n "nonce".toList from rfl]
  have E1' := intFieldH_ext h0 g0 c0 n "nonce".toList E0 (hsN n rfl)
  have P1' : hread (intFieldH g0 c0 n "nonce".toList).1 n "permitted".toList = pv := by
    rw [intFieldH_hread g0 c0 n "nonce".toList n _ (by decide)]
    exact P0
  have W1' : hread (intFieldH g0 c0 n "nonce".toList).1 n "witness".toList = wv := by
    rw [intFieldH_hread g0 c0 n "nonce".toList n _ (by decide)]
    exact W0
  generalize hg1 : (intFieldH g0 c0 n "nonce".toList).1 = g1, hc1 : (intFieldH g0 c0 n "nonce".toList).2 = c1
  have E1 : HeapExt h0 g1 := hg1 ▸ E1'
  have P1 : hread g1 n "permitted".toList = pv := hg1 ▸ P1'
  have W1 : hread g1 n "witness".toList = wv := hg1 ▸ W1'
  rw [show permit2IntPath g1 c1 n ["deadline".toList] =
      intFieldH g1 c1 n "deadline".toList from rfl]
  have E2' := intFieldH_ext h0 g1 c1 n "deadline".toList E1 (hsN n rfl)
  have P2' : hread (intFieldH g1 c1 n "deadline".toList).1 n "permitted".toList = pv := by
    rw [intFieldH_hread g1 c1 n "deadline".toList n _ (by decide)]
    exact P1
  have W2' : hread (intFieldH g1 c1 n "deadline".toList).1 n "witness".toList = wv := by
    rw [intFieldH_hread g1 c1 n "deadline".toList n _ (by decide)]
    exact W1
  generalize hg2 : (intFieldH g1 c1 n "deadline".toList).1 = g2, hc2 : (intFieldH g1 c1 n "deadline".toList).2 = c2
  have E2 : HeapExt h0 g2 := hg2 ▸ E2'
  have P2 : hread g2 n "permitted".toList = pv := hg2 ▸ P2'
  have W2 : hread g2 n "witness".toList = wv := hg2 ▸ W2'
  rw [show permit2IntPath g2 c2 n ["permitted".toList, "amount".toList] =
      nestedIntH g2 c2 n "permitted".toList "amount".toList from rfl]
  have E3' := nestedIntH_ext h0 g2 c2 n "permitted".toList "amount".toList E2 (fun t ht => hsP t (P2 ▸ ht))
  have P3' : hread (nestedIntH g2 c2 n "permitted".toList "amount".toList).1 n "permitted".toList = pv := by
    rw [nestedIntH_hread g2 c2 n "permitted".toList "amount".toList n _ (by decide)]
    exact P2
  have W3' : hread (nestedIntH g2 c2 n "permitted".toList "amount".toList).1 n "witness".toList = wv := by
    rw [nestedIntH_hread g2 c2 n "permitted".toList "amount".toList n _ (by decide)]
    exact W2
  generalize hg3 : (nestedIntH g2 c2 n "permitted".toList "amount".toList).1 = g3, hc3 : (nestedIntH g2 c2 n "permitted".toList "amount".toList).2 = c3
  have E3 : HeapExt h0 g3 := hg3 ▸ E3'
  have P3 : hread g3 n "permitted".toList = pv := hg3 ▸ P3'
  have W3 : hread g3 n "witness".toList = wv := hg3 ▸ W3'
  rw [show permit2IntPath g3 c3 n ["witness".toList, "validAfter".toList] =
      nestedIntH g3 c3 n "witness".toList "validAfter".toList from rfl]
  refine ⟨?_, ?_, ?_⟩
  · exact nestedIntH_ext h0 g3 c3 n "witness".toList "validAfter".toList E3
      (fun t ht => hsW t (W3 ▸ ht))
  · rw [nestedIntH_hread g3 c3 n "witness".toList "validAfter".toList n _
      (by decide)]
    exact P3
  · rw [nestedIntH_hread g3 c3 n "witness".toList "validAfter".toList n _
      (by decide)]
    exact W3

/-- The body of the heap `normalizePermit2AuthorizationPayload` only
    allocates and writes fresh copies: the heap extends, the result is a
    fresh reference, and when the input's `permitted` / `witness` slots
    were (live) objects, the result's slots are distinct fresh copies. -/
theorem permit2BodyH_spec (hash : Str → Nat → Nat) (h : Heap) (o : HObj)
    (hwf : h.wfb = true) :
    HeapExt h (permit2BodyH hash h o).1 ∧
    ∃ n, (permit2BodyH hash h o).2.1 = .href n ∧ h.next ≤ n ∧
      (∀ rp op, ogetH o.fields "permitted".toList = .href rp →
        h.find rp = some op →
        ∃ np, hread (permit2BodyH hash h o).1 n "permitted".toList = .href np ∧
          h.next ≤ np ∧ np < n) ∧
      (∀ rq oq, ogetH o.fields "witness".toList = .href rq →
        h.find rq = some oq →
        ∃ nq, hread (permit2BodyH hash h o).1 n "witness".toList = .href nq ∧
          h.next ≤ nq ∧ nq < n) := by
  unfold permit2BodyH
  dsimp only
  have Ec1 := copySub_ext h (ogetH o.fields "permitted".toList)
  have Sc1 := copySub_safe h (ogetH o.fields "permitted".toList)
  have F1 : ∀ rp op, ogetH o.fields "permitted".toList = .href rp →
      h.find rp = some op →
      (copySub h (ogetH o.fields "permitted".toList)).2 = .href h.next ∧
      (copySub h (ogetH o.fields "permitted".toList)).1.next = h.next + 1 := by
    intro rp op hr hf
    rw [copySub_found h _ rp op hr hf]
    exact ⟨rfl, rfl⟩
  generalize hp1 : (copySub h (ogetH o.fields "permitted".toList)).1 = h1,
    hp2 : (copySub h (ogetH o.fields "permitted".toList)).2 = pv
  replace Ec1 : HeapExt h h1 := hp1 ▸ Ec1
  replace Sc1 : SafeV h pv := hp2 ▸ Sc1
  replace F1 : ∀ rp op, ogetH o.fields "permitted".toList = .href rp →
      h.find rp = some op → pv = .href h.next ∧ h1.next = h.next + 1 :=
    hp1 ▸ hp2 ▸ F1
  have Ec2 := copySub_ext h1 (ogetH o.fields "witness".toList)
  have Sc2 := copySub_safe h1 (ogetH o.fields "witness".toList)
  have F2 : ∀ rq oq, ogetH o.fields "witness".toList = .href rq →
      h1.find rq = some oq →
      (copySub h1 (ogetH o.fields "witness".toList)).2 = .href h1.next ∧
      (copySub h1 (ogetH o.fields "witness".toList)).1.next = h1.next + 1 := by
    intro rq oq hr hf
    rw [copySub_found h1 _ rq oq hr hf]
    exact ⟨rfl, rfl⟩
  generalize hq1 : (copySub h1 (ogetH o.fields "witness".toList)).1 = h2,
    hq2 : (copySub h1 (ogetH o.fields "witness".toList)).2 = wv
  replace Ec2 : HeapExt h1 h2 := hq1 ▸ Ec2
  replace Sc2 : SafeV h1 wv := hq2 ▸ Sc2
  replace F2 : ∀ rq oq, ogetH o.fields "witness".toList = .href rq →
      h1.find rq = some oq → wv = .href h1.next ∧ h2.next = h1.next + 1 :=
    hq1 ▸ hq2 ▸ F2
  have SwV : SafeV h wv := SafeV_mono h h1 wv Ec1 Sc2
  have Eh2 : HeapExt h h2 := HeapExt_trans h h1 h2 Ec1 Ec2
  have hn_ge : h.next ≤ h2.next := Eh2.1
  have hsafeN : SafeV h (.href h2.next) := by
    intro t ht
    cases ht
    exact Or.inl hn_ge
  have P0' : hread (h2.alloc { isArr := false, fields := osetH (osetH o.fields "permitted".toList pv) "witness".toList wv }).1 h2.next "permitted".toList = pv := by
    unfold hread
    rw [find_alloc_self]
    dsimp only
    rw [ogetH_osetH_ne _ _ _ _ (by decide), ogetH_osetH_self]
  have W0' : hread (h2.alloc { isArr := false, fields := osetH (osetH o.fields "permitted".toList pv) "witness".toList wv }).1 h2.next "witness".toList = wv := by
    unfold hread
    rw [find_alloc_self]
    dsimp only
    rw [ogetH_osetH_self]
  have E0' : HeapExt h (h2.alloc { isArr := false, fields := osetH (osetH o.fields "permitted".toList pv) "witness".toList wv }).1 :=
    HeapExt_trans h h2 _ Eh2 (HeapExt_alloc h2 h2 _ (HeapExt_refl h2))
  rw [show (h2.alloc { isArr := false, fields := osetH (osetH o.fields "permitted".toList pv) "witness".toList wv }).2 = h2.next from rfl]
  generalize hg0 : (h2.alloc { isArr := false, fields := osetH (osetH o.fields "permitted".toList pv) "witness".toList wv }).1 = g0
  have E0 : HeapExt h g0 := hg0 ▸ E0'
  have P0 : hread g0 h2.next "permitted".toList = pv := hg0 ▸ P0'
  have W0 : hread g0 h2.next "witness".toList = wv := hg0 ▸ W0'
  obtain ⟨E1, P1, W1⟩ := permit2StringsH_spec hash h g0 false h2.next pv wv
    E0 P0 W0 hsafeN Sc1 SwV
  generalize hs1 : permit2StringsH hash (g0, false) h2.next = s1 at E1 P1 W1 ⊢
  obtain ⟨E2, P2, W2⟩ := permit2AddrsH_spec hash h s1.1 s1.2 h2.next pv wv
    E1 P1 W1 hsafeN Sc1 SwV
  have hs1e : (s1.1, s1.2) = s1 := rfl
  rw [hs1e] at E2 P2 W2
  generalize hs2 : permit2AddrsH hash s1 h2.next = s2 at E2 P2 W2 ⊢
  obtain ⟨E3, P3, W3⟩ := permit2IntsH_spec h s2.1 s2.2 h2.next pv wv
    E2 P2 W2 hsafeN Sc1 SwV
  have hs2e : (s2.1, s2.2) = s2 := rfl
  rw [hs2e] at E3 P3 W3
  generalize hs3 : permit2IntsH s2 h2.next = s3 at E3 P3 W3 ⊢
  refine ⟨E3, h2.next, rfl, hn_ge, ?_, ?_⟩
  · intro rp op hrp hfp
    obtain ⟨hpv, hx1⟩ := F1 rp op hrp hfp
    refine ⟨h.next, ?_, Nat.le_refl _, ?_⟩
    · rw [P3, hpv]
    · have := Ec2.1
      omega
  · intro rq oq hrq hfq
    have hlt : rq < h.next := find_some_lt h hwf rq oq hfq
    have hfq1 : h1.find rq = some oq := by
      rw [Ec1.2 rq hlt]
      exact hfq
    obtain ⟨hwv2, hx2⟩ := F2 rq oq hrq hfq1
    refine ⟨h1.next, ?_, Ec1.1, ?_⟩
    · rw [W3, hwv2]
    · omega

theorem normalizeAuthorizationPayloadH_ext (hash : Str → Nat → Nat)
    (h : Heap) (v : HVal) :
    HeapExt h (normalizeAuthorizationPayloadH hash h v).1 := by
  cases v with
  | href a =>
    simp only [normalizeAuthorizationPayloadH]
    cases hf : h.find a with
    | some o =>
      dsimp only
      split_ifs with ha
      · exact HeapExt_refl h
      · exact (authBodyH_spec hash h o).1
    | none => exact HeapExt_refl h
  | hstr s => exact HeapExt_refl h
  | hnum m => exact HeapExt_refl h
  | hbool b => exact HeapExt_refl h
  | hnull => exact HeapExt_refl h
  | hundefined => exact HeapExt_refl h

theorem normalizePermit2AuthorizationPayloadH_ext (hash : Str → Nat → Nat)
    (h : Heap) (v : HVal) (hwf : h.wfb = true) :
    HeapExt h (normalizePermit2AuthorizationPayloadH hash h v).1 := by
  cases v with
  | href a =>
    simp only [normalizePermit2AuthorizationPayloadH]
    cases hf : h.find a with
    | some o =>
      dsimp only
      split_ifs with ha
      · exact HeapExt_refl h
      · exact (permit2BodyH_spec hash h o hwf).1
    | none => exact HeapExt_refl h
  | hstr s => exact HeapExt_refl h
  | hnum m => exact HeapExt_refl h
  | hbool b => exact HeapExt_refl h
  | hnull => exact HeapExt_refl h
  | hundefined => exact HeapExt_refl h

/-- C10: on the heap embedding, `normalizeAuthorizationPayload` and
    `normalizePermit2AuthorizationPayload` never mutate their argument:
    every reference allocated before the call resolves to exactly the
    same object afterwards (so every field of the argument, nested
    fields included, holds the same value), the returned record is a
    fresh reference unknown to the original heap, and for the permit2
    normalizer the nested `permitted` / `witness` slots of the result
    are themselves fresh, distinct copies whenever the argument's slots
    held (live) objects. -/
theorem normalizers_no_mutation (hash : Str → Nat → Nat) (h : Heap)
    (v : HVal) (hwf : h.wfb = true) :
    (∀ r, r < h.next →
      (normalizeAuthorizationPayloadH hash h v).1.find r = h.find r ∧
      (normalizePermit2AuthorizationPayloadH hash h v).1.find r = h.find r) ∧
    (∀ a o, v = .href a → h.find a = some o → o.isArr = false →
      (∃ n, h.next ≤ n ∧ h.find n = none ∧
        (normalizeAuthorizationPayloadH hash h v).2.1 = .href n) ∧
      (∃ n, h.next ≤ n ∧ h.find n = none ∧
        (normalizePermit2AuthorizationPayloadH hash h v).2.1 = .href n ∧
        (∀ rp op, ogetH o.fields "permitted".toList = .href rp →
          h.find rp = some op →
          ∃ np, hread (normalizePermit2AuthorizationPayloadH hash h v).1 n
              "permitted".toList = .href np ∧ h.next ≤ np ∧ np ≠ n) ∧
        (∀ rq oq, ogetH o.fields "witness".toList = .href rq →
          h.find rq = some oq →
          ∃ nq, hread (normalizePermit2AuthorizationPayloadH hash h v).1 n
              "witness".toList = .href nq ∧ h.next ≤ nq ∧ nq ≠ n))) := by
  have hauth := normalizeAuthorizationPayloadH_ext hash h v
  have hperm := normalizePermit2AuthorizationPayloadH_ext hash h v hwf
  refine ⟨fun r hr => ⟨hauth.2 r hr, hperm.2 r hr⟩, ?_⟩
  intro a o hv hfind harr
  subst hv
  have hbodyA : normalizeAuthorizationPayloadH hash h (.href a) =
      authBodyH hash h o := by
    simp only [normalizeAuthorizationPayloadH, hfind]
    rw [if_neg (by simp [harr])]
  have hbodyP : normalizePermit2AuthorizationPayloadH hash h (.href a) =
      permit2BodyH hash h o := by
    simp only [normalizePermit2AuthorizationPayloadH, hfind]
    rw [if_neg (by simp [harr])]
  constructor
  · refine ⟨h.next, Nat.le_refl _, wfb_find_none h hwf h.next (Nat.le_refl _), ?_⟩
    rw [hbodyA]
    exact (authBodyH_spec hash h o).2
  · obtain ⟨-, n, hval, hge, hP, hW⟩ := permit2BodyH_spec hash h o hwf
    refine ⟨n, hge, wfb_find_none h hwf n hge, ?_, ?_, ?_⟩
    · rw [hbodyP]
      exact hval
    · intro rp op hrp hfp
      obtain ⟨np, hnp, hnp2, hnp3⟩ := hP rp op hrp hfp
      refine ⟨np, ?_, hnp2, Nat.ne_of_lt hnp3⟩
      rw [hbodyP]
      exact hnp
    · intro rq oq hrq hfq
      obtain ⟨nq, hnq, hnq2, hnq3⟩ := hW rq oq hrq hfq
      refine ⟨nq, ?_, hnq2, Nat.ne_of_lt hnq3⟩
      rw [hbodyP]
      exact hnq

/-- Witness for C10 at a concrete well-formed heap: a record at
    reference 0 whose `permitted` and `witness` slots hold the live
    objects at references 1 and 2. -/
theorem normalizers_no_mutation_witness :
    (⟨[(0, ⟨false, [("permitted".toList, HVal.href 1), ("witness".toList, HVal.href 2)]⟩), (1, ⟨false, []⟩), (2, ⟨false, []⟩)], 3⟩ : Heap).wfb = true ∧
    (∀ r, r < (⟨[(0, ⟨false, [("permitted".toList, HVal.href 1), ("witness".toList, HVal.href 2)]⟩), (1, ⟨false, []⟩), (2, ⟨false, []⟩)], 3⟩ : Heap).next →
      (normalizeAuthorizationPayloadH (fun _ _ => 0) (⟨[(0, ⟨false, [("permitted".toList, HVal.href 1), ("witness".toList, HVal.href 2)]⟩), (1, ⟨false, []⟩), (2, ⟨false, []⟩)], 3⟩ : Heap) (.href 0)).1.find r = (⟨[(0, ⟨false, [("permitted".toList, HVal.href 1), ("witness".toList, HVal.href 2)]⟩), (1, ⟨false, []⟩), (2, ⟨false, []⟩)], 3⟩ : Heap).find r ∧
      (normalizePermit2AuthorizationPayloadH (fun _ _ => 0) (⟨[(0, ⟨false, [("permitted".toList, HVal.href 1), ("witness".toList, HVal.href 2)]⟩), (1, ⟨false, []⟩), (2, ⟨false, []⟩)], 3⟩ : Heap) (.href 0)).1.find r = (⟨[(0, ⟨false, [("permitted".toList, HVal.href 1), ("witness".toList, HVal.href 2)]⟩), (1, ⟨false, []⟩), (2, ⟨false, []⟩)], 3⟩ : Heap).find r) ∧
    (∀ a o, HVal.href 0 = .href a → (⟨[(0, ⟨false, [("permitted".toList, HVal.href 1), ("witness".toList, HVal.href 2)]⟩), (1, ⟨false, []⟩), (2, ⟨false, []⟩)], 3⟩ : Heap).find a = some o → o.isArr = false →
      (∃ n, (⟨[(0, ⟨false, [("permitted".toList, HVal.href 1), ("witness".toList, HVal.href 2)]⟩), (1, ⟨false, []⟩), (2, ⟨false, []⟩)], 3⟩ : Heap).next ≤ n ∧ (⟨[(0, ⟨false, [("permitted".toList, HVal.href 1), ("witness".toList, HVal.href 2)]⟩), (1, ⟨false, []⟩), (2, ⟨false, []⟩)], 3⟩ : Heap).find n = none ∧
        (normalizeAuthorizationPayloadH (fun _ _ => 0) (⟨[(0, ⟨false, [("permitted".toList, HVal.href 1), ("witness".toList, HVal.href 2)]⟩), (1, ⟨false, []⟩), (2, ⟨false, []⟩)], 3⟩ : Heap) (.href 0)).2.1 = .href n) ∧
      (∃ n, (⟨[(0, ⟨false, [("permitted".toList, HVal.href 1), ("witness".toList, HVal.href 2)]⟩), (1, ⟨false, []⟩), (2, ⟨false, []⟩)], 3⟩ : Heap).next ≤ n ∧ (⟨[(0, ⟨false, [("permitted".toList, HVal.href 1), ("witness".toList, HVal.href 2)]⟩), (1, ⟨false, []⟩), (2, ⟨false, []⟩)], 3⟩ : Heap).find n = none ∧
        (normalizePermit2AuthorizationPayloadH (fun _ _ => 0) (⟨[(0, ⟨false, [("permitted".toList, HVal.href 1), ("witness".toList, HVal.href 2)]⟩), (1, ⟨false, []⟩), (2, ⟨false, []⟩)], 3⟩ : Heap) (.href 0)).2.1 = .href n ∧
        (∀ rp op, ogetH o.fields "permitted".toList = .href rp →
          (⟨[(0, ⟨false, [("permitted".toList, HVal.href 1), ("witness".toList, HVal.href 2)]⟩), (1, ⟨false, []⟩), (2, ⟨false, []⟩)], 3⟩ : Heap).find rp = some op →
          ∃ np, hread (normalizePermit2AuthorizationPayloadH (fun _ _ => 0) (⟨[(0, ⟨false, [("permitted".toList, HVal.href 1), ("witness".toList, HVal.href 2)]⟩), (1, ⟨false, []⟩), (2, ⟨false, []⟩)], 3⟩ : Heap) (.href 0)).1 n
              "permitted".toList = .href np ∧ (⟨[(0, ⟨false, [("permitted".toList, HVal.href 1), ("witness".toList, HVal.href 2)]⟩), (1, ⟨false, []⟩), (2, ⟨false, []⟩)], 3⟩ : Heap).next ≤ np ∧ np ≠ n) ∧
        (∀ rq oq, ogetH o.fields "witness".toList = .href rq →
          (⟨[(0, ⟨false, [("permitted".toList, HVal.href 1), ("witness".toList, HVal.href 2)]⟩), (1, ⟨false, []⟩), (2, ⟨false, []⟩)], 3⟩ : Heap).find rq = some oq →
          ∃ nq, hread (normalizePermit2AuthorizationPayloadH (fun _ _ => 0) (⟨[(0, ⟨false, [("permitted".toList, HVal.href 1), ("witness".toList, HVal.href 2)]⟩), (1, ⟨false, []⟩), (2, ⟨false, []⟩)], 3⟩ : Heap) (.href 0)).1 n
              "witness".toList = .href nq ∧ (⟨[(0, ⟨false, [("permitted".toList, HVal.href 1), ("witness".toList, HVal.href 2)]⟩), (1, ⟨false, []⟩), (2, ⟨false, []⟩)], 3⟩ : Heap).next ≤ nq ∧ nq ≠ n))) :=
  ⟨by decide, normalizers_no_mutation (fun _ _ => 0) (⟨[(0, ⟨false, [("permitted".toList, HVal.href 1), ("witness".toList, HVal.href 2)]⟩), (1, ⟨false, []⟩), (2, ⟨false, []⟩)], 3⟩ : Heap) (.href 0) (by decide)⟩

end X402
